import Mathlib

/-!
# Ordered containers of `tile`: skip list and priority queue

A shallow embedding of `internal/list/skip_list.go` and
`internal/queue/priority_queue.go`, with the comparator of `types.go` and the
error constructors of `internal/errs/error.go`.

Conventions of the embedding.

* A Go pointer `*skipListNode[T]` is an address: an index into the list `mem` of
  allocated nodes, `none` standing for `nil`.  Allocation appends to `mem`.
* A Go function that may panic (nil dereference, index out of range) or loop
  forever returns an `Option`; `none` is "no result".
* Loops over links carry a step budget.  A walk that terminates visits every
  allocated node at most once, so the budget is the number of allocated nodes.
  The two heap loops move one level of the tree per round, so their budget is the
  length of the slice plus one.
* A method that only reads its receiver is a function of the state and returns no
  new state.
* Go's `int` is `Int` where a value may be negative, `Nat` for the level counters
  that the code keeps positive.
* `make([]T, 0, cap)` with a capacity chosen by the caller keeps the range check of
  the runtime, which needs the size of a value of `T`; that size is the parameter
  `elemSize` of the constructor of the queue.  Memory is taken to be available for
  a request the runtime accepts.
-/

namespace Tile

/-! ## Comparator and errors -/

/-- Comparator of `types.go`: negative, zero or positive for less, equal, greater. -/
abbrev Comparator (T : Type) := T → T → Int

/-- ComparatorRealNumber of `types.go`, at the integers. -/
def ComparatorRealNumber (src dst : Int) : Int :=
  if src < dst then -1
  else if src = dst then 0
  else 1

/-- The error values the two containers return. -/
inductive Error where
  /-- Result of `errs.NewErrIndexOutOfRange(length, index)`. -/
  | IndexOutOfRange (length index : Int)
  /-- Result of `errors.New("跳表为空")` in `SkipList.Peek`. -/
  | ErrEmptySkipList
  /-- Value of `queue.ErrOutOfCapacity`. -/
  | ErrOutOfCapacity
  /-- Value of `queue.ErrEmptyQueue`. -/
  | ErrEmptyQueue
  deriving DecidableEq

/-- NewErrIndexOutOfRange of `internal/errs/error.go`. -/
def NewErrIndexOutOfRange (length index : Int) : Error :=
  Error.IndexOutOfRange length index

/-- A comparator that is a total order: reflexive, antisymmetric in sign, transitive. -/
structure TotalOrder {T : Type} (compare : Comparator T) : Prop where
  refl : ∀ a, compare a a = 0
  flip : ∀ a b, compare a b < 0 ↔ 0 < compare b a
  trans : ∀ a b c, compare a b ≤ 0 → compare b c ≤ 0 → compare a c ≤ 0

/-! ## Skip list: data model -/

/-- MaxLevel of `skip_list.go`. -/
def MaxLevel : Nat := 32

/-- The Go struct `skipListNode[T]`; `Forward` holds addresses, `none` is `nil`. -/
structure skipListNode (T : Type) where
  Val : T
  Forward : List (Option Nat)

/-- The Go struct `SkipList[T]` together with the nodes allocated so far. -/
structure SkipList (T : Type) where
  mem : List (skipListNode T)
  header : Nat
  level : Nat
  compare : Comparator T
  size : Int

/-- newSkipListNode: a node with `level` nil forward slots. -/
def newSkipListNode {T : Type} (Val : T) (level : Nat) : skipListNode T :=
  { Val := Val, Forward := List.replicate level none }

/-- Read `p.Forward[i]`; `none` when `p` is not allocated or `i` is out of range. -/
def loadForward {T : Type} (mem : List (skipListNode T)) (p i : Nat) : Option (Option Nat) :=
  match mem[p]? with
  | none => none
  | some n => n.Forward[i]?

/-- Write `p.Forward[i] = q`; `none` when `p` is not allocated or `i` is out of range. -/
def storeForward {T : Type} (mem : List (skipListNode T)) (p i : Nat) (q : Option Nat) :
    Option (List (skipListNode T)) :=
  match mem[p]? with
  | none => none
  | some n =>
    if i < n.Forward.length then
      some (mem.set p { n with Forward := n.Forward.set i q })
    else none

/-- Write `xs[i] = x` on a slice; `none` when `i` is out of range. -/
def storeAt {α : Type} (xs : List α) (i : Nat) (x : α) : Option (List α) :=
  if i < xs.length then some (xs.set i x) else none

/-- NewSkipList: the header is the only allocated node, the level is 1. -/
def NewSkipList {T : Type} [Inhabited T] (compare : Comparator T) : SkipList T :=
  { mem := [{ Val := default, Forward := List.replicate MaxLevel none }]
    header := 0
    level := 1
    compare := compare
    size := 0 }

/-- Len returns the recorded size. -/
def SkipList.Len {T : Type} (sl : SkipList T) : Int := sl.size

/-! ## Skip list: loops and operations -/

/-- Loop of `AsSlice`: while `curr.Forward[0] != nil`, append its value and advance. -/
def AsSlice.loop {T : Type} (mem : List (skipListNode T)) :
    Nat → Nat → List T → Option (List T)
  | 0, _, _ => none
  | fuel + 1, curr, slice =>
    match loadForward mem curr 0 with
    | none => none
    | some none => some slice
    | some (some nxt) =>
      match mem[nxt]? with
      | none => none
      | some n => AsSlice.loop mem fuel nxt (slice ++ [n.Val])

/-- AsSlice walks the level-0 links from the header; `make([]T, 0, sl.size)` panics
on a negative capacity. -/
def AsSlice {T : Type} (sl : SkipList T) : Option (List T) :=
  if sl.size < 0 then none
  else AsSlice.loop sl.mem sl.mem.length sl.header []

/-- Inner loop of `traverse` at level `i`:
`for curr.Forward[i] != nil && compare(curr.Forward[i].Val, Val) < 0`. -/
def traverse.advance {T : Type} (mem : List (skipListNode T)) (compare : Comparator T)
    (Val : T) (i : Nat) : Nat → Nat → Option Nat
  | 0, _ => none
  | fuel + 1, curr =>
    match loadForward mem curr i with
    | none => none
    | some none => some curr
    | some (some nxt) =>
      match mem[nxt]? with
      | none => none
      | some n =>
        if compare n.Val Val < 0 then traverse.advance mem compare Val i fuel nxt
        else some curr

/-- Outer loop of `traverse`: `for i := level - 1; i >= 0; i--`; the first
argument is `i + 1`. -/
def traverse.descend {T : Type} (mem : List (skipListNode T)) (compare : Comparator T)
    (Val : T) : Nat → Nat → List (Option Nat) → Option (Nat × List (Option Nat))
  | 0, curr, update => some (curr, update)
  | i + 1, curr, update =>
    match traverse.advance mem compare Val i mem.length curr with
    | none => none
    | some c =>
      match storeAt update i (some c) with
      | none => none
      | some u => traverse.descend mem compare Val i c u

/-- The method `traverse`: the node reached and the per-level predecessors. -/
def traverse {T : Type} (sl : SkipList T) (Val : T) (level : Nat) :
    Option (Nat × List (Option Nat)) :=
  traverse.descend sl.mem sl.compare Val level sl.header (List.replicate MaxLevel none)

/-- FactorP of `skip_list.go`, `float32(0.25)`, as the exact fraction 1/4. -/
def FactorP : Nat × Nat := (1, 4)

/-- The bound `int32(p*0xFFFF)` of `randomLevel` with `p := FactorP`: the product
16383.75 is exact in `float32` and the conversion to `int32` truncates it. -/
def randomLevel.bound : Nat := 0xFFFF * FactorP.1 / FactorP.2

/-- Loop of `randomLevel`: `for (rand.Int31() & 0xFFFF) < int32(p*0xFFFF) { level++ }`.
The random source is the sequence `rand` of the successive results of `rand.Int31()`;
the loop variables are the number of draws taken so far and `level`. The loop has no
bound of its own, so the step budget is an argument. `level` is a natural number: a Go
`int` would wrap only after more than `2^31 - 1` increments. -/
def randomLevel.loop (rand : Nat → Nat) : Nat → Nat → Nat → Option (Nat × Nat)
  | 0, _, _ => none
  | fuel + 1, used, level =>
    if (rand used) &&& 0xFFFF < randomLevel.bound then
      randomLevel.loop rand fuel (used + 1) (level + 1)
    else some (level, used + 1)

/-- The method randomLevel: the level returned and the number of draws it took. -/
def randomLevel (rand : Nat → Nat) (fuel : Nat) : Option (Nat × Nat) :=
  match randomLevel.loop rand fuel 0 1 with
  | none => none
  | some (level, used) => some (if level < MaxLevel then level else MaxLevel, used)

/-- Search: traverse, then test the level-0 successor. -/
def Search {T : Type} (sl : SkipList T) (target : T) : Option Bool :=
  match traverse sl target sl.level with
  | none => none
  | some (curr, _) =>
    match loadForward sl.mem curr 0 with
    | none => none
    | some none => some false
    | some (some c) =>
      match sl.mem[c]? with
      | none => none
      | some n => some (decide (sl.compare n.Val target = 0))

/-- Loop of `Insert` for a level above the current one:
`for i := sl.level; i < level; i++ { update[i] = sl.header }`; the first argument
is the number of iterations left, `level - i`. -/
def Insert.raise (header : Nat) : Nat → Nat → List (Option Nat) → Option (List (Option Nat))
  | 0, _, update => some update
  | n + 1, i, update =>
    match storeAt update i (some header) with
    | none => none
    | some u => Insert.raise header n (i + 1) u

/-- Linking loop of `Insert`: `for i := 0; i < level; i++`, the new node takes
over `update[i].Forward[i]` and `update[i]` points to the new node; the first
argument is the number of iterations left, `level - i`. -/
def Insert.link {T : Type} (update : List (Option Nat)) (newNode : Nat) :
    Nat → Nat → List (skipListNode T) → Option (List (skipListNode T))
  | 0, _, mem => some mem
  | n + 1, i, mem =>
    match update[i]? with
    | none => none
    | some none => none
    | some (some p) =>
      match loadForward mem p i with
      | none => none
      | some nxt =>
        match storeForward mem newNode i nxt with
        | none => none
        | some mem1 =>
          match storeForward mem1 p i (some newNode) with
          | none => none
          | some mem2 => Insert.link update newNode n (i + 1) mem2

/-- Insert; `level` is the value that `sl.randomLevel()` returned for this call
(the first component of `randomLevel`). -/
def Insert {T : Type} (sl : SkipList T) (Val : T) (level : Nat) : Option (SkipList T) :=
  match traverse sl Val sl.level with
  | none => none
  | some (_, update) =>
    match (if level > sl.level then Insert.raise sl.header (level - sl.level) sl.level update
           else some update) with
    | none => none
    | some update1 =>
      match Insert.link update1 sl.mem.length level 0
              (sl.mem ++ [newSkipListNode Val level]) with
      | none => none
      | some mem1 =>
        some { sl with
                mem := mem1
                level := if level > sl.level then level else sl.level
                size := sl.size + 1 }

/-- Unlinking loop of `DeleteElement`:
`for i := 0; i < sl.level && update[i].Forward[i] == node; i++`; the first
argument is the number of iterations left, `sl.level - i`. -/
def DeleteElement.unlink {T : Type} (update : List (Option Nat)) (node : Nat) :
    Nat → Nat → List (skipListNode T) → Option (List (skipListNode T))
  | 0, _, mem => some mem
  | n + 1, i, mem =>
    match update[i]? with
    | none => none
    | some none => none
    | some (some p) =>
      match loadForward mem p i with
      | none => none
      | some q =>
        if q = some node then
          match loadForward mem node i with
          | none => none
          | some nxt =>
            match storeForward mem p i nxt with
            | none => none
            | some mem1 => DeleteElement.unlink update node n (i + 1) mem1
        else some mem

/-- Level loop of `DeleteElement`:
`for sl.level > 1 && sl.header.Forward[sl.level-1] == nil { sl.level-- }`. -/
def DeleteElement.lower {T : Type} (mem : List (skipListNode T)) (header : Nat) :
    Nat → Option Nat
  | 0 => some 0
  | l + 1 =>
    if 1 < l + 1 then
      match loadForward mem header l with
      | none => none
      | some none => DeleteElement.lower mem header l
      | some (some _) => some (l + 1)
    else some (l + 1)

/-- DeleteElement: the list after the call and the boolean it returns. -/
def DeleteElement {T : Type} (sl : SkipList T) (target : T) : Option (SkipList T × Bool) :=
  match traverse sl target sl.level with
  | none => none
  | some (curr, update) =>
    match loadForward sl.mem curr 0 with
    | none => none
    | some none => some (sl, true)
    | some (some node) =>
      match sl.mem[node]? with
      | none => none
      | some n =>
        if sl.compare n.Val target ≠ 0 then some (sl, true)
        else
          match DeleteElement.unlink update node sl.level 0 sl.mem with
          | none => none
          | some mem1 =>
            match DeleteElement.lower mem1 sl.header sl.level with
            | none => none
            | some level1 =>
              some ({ sl with mem := mem1, level := level1, size := sl.size - 1 }, true)

/-- Peek: the value of the level-0 head, or the empty-list error with the zero value. -/
def SkipList.Peek {T : Type} [Inhabited T] (sl : SkipList T) : Option (T × Option Error) :=
  match loadForward sl.mem sl.header 0 with
  | none => none
  | some none => some (default, some Error.ErrEmptySkipList)
  | some (some c) =>
    match sl.mem[c]? with
    | none => none
    | some n => some (n.Val, none)

/-- Loop of `Get`: `curr = curr.Forward[0]`, the given number of times. -/
def Get.walk {T : Type} (mem : List (skipListNode T)) : Nat → Option Nat → Option (Option Nat)
  | 0, curr => some curr
  | n + 1, curr =>
    match curr with
    | none => none
    | some c =>
      match loadForward mem c 0 with
      | none => none
      | some nxt => Get.walk mem n nxt

/-- Get: bounds check against `size`, then `index + 1` level-0 steps from the header. -/
def Get {T : Type} [Inhabited T] (sl : SkipList T) (index : Int) : Option (T × Option Error) :=
  if index < 0 ∨ index ≥ sl.size then
    some (default, some (NewErrIndexOutOfRange sl.size index))
  else
    match Get.walk sl.mem (index.toNat + 1) (some sl.header) with
    | none => none
    | some none => none
    | some (some c) =>
      match sl.mem[c]? with
      | none => none
      | some n => some (n.Val, none)

/-- Loop of `NewSkipListFromSlice`: insert each value in order; `levels` are the
values `randomLevel` returns for the successive inserts. -/
def NewSkipListFromSlice.loop {T : Type} :
    SkipList T → List T → List Nat → Option (SkipList T)
  | sl, [], _ => some sl
  | _, _ :: _, [] => none
  | sl, n :: slice, level :: levels =>
    match Insert sl n level with
    | none => none
    | some sl1 => NewSkipListFromSlice.loop sl1 slice levels

/-- NewSkipListFromSlice. -/
def NewSkipListFromSlice {T : Type} [Inhabited T] (slice : List T) (compare : Comparator T)
    (levels : List Nat) : Option (SkipList T) :=
  NewSkipListFromSlice.loop (NewSkipList compare) slice levels

/-! ## Sequences of calls -/

/-- A mutating call on a skip list; an insert carries the level drawn for it. -/
inductive Op (T : Type) where
  | insert (Val : T) (level : Nat)
  | delete (target : T)

/-- Whether the level drawn by the call lies in `1..MaxLevel`. -/
def Op.levelOk {T : Type} : Op T → Prop
  | Op.insert _ level => 1 ≤ level ∧ level ≤ MaxLevel
  | Op.delete _ => True

/-- One call applied to a list. -/
def applyOp {T : Type} (sl : SkipList T) : Op T → Option (SkipList T)
  | Op.insert Val level => Insert sl Val level
  | Op.delete target => (DeleteElement sl target).map Prod.fst

/-- A sequence of calls applied in order. -/
def runOps {T : Type} : SkipList T → List (Op T) → Option (SkipList T)
  | sl, [] => some sl
  | sl, op :: ops =>
    match applyOp sl op with
    | none => none
    | some sl1 => runOps sl1 ops

/-- The states reachable from `NewSkipList compare` by Insert and DeleteElement calls
whose drawn levels lie in `1..MaxLevel`. -/
def Reachable {T : Type} [Inhabited T] (compare : Comparator T) (sl : SkipList T) : Prop :=
  ∃ ops : List (Op T), (∀ op ∈ ops, op.levelOk) ∧ runOps (NewSkipList compare) ops = some sl

/-! ## Priority queue -/

/-- The Go struct `PriorityQueue[T]`; `data` is the backing slice, root at index 0. -/
structure PriorityQueue (T : Type) where
  compare : Comparator T
  capacity : Int
  data : List T

/-- Len is `len(p.data)`. -/
def PriorityQueue.Len {T : Type} (p : PriorityQueue T) : Int := p.data.length

/-- Cap is the recorded capacity. -/
def PriorityQueue.Cap {T : Type} (p : PriorityQueue T) : Int := p.capacity

/-- IsBoundless is `p.capacity <= 0`. -/
def PriorityQueue.IsBoundless {T : Type} (p : PriorityQueue T) : Bool :=
  decide (p.capacity ≤ 0)

/-- The method isFull: `p.capacity > 0 && len(p.data) == p.capacity`. -/
def PriorityQueue.isFull {T : Type} (p : PriorityQueue T) : Bool :=
  decide (p.capacity > 0) && decide ((p.data.length : Int) = p.capacity)

/-- The method isEmpty: `len(p.data) < 1`. -/
def PriorityQueue.isEmpty {T : Type} (p : PriorityQueue T) : Bool :=
  decide ((p.data.length : Int) < 1)

/-- The constant `maxAlloc` of the Go runtime, the largest allocation it accepts: `1 << 48`
bytes on the 64-bit platforms with 48 heap address bits (linux/amd64 among them). -/
def maxAlloc : Nat := 2 ^ 48

/-- The allocation `make([]T, 0, cap)` for elements of `elemSize` bytes (the runtime's
`makeslice` at length 0): it panics when `cap` is negative or `elemSize * cap` exceeds
`maxAlloc`, and otherwise gives the empty slice. Only this range check is modelled; a
request within the range is taken to be granted by the machine. -/
def makeSlice {T : Type} (elemSize : Nat) (cap : Int) : Option (List T) :=
  if cap < 0 ∨ (maxAlloc : Int) < (elemSize : Int) * cap then none else some []

/-- NewPriorityQueue: a capacity below 1 is recorded as 0 with a slice capacity of 64,
any other capacity is recorded and is the slice capacity; the slice is allocated by
`make([]T, 0, sliceCap)` and starts empty. `elemSize` is the size in bytes of a value
of `T`, which the Go runtime takes from the type. -/
def NewPriorityQueue {T : Type} (elemSize : Nat) (capacity : Int) (compare : Comparator T) :
    Option (PriorityQueue T) :=
  let sliceCap : Int := if capacity < 1 then 64 else capacity
  let capacity : Int := if capacity < 1 then 0 else capacity
  match makeSlice elemSize sliceCap with
  | none => none
  | some data =>
    some { capacity := capacity
           data := data
           compare := compare }

/-- Read `data[i]` for a Go `int` index; `none` when `i` is out of range. -/
def index {T : Type} (data : List T) (i : Int) : Option T :=
  if 0 ≤ i then data[i.toNat]? else none

/-- The tuple assignment `data[i], data[j] = data[j], data[i]`. -/
def swapAt {T : Type} (data : List T) (i j : Int) : Option (List T) :=
  match index data i, index data j with
  | some x, some y => some ((data.set i.toNat y).set j.toNat x)
  | _, _ => none

/-- Peek of the queue: the root, or `ErrEmptyQueue` with the zero value. -/
def PriorityQueue.Peek {T : Type} [Inhabited T] (p : PriorityQueue T) :
    Option (T × Option Error) :=
  if p.isEmpty then some (default, some Error.ErrEmptyQueue)
  else
    match index p.data 0 with
    | none => none
    | some x => some (x, none)

/-- Sift-up loop of `Enqueue`:
`for parent >= 0 && compare(data[node], data[parent]) < 0`, swapping the two and
continuing with `node = parent`, `parent = (parent - 1) >> 1`; Go's `>>` on a
signed `int` is the arithmetic shift. -/
def Enqueue.loop {T : Type} (compare : Comparator T) :
    Nat → Int → Int → List T → Option (List T)
  | 0, _, _, _ => none
  | fuel + 1, node, parent, data =>
    if parent ≥ 0 then
      match index data node, index data parent with
      | some x, some y =>
        if compare x y < 0 then
          match swapAt data parent node with
          | none => none
          | some data1 => Enqueue.loop compare fuel parent ((parent - 1) >>> (1 : Nat)) data1
        else some data
      | _, _ => none
    else some data

/-- Enqueue: the queue after the call and the error it returns. The first parent index
is `(node - 1) / 2` with Go's truncating division. -/
def Enqueue {T : Type} (p : PriorityQueue T) (t : T) : Option (PriorityQueue T × Option Error) :=
  if p.isFull then some (p, some Error.ErrOutOfCapacity)
  else
    let data := p.data ++ [t]
    let node : Int := (data.length : Int) - 1
    let parent : Int := Int.tdiv (node - 1) 2
    match Enqueue.loop p.compare (data.length + 1) node parent data with
    | none => none
    | some data1 => some ({ p with data := data1 }, none)

/-- Modelled from the spec: `slice.Shrink` is called by `shrinkIfNecessary` but its
source is not part of the repository; the spec has it shrink the backing storage of
an unbounded queue only, so the elements and their order are kept. -/
def Shrink {T : Type} (src : List T) : List T := src

/-- The method shrinkIfNecessary. -/
def shrinkIfNecessary {T : Type} (p : PriorityQueue T) : PriorityQueue T :=
  if p.IsBoundless then { p with data := Shrink p.data } else p

/-- One of the two tests of `heapify`:
`if child < n && compare(data[child], data[minPos]) < 0 { minPos = child }`;
the result is the new `minPos`. -/
def heapify.pick {T : Type} (compare : Comparator T) (data : List T) (n child minPos : Int) :
    Option Int :=
  if child < n then
    match index data child, index data minPos with
    | some x, some y => some (if compare x y < 0 then child else minPos)
    | _, _ => none
  else some minPos

/-- Loop of `heapify`, with loop variables `i`, `minPos` and the slice. -/
def heapify.loop {T : Type} (compare : Comparator T) (n : Int) :
    Nat → Int → Int → List T → Option (List T)
  | 0, _, _, _ => none
  | fuel + 1, i, minPos, data =>
    match heapify.pick compare data n (i * 2 + 1) minPos with
    | none => none
    | some minPos1 =>
      match heapify.pick compare data n (i * 2 + 2) minPos1 with
      | none => none
      | some minPos2 =>
        if minPos2 = i then some data
        else
          match swapAt data i minPos2 with
          | none => none
          | some data1 => heapify.loop compare n fuel minPos2 minPos2 data1

/-- The method heapify: `minPos := i`, then the loop. -/
def heapify {T : Type} (compare : Comparator T) (data : List T) (n i : Int) : Option (List T) :=
  heapify.loop compare n (n.toNat + 1) i i data

/-- Dequeue: the queue after the call, the value and the error it returns. -/
def Dequeue {T : Type} [Inhabited T] (p : PriorityQueue T) :
    Option (PriorityQueue T × T × Option Error) :=
  if p.isEmpty then some (p, default, some Error.ErrEmptyQueue)
  else
    match index p.data 0, index p.data ((p.data.length : Int) - 1) with
    | some pop, some last =>
      let p1 : PriorityQueue T :=
        { p with data := (p.data.set 0 last).take ((p.data.length : Int) - 1).toNat }
      let p2 := shrinkIfNecessary p1
      match heapify p2.compare p2.data (p2.data.length : Int) 0 with
      | none => none
      | some data1 => some ({ p2 with data := data1 }, pop, none)
    | _, _ => none

/-- A mutating call on a priority queue. -/
inductive QOp (T : Type) where
  | enqueue (t : T)
  | dequeue

/-- One call applied to a queue; the returned value and error are dropped. -/
def applyQOp {T : Type} [Inhabited T] (p : PriorityQueue T) : QOp T → Option (PriorityQueue T)
  | QOp.enqueue t => (Enqueue p t).map Prod.fst
  | QOp.dequeue => (Dequeue p).map Prod.fst

/-- A sequence of calls applied in order. -/
def runQOps {T : Type} [Inhabited T] : PriorityQueue T → List (QOp T) → Option (PriorityQueue T)
  | p, [] => some p
  | p, op :: ops =>
    match applyQOp p op with
    | none => none
    | some p1 => runQOps p1 ops

/-- The min-heap property of a slice: every non-root element is not below its parent. -/
def IsMinHeap {T : Type} (compare : Comparator T) (data : List T) : Prop :=
  ∀ i : Nat, 1 ≤ i → ∀ x y : T, data[(i - 1) / 2]? = some x → data[i]? = some y →
    compare x y ≤ 0

/-! ## Abstraction and specification-level definitions -/

/-- Number of forward slots of the node at address `a`; 0 when `a` is not allocated. -/
def height {T : Type} (mem : List (skipListNode T)) (a : Nat) : Nat :=
  match mem[a]? with
  | none => 0
  | some n => n.Forward.length

/-- Value of the node at address `a`; the zero value when `a` is not allocated. -/
def valAt {T : Type} [Inhabited T] (mem : List (skipListNode T)) (a : Nat) : T :=
  match mem[a]? with
  | none => default
  | some n => n.Val

/-- Last address of the walk `a :: xs`. -/
def lastFrom : Nat → List Nat → Nat
  | a, [] => a
  | _, b :: xs => lastFrom b xs

/-- The level-`l` links lead from `a` through exactly `xs`, and the last node of
the walk has level-`l` link `e`. -/
def Path {T : Type} (mem : List (skipListNode T)) (l : Nat) (e : Option Nat) :
    Nat → List Nat → Prop
  | a, [] => loadForward mem a l = some e
  | a, b :: xs => loadForward mem a l = some (some b) ∧ Path mem l e b xs

/-- The addresses of `chain` whose node has more than `l` forward slots. -/
def atLevel {T : Type} (mem : List (skipListNode T)) (l : Nat) (chain : List Nat) : List Nat :=
  chain.filter (fun a => decide (l < height mem a))

/-- The structural invariant: `chain` lists the addresses of the nodes of `sl`
in level-0 order. -/
structure WellFormed {T : Type} [Inhabited T] (compare : Comparator T) (sl : SkipList T)
    (chain : List Nat) : Prop where
  cmp_eq : sl.compare = compare
  header_height : height sl.mem sl.header = MaxLevel
  header_notin : sl.header ∉ chain
  nodup : chain.Nodup
  level_pos : 1 ≤ sl.level
  level_le : sl.level ≤ MaxLevel
  level_tight : sl.level = 1 ∨ ∃ a ∈ chain, height sl.mem a = sl.level
  height_pos : ∀ a ∈ chain, 1 ≤ height sl.mem a
  height_le : ∀ a ∈ chain, height sl.mem a ≤ sl.level
  linked : ∀ l, l < MaxLevel → Path sl.mem l none sl.header (atLevel sl.mem l chain)
  sorted : (chain.map (valAt sl.mem)).Pairwise (fun a b => compare a b ≤ 0)
  size_eq : sl.size = chain.length

/-- The chain splits into the nodes below `v` and the rest. -/
structure Split {T : Type} [Inhabited T] (compare : Comparator T) (mem : List (skipListNode T))
    (v : T) (chain pre post : List Nat) : Prop where
  eq : chain = pre ++ post
  lt : ∀ x ∈ pre, compare (valAt mem x) v < 0
  ge : ∀ y ∈ post, ¬ compare (valAt mem y) v < 0

/-- The links after `i` rounds of the linking loop of `Insert`, in terms of the
links `mem` held before the new node `newNode` (with `level` slots) was allocated. -/
def linkedLoad {T : Type} (mem : List (skipListNode T)) (update : List (Option Nat))
    (newNode level i : Nat) (x l : Nat) : Option (Option Nat) :=
  if x = newNode then
    if l < i then
      match update[l]? with
      | some (some p) => loadForward mem p l
      | _ => none
    else if l < level then some none
    else none
  else if l < i ∧ update[l]? = some (some x) then some (some newNode)
  else loadForward mem x l

/-- The links after `i` rounds of the unlinking loop of `DeleteElement`, in terms
of the links `mem` held before the call. -/
def unlinkedLoad {T : Type} (mem : List (skipListNode T)) (update : List (Option Nat))
    (node i : Nat) (x l : Nat) : Option (Option Nat) :=
  if l < i ∧ update[l]? = some (some x) then loadForward mem node l
  else loadForward mem x l

/-- The list is well formed and holds the values `xs` in level-0 order. -/
def Holds {T : Type} [Inhabited T] (compare : Comparator T) (sl : SkipList T) (xs : List T) :
    Prop :=
  ∃ chain, WellFormed compare sl chain ∧ chain.map (valAt sl.mem) = xs

/-- The value list after inserting `v`: `v` goes before the first element that is
not strictly below it. -/
def insertVal {T : Type} (compare : Comparator T) (xs : List T) (v : T) : List T :=
  xs.takeWhile (fun e => decide (compare e v < 0)) ++ v ::
    xs.dropWhile (fun e => decide (compare e v < 0))

/-- Along a sequence of calls: the number of Insert calls, and the number of
DeleteElement calls after which the level-0 walk is shorter than before. -/
def countOps {T : Type} : SkipList T → List (Op T) → Option (Int × Int)
  | _, [] => some (0, 0)
  | sl, Op.insert Val level :: ops =>
    match Insert sl Val level with
    | none => none
    | some sl1 => (countOps sl1 ops).map (fun c => (c.1 + 1, c.2))
  | sl, Op.delete target :: ops =>
    match DeleteElement sl target, AsSlice sl with
    | some (sl1, _), some xs =>
      match AsSlice sl1 with
      | none => none
      | some ys =>
        (countOps sl1 ops).map (fun c => (c.1, c.2 + (if ys.length < xs.length then 1 else 0)))
    | _, _ => none

/-- The list built from `[5, 3, 8, 1, 9, 3]` with drawn levels `[1, 2, 1, 3, 1, 2]`. -/
def exampleList : SkipList Int :=
  (NewSkipListFromSlice [5, 3, 8, 1, 9, 3] ComparatorRealNumber [1, 2, 1, 3, 1, 2]).getD
    (NewSkipList ComparatorRealNumber)

/-- The calls that build `exampleList`. -/
def exampleOps : List (Op Int) :=
  [Op.insert 5 1, Op.insert 3 2, Op.insert 8 1, Op.insert 1 3, Op.insert 9 1, Op.insert 3 2]

/-- The calls of `exampleOps` followed by two deletions. -/
def exampleCalls : List (Op Int) :=
  exampleOps ++ [Op.delete 3, Op.delete 42]

/-- The heap property holds everywhere except between `k` and its parent, and the
parent of `k` is not above the children of `k`. -/
def SiftUpInv {T : Type} (compare : Comparator T) (data : List T) (k : Nat) : Prop :=
  (∀ i, 1 ≤ i → i ≠ k → ∀ x y, data[(i - 1) / 2]? = some x → data[i]? = some y →
    compare x y ≤ 0) ∧
  (∀ c, 1 ≤ c → (c - 1) / 2 = k → 1 ≤ k → ∀ x y, data[(k - 1) / 2]? = some x →
    data[c]? = some y → compare x y ≤ 0)

/-- The heap property holds everywhere except between `k` and its children, and the
parent of `k` is not above the children of `k`. -/
def SiftDownInv {T : Type} (compare : Comparator T) (data : List T) (k : Nat) : Prop :=
  (∀ i, 1 ≤ i → (i - 1) / 2 ≠ k → ∀ x y, data[(i - 1) / 2]? = some x → data[i]? = some y →
    compare x y ≤ 0) ∧
  (∀ c, 1 ≤ c → (c - 1) / 2 = k → 1 ≤ k → ∀ x y, data[(k - 1) / 2]? = some x →
    data[c]? = some y → compare x y ≤ 0)

/-- Calls on a queue used as an example: seven enqueues in decreasing order, then a
dequeue. -/
def exampleQOps : List (QOp Int) :=
  [QOp.enqueue 7, QOp.enqueue 6, QOp.enqueue 5, QOp.enqueue 4, QOp.enqueue 3,
    QOp.enqueue 2, QOp.enqueue 1, QOp.dequeue]

/-- The queue that `NewPriorityQueue(0, ComparatorRealNumber)` returns at the integers:
empty and unbounded. -/
def exampleNewQueue : PriorityQueue Int :=
  { capacity := 0
    data := []
    compare := ComparatorRealNumber }

/-- The states reachable by Enqueue and Dequeue calls from a queue that
`NewPriorityQueue capacity compare` returned, whatever the size of the elements. -/
def QReachable {T : Type} [Inhabited T] (capacity : Int) (compare : Comparator T)
    (p : PriorityQueue T) : Prop :=
  ∃ (elemSize : Nat) (p0 : PriorityQueue T) (ops : List (QOp T)),
    NewPriorityQueue elemSize capacity compare = some p0 ∧ runQOps p0 ops = some p

/-- Enqueue each value in order; the queue reached and the errors returned. -/
def enqueueAll {T : Type} : PriorityQueue T → List T → Option (PriorityQueue T × List (Option Error))
  | p, [] => some (p, [])
  | p, v :: vs =>
    match Enqueue p v with
    | none => none
    | some (p1, err) =>
      match enqueueAll p1 vs with
      | none => none
      | some (p2, errs) => some (p2, err :: errs)

/-- Call Dequeue the given number of times; the queue reached and the values and errors
returned, in order. -/
def dequeueMany {T : Type} [Inhabited T] :
    Nat → PriorityQueue T → Option (PriorityQueue T × List (T × Option Error))
  | 0, p => some (p, [])
  | n + 1, p =>
    match Dequeue p with
    | none => none
    | some (p1, v, err) =>
      match dequeueMany n p1 with
      | none => none
      | some (p2, out) => some (p2, (v, err) :: out)

/-- The queue reached by `exampleQOps` from a new unbounded queue. -/
def exampleQueue : PriorityQueue Int :=
  ((NewPriorityQueue 8 0 ComparatorRealNumber).bind (fun p0 => runQOps p0 exampleQOps)).getD
    exampleNewQueue

/-- The invariant of the capacity fields: the capacity is the one recorded at
construction and a bounded queue holds no more elements than its capacity. -/
def CapInv {T : Type} (capacity : Int) (compare : Comparator T) (p : PriorityQueue T) : Prop :=
  p.capacity = (if capacity < 1 then 0 else capacity) ∧ p.compare = compare ∧
    (0 < p.capacity → (p.data.length : Int) ≤ p.capacity)

/-- Walk of the level-`l` links from the node at `curr`: the addresses reached, in
order, until a nil link; no result when a link leads outside the allocated nodes or the
walk does not end within the budget. -/
def levelChain.loop {T : Type} (mem : List (skipListNode T)) (l : Nat) :
    Nat → Nat → Option (List Nat)
  | 0, _ => none
  | fuel + 1, curr =>
    match loadForward mem curr l with
    | none => none
    | some none => some []
    | some (some nxt) =>
      match levelChain.loop mem l fuel nxt with
      | none => none
      | some rest => some (nxt :: rest)

/-- The nodes reachable from the header via level-`l` links. -/
def levelChain {T : Type} (sl : SkipList T) (l : Nat) : Option (List Nat) :=
  levelChain.loop sl.mem l sl.mem.length sl.header

/-- A random source whose first 40 trials succeed and whose later trials fail. -/
def exampleRand : Nat → Nat := fun i => if i < 40 then 0 else 0xFFFF

/-- A random source whose trials all succeed. -/
def exampleRandZero : Nat → Nat := fun _ => 0

/-! # Lemmas and theorems -/

/-! ## Memory lemmas -/

section Memory
variable {T : Type}

theorem height_pos_iff_alloc (mem : List (skipListNode T)) (a : Nat) (h : 0 < height mem a) :
    ∃ n, mem[a]? = some n := by
  unfold height at h
  cases hm : mem[a]? with
  | none => simp [hm] at h
  | some n => exact ⟨n, rfl⟩

theorem height_lt_length (mem : List (skipListNode T)) (a : Nat) (h : 0 < height mem a) :
    a < mem.length := by
  obtain ⟨n, hn⟩ := height_pos_iff_alloc mem a h
  exact (List.getElem?_eq_some_iff.mp hn).1

theorem loadForward_isSome_iff (mem : List (skipListNode T)) (a l : Nat) :
    (∃ q, loadForward mem a l = some q) ↔ l < height mem a := by
  unfold loadForward height
  cases hm : mem[a]? with
  | none => simp
  | some n =>
    simp only
    constructor
    · rintro ⟨q, hq⟩
      exact (List.getElem?_eq_some_iff.mp hq).1
    · intro h
      exact ⟨n.Forward[l], List.getElem?_eq_getElem h⟩

theorem loadForward_lt_height {mem : List (skipListNode T)} {a l : Nat} {q : Option Nat}
    (h : loadForward mem a l = some q) : l < height mem a :=
  (loadForward_isSome_iff mem a l).mp ⟨q, h⟩

/-- Effect of one store on every load, on heights, values and the allocation size. -/
theorem storeForward_spec {mem mem1 : List (skipListNode T)} {p i : Nat} {q : Option Nat}
    (h : storeForward mem p i q = some mem1) :
    (∀ x l, loadForward mem1 x l = if x = p ∧ l = i then some q else loadForward mem x l) ∧
    (∀ x, height mem1 x = height mem x) ∧
    (∀ x : Nat, (mem1[x]?).map skipListNode.Val = (mem[x]?).map skipListNode.Val) ∧
    mem1.length = mem.length := by
  unfold storeForward at h
  cases hm : mem[p]? with
  | none => simp [hm] at h
  | some n =>
    simp only [hm] at h
    split at h
    · rename_i hi
      have hp : p < mem.length := (List.getElem?_eq_some_iff.mp hm).1
      injection h with h
      subst h
      refine ⟨?_, ?_, ?_, by simp⟩
      · intro x l
        unfold loadForward
        by_cases hx : x = p
        · subst hx
          simp only [List.getElem?_set_self hp, true_and]
          by_cases hl : l = i
          · subst hl
            simp [List.getElem?_set_self hi]
          · simp [hl, hm, List.getElem?_set_ne (Ne.symm hl)]
        · simp [hx, List.getElem?_set_ne (Ne.symm hx)]
      · intro x
        unfold height
        by_cases hx : x = p
        · subst hx
          simp [List.getElem?_set_self hp, hm]
        · simp [List.getElem?_set_ne (Ne.symm hx)]
      · intro x
        by_cases hx : x = p
        · subst hx
          simp [List.getElem?_set_self hp, hm]
        · simp [List.getElem?_set_ne (Ne.symm hx)]
    · simp at h

theorem storeForward_isSome (mem : List (skipListNode T)) (p i : Nat) (q : Option Nat)
    (h : i < height mem p) : ∃ mem1, storeForward mem p i q = some mem1 := by
  unfold storeForward
  unfold height at h
  cases hm : mem[p]? with
  | none => simp [hm] at h
  | some n =>
    simp only [hm] at h
    simp [h]

theorem valAt_eq_of_map_eq [Inhabited T] {mem mem1 : List (skipListNode T)} {x : Nat}
    (h : (mem1[x]?).map skipListNode.Val = (mem[x]?).map skipListNode.Val) :
    valAt mem1 x = valAt mem x := by
  unfold valAt
  cases h1 : mem1[x]? <;> cases h2 : mem[x]? <;> simp_all

end Memory

/-! ## Walks -/

theorem lastFrom_append (a : Nat) (xs ys : List Nat) :
    lastFrom a (xs ++ ys) = lastFrom (lastFrom a xs) ys := by
  induction xs generalizing a with
  | nil => rfl
  | cons b xs ih => exact ih b

theorem lastFrom_mem (a : Nat) (xs : List Nat) : lastFrom a xs = a ∨ lastFrom a xs ∈ xs := by
  induction xs generalizing a with
  | nil => exact Or.inl rfl
  | cons b xs ih =>
    rcases ih b with h | h
    · right; simp [lastFrom, h]
    · right; simp [lastFrom, h]

theorem lastFrom_mem_cons (a : Nat) (xs : List Nat) : lastFrom a xs ∈ a :: xs := by
  rcases lastFrom_mem a xs with h | h
  · simp [h]
  · simp [h]

section Walks
variable {T : Type}

theorem Path_congr {mem mem1 : List (skipListNode T)} {l : Nat} {e : Option Nat}
    {a : Nat} {xs : List Nat}
    (h : ∀ x ∈ a :: xs, loadForward mem1 x l = loadForward mem x l) :
    Path mem1 l e a xs ↔ Path mem l e a xs := by
  induction xs generalizing a with
  | nil => simp [Path, h a (by simp)]
  | cons b xs ih =>
    simp only [Path, h a (by simp)]
    rw [ih (fun x hx => h x (List.mem_cons_of_mem _ hx))]

theorem Path_append {mem : List (skipListNode T)} {l : Nat} {e : Option Nat}
    {a : Nat} {xs ys : List Nat} :
    Path mem l e a (xs ++ ys) ↔
      Path mem l (match ys.head? with | some y => some y | none => e) a xs ∧
      Path mem l e (lastFrom a xs) ys := by
  induction xs generalizing a with
  | nil =>
    cases ys with
    | nil => simp [Path, lastFrom]
    | cons y ys => simp [Path, lastFrom]
  | cons b xs ih =>
    show (loadForward mem a l = some (some b) ∧ Path mem l e b (xs ++ ys)) ↔ _
    rw [ih]
    simp only [Path, lastFrom, and_assoc]

theorem Path_head {mem : List (skipListNode T)} {l : Nat} {e : Option Nat}
    {a : Nat} {xs : List Nat} (h : Path mem l e a xs) :
    loadForward mem a l = some (match xs.head? with | some y => some y | none => e) := by
  cases xs with
  | nil => exact h
  | cons b xs => exact h.1

/-- Redirecting the last link of a walk. -/
theorem Path_set_last {mem mem1 : List (skipListNode T)} {l : Nat} {e e1 : Option Nat}
    {a : Nat} {xs : List Nat} (h : Path mem l e a xs)
    (hsame : ∀ x ∈ a :: xs, x ≠ lastFrom a xs → loadForward mem1 x l = loadForward mem x l)
    (hlast : loadForward mem1 (lastFrom a xs) l = some e1)
    (hnd : (a :: xs).Nodup) :
    Path mem1 l e1 a xs := by
  induction xs generalizing a with
  | nil => exact hlast
  | cons b xs ih =>
    have hne : a ≠ lastFrom b xs := by
      intro heq
      have := lastFrom_mem_cons b xs
      rw [← heq] at this
      exact (List.nodup_cons.mp hnd).1 this
    refine ⟨?_, ?_⟩
    · rw [hsame a (by simp) hne]; exact h.1
    · exact ih h.2 (fun x hx hxl => hsame x (List.mem_cons_of_mem _ hx) hxl) hlast
        (List.nodup_cons.mp hnd).2

/-- Replacing the first node of a walk by one with the same link. -/
theorem Path_change_head {mem mem1 : List (skipListNode T)} {l : Nat} {e : Option Nat}
    {a a1 : Nat} {xs : List Nat} (h : Path mem l e a xs)
    (hhead : loadForward mem1 a1 l = loadForward mem a l)
    (hsame : ∀ x ∈ xs, loadForward mem1 x l = loadForward mem x l) :
    Path mem1 l e a1 xs := by
  cases xs with
  | nil => simpa [Path, hhead] using h
  | cons b xs =>
    refine ⟨by rw [hhead]; exact h.1, ?_⟩
    exact (Path_congr (fun x hx => hsame x hx)).mpr h.2

end Walks

/-! ## Comparator lemmas -/

section Order
variable {T : Type} {compare : Comparator T}

theorem TotalOrder.le_of_not_lt (hT : TotalOrder compare) {a b : T}
    (h : ¬ compare a b < 0) : compare b a ≤ 0 := by
  have := (hT.flip a b).not.mp h
  omega

theorem TotalOrder.lt_of_le_of_lt (hT : TotalOrder compare) {a b c : T}
    (hab : compare a b ≤ 0) (hbc : compare b c < 0) : compare a c < 0 := by
  by_contra hac
  have hca : compare c a ≤ 0 := hT.le_of_not_lt hac
  have hcb : compare c b ≤ 0 := hT.trans c a b hca hab
  have := (hT.flip b c).mp hbc
  omega

theorem TotalOrder.eq_zero_of_le_of_le (hT : TotalOrder compare) {a b : T}
    (hab : compare a b ≤ 0) (hba : compare b a ≤ 0) : compare a b = 0 := by
  have := (hT.flip a b).not.mpr (by omega)
  omega

theorem TotalOrder.eq_zero_symm (hT : TotalOrder compare) {a b : T}
    (hab : compare a b = 0) : compare b a = 0 := by
  have h1 := (hT.flip a b).not.mp (by omega)
  have h2 := (hT.flip b a).not.mpr (by omega)
  omega

end Order

/-! ## Splitting the chain at a value -/

section SplitLemmas
variable {T : Type} [Inhabited T] {compare : Comparator T}

theorem Split.exists (hT : TotalOrder compare) (mem : List (skipListNode T)) (v : T)
    (chain : List Nat)
    (hs : (chain.map (valAt mem)).Pairwise (fun a b => compare a b ≤ 0)) :
    Split compare mem v chain
      (chain.takeWhile (fun a => decide (compare (valAt mem a) v < 0)))
      (chain.dropWhile (fun a => decide (compare (valAt mem a) v < 0))) := by
  refine ⟨(List.takeWhile_append_dropWhile _ _).symm, ?_, ?_⟩
  · intro x hx
    simpa using List.mem_takeWhile_imp hx
  · intro y hy hlt
    have hsub : (chain.dropWhile (fun a => decide (compare (valAt mem a) v < 0))).Sublist chain :=
      List.dropWhile_sublist _
    have hs2 := (List.pairwise_map.mp hs).sublist hsub
    cases hd : chain.dropWhile (fun a => decide (compare (valAt mem a) v < 0)) with
    | nil => simp [hd] at hy
    | cons z zs =>
      have hz := List.head?_dropWhile_not (fun a => decide (compare (valAt mem a) v < 0)) chain
      rw [hd] at hz hy hs2
      simp only [List.head?_cons, decide_eq_false_iff_not] at hz
      rcases List.mem_cons.mp hy with h | h
      · subst h; exact hz hlt
      · have hle := (List.pairwise_cons.mp hs2).1 y h
        exact hz (hT.lt_of_le_of_lt hle hlt)

theorem takeWhile_append_of_split {α : Type} (p : α → Bool) (xs ys : List α)
    (hx : ∀ x ∈ xs, p x = true) (hy : ∀ y ∈ ys, p y = false) :
    (xs ++ ys).takeWhile p = xs ∧ (xs ++ ys).dropWhile p = ys := by
  induction xs with
  | nil =>
    cases ys with
    | nil => simp
    | cons y ys => simp [List.takeWhile, List.dropWhile, hy y (by simp)]
  | cons x xs ih =>
    have := ih (fun z hz => hx z (List.mem_cons_of_mem _ hz))
    simp [List.takeWhile, List.dropWhile, hx x (by simp), this.1, this.2]

end SplitLemmas

/-! ## The inner loop of traverse -/

section Advance
variable {T : Type} [Inhabited T]

theorem valAt_of_get {mem : List (skipListNode T)} {a : Nat} {n : skipListNode T}
    (h : mem[a]? = some n) : valAt mem a = n.Val := by
  simp [valAt, h]

theorem advance_spec (mem : List (skipListNode T)) (compare : Comparator T) (v : T) (l : Nat)
    (xs ys : List Nat) :
    ∀ (a fuel : Nat), Path mem l none a (xs ++ ys) →
      (∀ x ∈ xs, compare (valAt mem x) v < 0) →
      (∀ y ∈ ys, ¬ compare (valAt mem y) v < 0) →
      (∀ x ∈ xs ++ ys, 0 < height mem x) →
      xs.length < fuel →
      traverse.advance mem compare v l fuel a = some (lastFrom a xs) := by
  induction xs with
  | nil =>
    intro a fuel hp _ hge hall hf
    obtain ⟨f, rfl⟩ : ∃ f, fuel = f + 1 := ⟨fuel - 1, by simp at hf; omega⟩
    cases ys with
    | nil =>
      simp only [List.append_nil, Path] at hp
      simp [traverse.advance, hp, lastFrom]
    | cons y ys =>
      simp only [List.nil_append, Path] at hp
      obtain ⟨n, hn⟩ := height_pos_iff_alloc mem y (hall y (by simp))
      have hy := hge y (by simp)
      rw [valAt_of_get hn] at hy
      simp [traverse.advance, hp.1, hn, hy, lastFrom]
  | cons b xs ih =>
    intro a fuel hp hlt hge hall hf
    obtain ⟨f, rfl⟩ : ∃ f, fuel = f + 1 := ⟨fuel - 1, by simp at hf; omega⟩
    simp only [List.cons_append, Path] at hp
    obtain ⟨n, hn⟩ := height_pos_iff_alloc mem b (hall b (by simp))
    have hb := hlt b (by simp)
    rw [valAt_of_get hn] at hb
    simp only [traverse.advance, hp.1, hn, hb, if_true, lastFrom]
    exact ih b f hp.2 (fun x hx => hlt x (List.mem_cons_of_mem _ hx)) hge
      (fun x hx => hall x (by simp at hx ⊢; tauto)) (by simp at hf; omega)

end Advance

/-- A list splits at the last element of any of its filters. -/
theorem filter_last_split (h : Nat) (q : Nat → Bool) (zs : List Nat) :
    ∃ before after, zs = before ++ after ∧ lastFrom h before = lastFrom h (zs.filter q) := by
  induction zs using List.reverseRecOn with
  | nil => exact ⟨[], [], rfl, rfl⟩
  | append_singleton zs z ih =>
    by_cases hq : q z = true
    · refine ⟨zs ++ [z], [], by simp, ?_⟩
      simp [List.filter_append, hq, lastFrom_append, lastFrom]
    · obtain ⟨before, after, h1, h2⟩ := ih
      refine ⟨before, after ++ [z], by simp [h1], ?_⟩
      simp [List.filter_append, hq, h2]

section Levels
variable {T : Type}

theorem atLevel_append (mem : List (skipListNode T)) (l : Nat) (xs ys : List Nat) :
    atLevel mem l (xs ++ ys) = atLevel mem l xs ++ atLevel mem l ys := by
  simp [atLevel]

theorem atLevel_cons (mem : List (skipListNode T)) (l : Nat) (x : Nat) (xs : List Nat) :
    atLevel mem l (x :: xs) =
      if l < height mem x then x :: atLevel mem l xs else atLevel mem l xs := by
  simp only [atLevel, List.filter_cons]
  by_cases h : l < height mem x <;> simp [h]

theorem atLevel_sublist (mem : List (skipListNode T)) (l : Nat) (xs : List Nat) :
    (atLevel mem l xs).Sublist xs := List.filter_sublist _

theorem mem_atLevel {mem : List (skipListNode T)} {l : Nat} {xs : List Nat} {x : Nat} :
    x ∈ atLevel mem l xs ↔ x ∈ xs ∧ l < height mem x := by
  simp [atLevel]

theorem atLevel_succ (mem : List (skipListNode T)) (l : Nat) (xs : List Nat) :
    atLevel mem (l + 1) xs =
      (atLevel mem l xs).filter (fun a => decide (l + 1 < height mem a)) := by
  simp only [atLevel, List.filter_filter]
  congr 1
  funext a
  by_cases h : l + 1 < height mem a
  · have : l < height mem a := by omega
    simp [h, this]
  · simp [h]

theorem atLevel_eq_nil {mem : List (skipListNode T)} {l : Nat} {xs : List Nat}
    (h : ∀ x ∈ xs, height mem x ≤ l) : atLevel mem l xs = [] := by
  simp only [atLevel, List.filter_eq_nil_iff, decide_eq_true_eq]
  intro x hx
  have := h x hx
  omega

theorem atLevel_zero {mem : List (skipListNode T)} {xs : List Nat}
    (h : ∀ x ∈ xs, 1 ≤ height mem x) : atLevel mem 0 xs = xs := by
  simp only [atLevel, List.filter_eq_self, decide_eq_true_eq]
  intro x hx
  have := h x hx
  omega

end Levels

section Traverse
variable {T : Type} [Inhabited T] {compare : Comparator T}

/-- The nodes of the chain and the header are distinct allocated nodes. -/
theorem WellFormed.length_lt {sl : SkipList T} {chain : List Nat} (hR : WellFormed compare sl chain) :
    chain.length < sl.mem.length := by
  have hnd : (sl.header :: chain).Nodup := List.nodup_cons.mpr ⟨hR.header_notin, hR.nodup⟩
  have hsub : (sl.header :: chain) ⊆ List.range sl.mem.length := by
    intro x hx
    rw [List.mem_range]
    rcases List.mem_cons.mp hx with h | h
    · subst h
      exact height_lt_length _ _ (by rw [hR.header_height]; decide)
    · exact height_lt_length _ _ (hR.height_pos x h)
  have := (List.subperm_of_subset hnd hsub).length_le
  simpa using this

theorem descend_spec {sl : SkipList T} {chain pre post : List Nat} {v : T}
    (hR : WellFormed compare sl chain) (hS : Split compare sl.mem v chain pre post) :
    ∀ (k curr : Nat) (update : List (Option Nat)), k ≤ MaxLevel → update.length = MaxLevel →
      curr = lastFrom sl.header (atLevel sl.mem k pre) →
      ∃ update1, traverse.descend sl.mem compare v k curr update
          = some (lastFrom sl.header (atLevel sl.mem 0 pre), update1) ∧
        update1.length = MaxLevel ∧
        (∀ j, j < k → update1[j]? = some (some (lastFrom sl.header (atLevel sl.mem j pre)))) ∧
        (∀ j, k ≤ j → update1[j]? = update[j]?) := by
  intro k
  induction k with
  | zero =>
    intro curr update _ hlen hcurr
    exact ⟨update, by simp [traverse.descend, hcurr], hlen, by simp, by simp⟩
  | succ i ih =>
    intro curr update hk hlen hcurr
    have hpath := hR.linked i (by omega)
    rw [hS.eq, atLevel_append] at hpath
    obtain ⟨before, after, hsplit, hlast⟩ :=
      filter_last_split sl.header (fun a => decide (i + 1 < height sl.mem a)) (atLevel sl.mem i pre)
    rw [← atLevel_succ, ← hcurr] at hlast
    rw [hsplit, List.append_assoc] at hpath
    have hp2 := (Path_append.mp hpath).2
    rw [hlast] at hp2
    have hsubpre : (atLevel sl.mem i pre).Sublist chain := by
      rw [hS.eq]
      exact (atLevel_sublist _ _ _).trans (List.sublist_append_left _ _)
    have hafter : after.Sublist (atLevel sl.mem i pre) := by
      rw [hsplit]; exact List.sublist_append_right _ _
    have hadv : traverse.advance sl.mem compare v i sl.mem.length curr
        = some (lastFrom curr after) := by
      apply advance_spec sl.mem compare v i after (atLevel sl.mem i post) curr _ hp2
      · intro x hx
        exact hS.lt x ((atLevel_sublist _ _ _).subset (hafter.subset hx))
      · intro y hy
        exact hS.ge y ((atLevel_sublist _ _ _).subset hy)
      · intro x hx
        rcases List.mem_append.mp hx with h | h
        · exact hR.height_pos x (hsubpre.subset (hafter.subset h))
        · apply hR.height_pos x
          rw [hS.eq]
          exact List.mem_append_right _ ((atLevel_sublist _ _ _).subset h)
      · have h1 := hafter.length_le
        have h2 := hsubpre.length_le
        have h3 := hR.length_lt
        omega
    have hc : lastFrom curr after = lastFrom sl.header (atLevel sl.mem i pre) := by
      rw [hsplit, lastFrom_append, hlast]
    rw [hc] at hadv
    have hi : i < update.length := by omega
    obtain ⟨update1, hd, hlen1, hlow, hhigh⟩ :=
      ih (lastFrom sl.header (atLevel sl.mem i pre))
        (update.set i (some (lastFrom sl.header (atLevel sl.mem i pre))))
        (by omega) (by simpa using hlen) rfl
    refine ⟨update1, ?_, hlen1, ?_, ?_⟩
    · simp [traverse.descend, hadv, storeAt, hi, hd]
    · intro j hj
      by_cases hji : j = i
      · subst hji
        rw [hhigh j (le_refl _)]
        simp [List.getElem?_set_self hi]
      · exact hlow j (by omega)
    · intro j hj
      rw [hhigh j (by omega)]
      exact List.getElem?_set_ne (by omega)

/-- What `traverse` returns on a well-formed list. -/
theorem traverse_spec {sl : SkipList T} {chain pre post : List Nat} {v : T}
    (hR : WellFormed compare sl chain) (hS : Split compare sl.mem v chain pre post) :
    ∃ update, traverse sl v sl.level = some (lastFrom sl.header pre, update) ∧
      update.length = MaxLevel ∧
      (∀ j, j < sl.level →
        update[j]? = some (some (lastFrom sl.header (atLevel sl.mem j pre)))) ∧
      (∀ j, sl.level ≤ j → j < MaxLevel → update[j]? = some none) := by
  have hpre : ∀ x ∈ pre, x ∈ chain := fun x hx => by rw [hS.eq]; exact List.mem_append_left _ hx
  have htop : atLevel sl.mem sl.level pre = [] :=
    atLevel_eq_nil (fun x hx => hR.height_le x (hpre x hx))
  obtain ⟨update, hd, hlen, hlow, hhigh⟩ :=
    descend_spec hR hS sl.level sl.header (List.replicate MaxLevel none) hR.level_le
      (by simp) (by rw [htop]; rfl)
  rw [atLevel_zero (fun x hx => hR.height_pos x (hpre x hx))] at hd
  refine ⟨update, ?_, hlen, hlow, ?_⟩
  · unfold traverse
    rw [hR.cmp_eq]
    exact hd
  · intro j hj hjm
    rw [hhigh j hj]
    simp [List.getElem?_replicate, hjm]

end Traverse

/-! ## Read operations on a well-formed list -/

section Reads
variable {T : Type} [Inhabited T] {compare : Comparator T}

theorem asSlice_loop_spec (mem : List (skipListNode T)) (xs : List Nat) :
    ∀ (a fuel : Nat) (acc : List T), Path mem 0 none a xs →
      (∀ x ∈ xs, 0 < height mem x) → xs.length < fuel →
      AsSlice.loop mem fuel a acc = some (acc ++ xs.map (valAt mem)) := by
  induction xs with
  | nil =>
    intro a fuel acc hp _ hf
    obtain ⟨f, rfl⟩ : ∃ f, fuel = f + 1 := ⟨fuel - 1, by simp at hf; omega⟩
    simp only [Path] at hp
    simp [AsSlice.loop, hp]
  | cons b xs ih =>
    intro a fuel acc hp hall hf
    obtain ⟨f, rfl⟩ : ∃ f, fuel = f + 1 := ⟨fuel - 1, by simp at hf; omega⟩
    simp only [Path] at hp
    obtain ⟨n, hn⟩ := height_pos_iff_alloc mem b (hall b (by simp))
    simp only [AsSlice.loop, hp.1, hn]
    rw [ih b f _ hp.2 (fun x hx => hall x (List.mem_cons_of_mem _ hx)) (by simp at hf; omega)]
    simp [valAt_of_get hn]

/-- AsSlice returns the values along the chain. -/
theorem AsSlice_spec {sl : SkipList T} {chain : List Nat} (hR : WellFormed compare sl chain) :
    AsSlice sl = some (chain.map (valAt sl.mem)) := by
  have hp := hR.linked 0 (by decide)
  rw [atLevel_zero hR.height_pos] at hp
  unfold AsSlice
  have hsz : ¬ sl.size < 0 := by
    have := hR.size_eq
    omega
  simp only [hsz, if_false]
  rw [asSlice_loop_spec sl.mem chain sl.header sl.mem.length [] hp
    (fun x hx => hR.height_pos x hx) hR.length_lt]
  simp

/-- The level-0 successor of the node `traverse` stops at is the first node not below `v`. -/
theorem succ_spec {sl : SkipList T} {chain pre post : List Nat} {v : T}
    (hR : WellFormed compare sl chain) (hS : Split compare sl.mem v chain pre post) :
    loadForward sl.mem (lastFrom sl.header pre) 0 = some post.head? := by
  have hp := hR.linked 0 (by decide)
  rw [atLevel_zero hR.height_pos, hS.eq] at hp
  have := Path_head (Path_append.mp hp).2
  rw [this]
  cases post <;> rfl

/-- No node compares equal to `v` unless the first node not below `v` does. -/
theorem Split.no_equal (hT : TotalOrder compare) {mem : List (skipListNode T)} {v : T}
    {chain pre post : List Nat} (hS : Split compare mem v chain pre post)
    (hs : (chain.map (valAt mem)).Pairwise (fun a b => compare a b ≤ 0))
    (hhead : ∀ y, post.head? = some y → compare (valAt mem y) v ≠ 0) :
    ∀ x ∈ chain, compare (valAt mem x) v ≠ 0 := by
  intro x hx heq
  rw [hS.eq] at hx hs
  rcases List.mem_append.mp hx with h | h
  · have := hS.lt x h
    omega
  · cases post with
    | nil => simp at h
    | cons y ys =>
      have hy := hhead y rfl
      have hge := hS.ge y (by simp)
      rcases List.mem_cons.mp h with h1 | h1
      · subst h1; exact hy heq
      · have hs2 := (List.pairwise_append.mp (List.pairwise_map.mp hs)).2.1
        have hle : compare (valAt mem y) (valAt mem x) ≤ 0 := (List.pairwise_cons.mp hs2).1 x h1
        have hle2 : compare (valAt mem y) v ≤ 0 := hT.trans _ _ _ hle (by omega)
        omega

/-- Search is membership up to comparing equal. -/
theorem Search_spec (hT : TotalOrder compare) {sl : SkipList T} {chain : List Nat}
    (hR : WellFormed compare sl chain) (target : T) :
    Search sl target = some (decide (∃ x ∈ chain, compare (valAt sl.mem x) target = 0)) := by
  have hS := Split.exists hT sl.mem target chain hR.sorted
  obtain ⟨update, htr, -⟩ := traverse_spec hR hS
  have hsucc := succ_spec hR hS
  unfold Search
  simp only [htr, hsucc]
  cases hpost : chain.dropWhile (fun a => decide (compare (valAt sl.mem a) target < 0)) with
  | nil =>
    have hno := hS.no_equal hT hR.sorted (by simp [hpost])
    simp only [List.head?_nil]
    congr 1
    symm
    rw [decide_eq_false_iff_not]
    rintro ⟨x, hx, hx0⟩
    exact hno x hx hx0
  | cons y ys =>
    have hy : y ∈ chain := by
      rw [hS.eq, hpost]; simp
    obtain ⟨n, hn⟩ := height_pos_iff_alloc sl.mem y (hR.height_pos y hy)
    simp only [List.head?_cons, hn, hR.cmp_eq]
    congr 1
    by_cases h0 : compare n.Val target = 0
    · simp only [h0, decide_True]
      symm
      rw [decide_eq_true_iff]
      exact ⟨y, hy, by rw [valAt_of_get hn]; exact h0⟩
    · have hno := hS.no_equal hT hR.sorted (by
        intro z hz
        rw [hpost] at hz
        simp only [List.head?_cons, Option.some.injEq] at hz
        subst hz
        rw [valAt_of_get hn]; exact h0)
      simp only [h0, decide_False]
      symm
      rw [decide_eq_false_iff_not]
      rintro ⟨x, hx, hx0⟩
      exact hno x hx hx0

/-- Peek of the skip list on a well-formed list. -/
theorem Peek_spec {sl : SkipList T} {chain : List Nat} (hR : WellFormed compare sl chain) :
    sl.Peek = some (match (chain.map (valAt sl.mem)).head? with
      | none => (default, some Error.ErrEmptySkipList)
      | some x => (x, none)) := by
  have hp := hR.linked 0 (by decide)
  rw [atLevel_zero hR.height_pos] at hp
  have hh := Path_head hp
  unfold SkipList.Peek
  rw [hh]
  cases chain with
  | nil => rfl
  | cons y ys =>
    obtain ⟨n, hn⟩ := height_pos_iff_alloc sl.mem y (hR.height_pos y (by simp))
    simp [hn, valAt_of_get hn]

omit [Inhabited T] in
theorem walk_spec (mem : List (skipListNode T)) :
    ∀ (k a : Nat) (xs : List Nat), Path mem 0 none a xs → k ≤ xs.length + 1 →
      Get.walk mem k (some a) = some ((a :: xs)[k]?) := by
  intro k
  induction k with
  | zero => intro a xs _ _; simp [Get.walk]
  | succ k ih =>
    intro a xs hp hk
    cases xs with
    | nil =>
      have : k = 0 := by simpa using hk
      subst this
      simp only [Path] at hp
      simp [Get.walk, hp]
    | cons b xs =>
      simp only [Path] at hp
      simp only [Get.walk, hp.1]
      rw [ih b xs hp.2 (by simpa using hk)]
      simp

/-- Get on a well-formed list. -/
theorem Get_spec {sl : SkipList T} {chain : List Nat} (hR : WellFormed compare sl chain)
    (index : Int) :
    Get sl index =
      if index < 0 ∨ index ≥ sl.size then
        some (default, some (NewErrIndexOutOfRange sl.size index))
      else
        (((chain.map (valAt sl.mem))[index.toNat]?).map (fun x => (x, none))) := by
  unfold Get
  split
  · rfl
  · rename_i hidx
    have hsz := hR.size_eq
    have hlt : index.toNat < chain.length := by omega
    have hp := hR.linked 0 (by decide)
    rw [atLevel_zero hR.height_pos] at hp
    rw [walk_spec sl.mem (index.toNat + 1) sl.header chain hp (by omega)]
    simp only [List.getElem?_cons_succ, List.getElem?_eq_getElem hlt]
    have hmem : chain[index.toNat] ∈ chain := List.getElem_mem hlt
    obtain ⟨n, hn⟩ := height_pos_iff_alloc sl.mem _ (hR.height_pos _ hmem)
    simp [hn, hlt, valAt_of_get hn]

end Reads

/-! ## Insert on a well-formed list -/

section InsertLemmas
variable {T : Type}

theorem raise_spec (header : Nat) :
    ∀ (n i : Nat) (update : List (Option Nat)), i + n ≤ update.length →
      ∃ update1, Insert.raise header n i update = some update1 ∧
        update1.length = update.length ∧
        (∀ j, i ≤ j → j < i + n → update1[j]? = some (some header)) ∧
        (∀ j, (j < i ∨ i + n ≤ j) → update1[j]? = update[j]?) := by
  intro n
  induction n with
  | zero =>
    intro i update _
    exact ⟨update, rfl, rfl, fun j h1 h2 => by omega, fun j _ => rfl⟩
  | succ n ih =>
    intro i update hlen
    have hi : i < update.length := by omega
    obtain ⟨update1, h1, h2, h3, h4⟩ := ih (i + 1) (update.set i (some header))
      (by simp; omega)
    refine ⟨update1, ?_, by simpa using h2, ?_, ?_⟩
    · simp [Insert.raise, storeAt, hi, h1]
    · intro j hj1 hj2
      by_cases hji : j = i
      · subst hji
        rw [h4 j (Or.inl (by omega))]
        simp [List.getElem?_set_self hi]
      · exact h3 j (by omega) (by omega)
    · intro j hj
      rw [h4 j (by omega)]
      exact List.getElem?_set_ne (by omega)

theorem loadForward_append_new (mem : List (skipListNode T)) (nd : skipListNode T) (x l : Nat) :
    loadForward (mem ++ [nd]) x l =
      if x = mem.length then nd.Forward[l]? else loadForward mem x l := by
  unfold loadForward
  by_cases hx : x = mem.length
  · subst hx
    simp
  · simp only [hx, if_false]
    by_cases hlt : x < mem.length
    · rw [List.getElem?_append_left hlt]
    · have h1 : (mem ++ [nd])[x]? = none := by
        apply List.getElem?_eq_none
        simp; omega
      have h2 : mem[x]? = none := List.getElem?_eq_none (by omega)
      rw [h1, h2]

theorem height_append_new (mem : List (skipListNode T)) (nd : skipListNode T) (x : Nat) :
    height (mem ++ [nd]) x = if x = mem.length then nd.Forward.length else height mem x := by
  unfold height
  by_cases hx : x = mem.length
  · subst hx
    simp
  · simp only [hx, if_false]
    by_cases hlt : x < mem.length
    · rw [List.getElem?_append_left hlt]
    · have h1 : (mem ++ [nd])[x]? = none := by
        apply List.getElem?_eq_none
        simp; omega
      have h2 : mem[x]? = none := List.getElem?_eq_none (by omega)
      rw [h1, h2]

theorem valAt_append_new [Inhabited T] (mem : List (skipListNode T)) (nd : skipListNode T)
    (x : Nat) :
    valAt (mem ++ [nd]) x = if x = mem.length then nd.Val else valAt mem x := by
  unfold valAt
  by_cases hx : x = mem.length
  · subst hx
    simp
  · simp only [hx, if_false]
    by_cases hlt : x < mem.length
    · rw [List.getElem?_append_left hlt]
    · have h1 : (mem ++ [nd])[x]? = none := by
        apply List.getElem?_eq_none
        simp; omega
      have h2 : mem[x]? = none := List.getElem?_eq_none (by omega)
      rw [h1, h2]

/-- The linking loop succeeds and yields the links described by `linkedLoad`. -/
theorem link_spec [Inhabited T] (mem : List (skipListNode T)) (update : List (Option Nat))
    (level : Nat) (mem0 : List (skipListNode T))
    (hu : ∀ j, j < level → ∃ p, update[j]? = some (some p) ∧ j < height mem p)
    (hnew : height mem0 mem.length = level)
    (hold : ∀ x, x ≠ mem.length → height mem0 x = height mem x) :
    ∀ (n i : Nat) (m : List (skipListNode T)), i + n = level →
      (∀ x l, loadForward m x l = linkedLoad mem update mem.length level i x l) →
      (∀ x, height m x = height mem0 x) →
      (∀ x, valAt m x = valAt mem0 x) →
      m.length = mem0.length →
      ∃ m1, Insert.link update mem.length n i m = some m1 ∧
        (∀ x l, loadForward m1 x l = linkedLoad mem update mem.length level level x l) ∧
        (∀ x, height m1 x = height mem0 x) ∧
        (∀ x, valAt m1 x = valAt mem0 x) ∧
        m1.length = mem0.length := by
  intro n
  induction n with
  | zero =>
    intro i m hi hload hh hv hlen
    have : i = level := by omega
    subst this
    exact ⟨m, rfl, hload, hh, hv, hlen⟩
  | succ n ih =>
    intro i m hi hload hh hv hlen
    obtain ⟨p, hp, hph⟩ := hu i (by omega)
    have hpne : p ≠ mem.length := by
      have := height_lt_length mem p (by omega)
      omega
    obtain ⟨nxt, hnxt⟩ := (loadForward_isSome_iff mem p i).mpr hph
    have hload_p : loadForward m p i = some nxt := by
      rw [hload]
      simp [linkedLoad, hpne, hnxt]
    obtain ⟨m1, hm1⟩ := storeForward_isSome m mem.length i nxt
      (by rw [hh, hnew]; omega)
    obtain ⟨s1, s2, s3, s4⟩ := storeForward_spec hm1
    obtain ⟨m2, hm2⟩ := storeForward_isSome m1 p i (some mem.length)
      (by rw [s2, hh, hold p hpne]; exact hph)
    obtain ⟨t1, t2, t3, t4⟩ := storeForward_spec hm2
    obtain ⟨m3, hm3, r1, r2, r3, r4⟩ := ih (i + 1) m2 (by omega)
      (by
        intro x l
        rw [t1, s1, hload]
        unfold linkedLoad
        by_cases hxn : x = mem.length
        · subst hxn
          have hpx : ¬ (mem.length = p) := fun h => hpne h.symm
          by_cases hl : l = i
          · subst hl
            simp [hpx, hp, hnxt]
          · have : (l < i + 1) ↔ (l < i) := by omega
            simp [hpx, hl, this]
        · by_cases hl : l = i
          · subst hl
            by_cases hxp : x = p
            · subst hxp
              simp [hxn, hp]
            · have : ¬ (p = x) := fun h => hxp h.symm
              simp [hxn, hxp, hp, this]
          · have : (l < i + 1) ↔ (l < i) := by omega
            simp [hxn, hl, this])
      (by intro x; rw [t2, s2, hh])
      (by
        intro x
        rw [valAt_eq_of_map_eq (t3 x), valAt_eq_of_map_eq (s3 x), hv])
      (by rw [t4, s4, hlen])
    refine ⟨m3, ?_, r1, r2, r3, r4⟩
    simp [Insert.link, hp, hload_p, hm1, hm2, hm3]

end InsertLemmas

section InsertLinked
variable {T : Type}

theorem atLevel_congr {mem m1 : List (skipListNode T)} (l : Nat) {xs : List Nat}
    (h : ∀ x ∈ xs, height m1 x = height mem x) : atLevel m1 l xs = atLevel mem l xs := by
  unfold atLevel
  apply List.filter_congr
  intro x hx
  rw [h x hx]

theorem lastFrom_atLevel_mem (mem : List (skipListNode T)) (l h : Nat) (xs : List Nat) :
    lastFrom h (atLevel mem l xs) = h ∨
      (lastFrom h (atLevel mem l xs) ∈ xs ∧ l < height mem (lastFrom h (atLevel mem l xs))) := by
  rcases lastFrom_mem h (atLevel mem l xs) with h1 | h1
  · exact Or.inl h1
  · exact Or.inr (mem_atLevel.mp h1)

/-- The level-`l` walk after the new node has been linked in behind its predecessor. -/
theorem insert_linked {mem m1 : List (skipListNode T)} {h newNode level l : Nat}
    {pre post : List Nat}
    (hpath : Path mem l none h (atLevel mem l (pre ++ post)))
    (hnd : (h :: (pre ++ post)).Nodup)
    (hnotin : newNode ∉ h :: (pre ++ post))
    (hH : ∀ x, x ≠ newNode → height m1 x = height mem x)
    (hHn : height m1 newNode = level)
    (hL1 : ∀ x, x ≠ newNode → loadForward m1 x l =
      if l < level ∧ x = lastFrom h (atLevel mem l pre) then some (some newNode)
      else loadForward mem x l)
    (hL2 : l < level →
      loadForward m1 newNode l = loadForward mem (lastFrom h (atLevel mem l pre)) l) :
    Path m1 l none h (atLevel m1 l (pre ++ newNode :: post)) := by
  have hne : ∀ x ∈ h :: (pre ++ post), x ≠ newNode := by
    intro x hx heq
    exact hnotin (heq ▸ hx)
  have hpre : atLevel m1 l pre = atLevel mem l pre :=
    atLevel_congr l (fun x hx => hH x (hne x (by simp [hx])))
  have hpost : atLevel m1 l post = atLevel mem l post :=
    atLevel_congr l (fun x hx => hH x (hne x (by simp [hx])))
  rw [atLevel_append] at hpath
  rw [atLevel_append, atLevel_cons, hpre, hpost, hHn]
  have hsubpre : ∀ x ∈ h :: atLevel mem l pre, x ∈ h :: pre := by
    intro x hx
    rcases List.mem_cons.mp hx with h1 | h1
    · simp [h1]
    · exact List.mem_cons_of_mem _ ((atLevel_sublist _ _ _).subset h1)
  have hsubpost : ∀ x ∈ atLevel mem l post, x ∈ post :=
    fun x hx => (atLevel_sublist _ _ _).subset hx
  have hnd2 : ((h :: pre) ++ post).Nodup := by simpa using hnd
  have hdisj := (List.nodup_append.mp hnd2).2.2
  have hplast : lastFrom h (atLevel mem l pre) ∈ h :: pre :=
    hsubpre _ (lastFrom_mem_cons _ _)
  by_cases hl : l < level
  · simp only [hl, if_true]
    obtain ⟨hp1, hp2⟩ := Path_append.mp hpath
    have hlast : loadForward m1 (lastFrom h (atLevel mem l pre)) l = some (some newNode) := by
      rw [hL1 _ (hne _ (by
        rcases List.mem_cons.mp hplast with h1 | h1
        · simp [h1]
        · simp [h1]))]
      simp [hl]
    apply Path_append.mpr
    refine ⟨?_, hlast, ?_⟩
    · simp only [List.head?_cons]
      apply Path_set_last hp1
      · intro x hx hxl
        rw [hL1 x (hne x (by
          rcases List.mem_cons.mp (hsubpre x hx) with h1 | h1
          · simp [h1]
          · simp [h1]))]
        simp [hxl]
      · exact hlast
      · have : (h :: atLevel mem l pre).Sublist (h :: pre) :=
          (atLevel_sublist _ _ _).cons₂ _
        exact (List.nodup_append.mp hnd2).1.sublist this
    · apply Path_change_head hp2 (hL2 hl)
      intro x hx
      have hxpost := hsubpost x hx
      rw [hL1 x (hne x (by simp [hxpost]))]
      have : x ≠ lastFrom h (atLevel mem l pre) := by
        intro heq
        exact hdisj (heq ▸ hplast) hxpost
      simp [this]
  · simp only [hl, if_false]
    apply (Path_congr ?_).mpr hpath
    intro x hx
    have hx2 : x ∈ h :: (pre ++ post) := by
      rcases List.mem_cons.mp hx with h1 | h1
      · simp [h1]
      · rcases List.mem_append.mp h1 with h3 | h3
        · have := (atLevel_sublist _ _ _).subset h3
          simp [this]
        · have := hsubpost x h3
          simp [this]
    rw [hL1 x (hne x hx2)]
    simp [hl]

end InsertLinked

section InsertSpec
variable {T : Type} [Inhabited T] {compare : Comparator T}

theorem WellFormed.header_lt {sl : SkipList T} {chain : List Nat} (hR : WellFormed compare sl chain) :
    sl.header < sl.mem.length :=
  height_lt_length _ _ (by rw [hR.header_height]; decide)

theorem WellFormed.mem_lt {sl : SkipList T} {chain : List Nat} (hR : WellFormed compare sl chain)
    {x : Nat} (hx : x ∈ chain) : x < sl.mem.length :=
  height_lt_length _ _ (hR.height_pos x hx)

/-- The predecessors `traverse` records are allocated and tall enough. -/
theorem WellFormed.pred_height {sl : SkipList T} {chain : List Nat}
    (hR : WellFormed compare sl chain) (pre : List Nat) (j : Nat) (hj : j < MaxLevel) :
    j < height sl.mem (lastFrom sl.header (atLevel sl.mem j pre)) := by
  rcases lastFrom_atLevel_mem sl.mem j sl.header pre with h | h
  · rw [h, hR.header_height]; exact hj
  · exact h.2

/-- Insert succeeds on a well-formed list and puts the new node between the nodes
below the value and the rest. -/
theorem Insert_spec (hT : TotalOrder compare) {sl : SkipList T} {chain pre post : List Nat}
    {v : T} (hR : WellFormed compare sl chain) (hS : Split compare sl.mem v chain pre post)
    (level : Nat) (h1 : 1 ≤ level) (h2 : level ≤ MaxLevel) :
    ∃ sl1, Insert sl v level = some sl1 ∧
      WellFormed compare sl1 (pre ++ sl.mem.length :: post) ∧
      (∀ x ∈ chain, valAt sl1.mem x = valAt sl.mem x) ∧
      valAt sl1.mem sl.mem.length = v ∧
      sl1.size = sl.size + 1 ∧
      sl1.level = max sl.level level := by
  obtain ⟨update, htr, hlen, hlow, hhigh⟩ := traverse_spec hR hS
  have hprein : ∀ x ∈ pre, x ∈ chain := fun x hx => by rw [hS.eq]; exact List.mem_append_left _ hx
  have hpostin : ∀ x ∈ post, x ∈ chain :=
    fun x hx => by rw [hS.eq]; exact List.mem_append_right _ hx
  -- the predecessors after the raise loop
  have hraise : ∃ update1,
      (if level > sl.level then Insert.raise sl.header (level - sl.level) sl.level update
        else some update) = some update1 ∧
      ∀ j, j < level →
        update1[j]? = some (some (lastFrom sl.header (atLevel sl.mem j pre))) := by
    by_cases hgt : level > sl.level
    · obtain ⟨update1, r1, -, r3, r4⟩ :=
        raise_spec sl.header (level - sl.level) sl.level update (by omega)
      refine ⟨update1, by simp [hgt, r1], ?_⟩
      intro j hj
      by_cases hjl : j < sl.level
      · rw [r4 j (Or.inl hjl)]; exact hlow j hjl
      · rw [r3 j (by omega) (by omega)]
        have : atLevel sl.mem j pre = [] :=
          atLevel_eq_nil (fun x hx => by
            have := hR.height_le x (hprein x hx)
            omega)
        rw [this]; rfl
    · exact ⟨update, by simp [hgt], fun j hj => hlow j (by omega)⟩
  obtain ⟨update1, hr, hup⟩ := hraise
  -- the linking loop
  have hu : ∀ j, j < level → ∃ p, update1[j]? = some (some p) ∧ j < height sl.mem p :=
    fun j hj => ⟨_, hup j hj, hR.pred_height pre j (by omega)⟩
  obtain ⟨m1, hlink, hL, hH, hV, -⟩ :=
    link_spec sl.mem update1 level (sl.mem ++ [newSkipListNode v level]) hu
      (by simp [height_append_new, newSkipListNode])
      (by intro x hx; simp [height_append_new, hx])
      level 0 (sl.mem ++ [newSkipListNode v level]) (by omega)
      (by
        intro x l
        rw [loadForward_append_new]
        unfold linkedLoad
        by_cases hx : x = sl.mem.length
        · simp [hx, newSkipListNode, List.getElem?_replicate]
        · simp [hx])
      (fun _ => rfl) (fun _ => rfl) rfl
  have hHold : ∀ x, x ≠ sl.mem.length → height m1 x = height sl.mem x := by
    intro x hx; rw [hH, height_append_new]; simp [hx]
  have hHnew : height m1 sl.mem.length = level := by
    rw [hH, height_append_new]; simp [newSkipListNode]
  have hVold : ∀ x, x ≠ sl.mem.length → valAt m1 x = valAt sl.mem x := by
    intro x hx; rw [hV, valAt_append_new]; simp [hx]
  have hVnew : valAt m1 sl.mem.length = v := by
    rw [hV, valAt_append_new]; simp [newSkipListNode]
  have hchain_ne : ∀ x ∈ chain, x ≠ sl.mem.length := fun x hx => by
    have := hR.mem_lt hx
    omega
  have hheader_ne : sl.header ≠ sl.mem.length := by
    have := hR.header_lt
    omega
  have hnotin : sl.mem.length ∉ sl.header :: (pre ++ post) := by
    rw [← hS.eq]
    intro hmem
    rcases List.mem_cons.mp hmem with h | h
    · exact hheader_ne h.symm
    · exact hchain_ne _ h rfl
  have hnd : (sl.header :: (pre ++ post)).Nodup := by
    rw [← hS.eq]
    exact List.nodup_cons.mpr ⟨hR.header_notin, hR.nodup⟩
  refine ⟨{ sl with mem := m1, level := if level > sl.level then level else sl.level,
                    size := sl.size + 1 }, ?_, ?_, ?_, hVnew, rfl, ?_⟩
  · unfold Insert
    simp only [htr, hr, hlink]
  · have hmemchain : ∀ x, x ∈ pre ++ sl.mem.length :: post →
        x = sl.mem.length ∨ x ∈ chain := by
      intro x hx
      rcases List.mem_append.mp hx with h | h
      · exact Or.inr (hprein x h)
      · rcases List.mem_cons.mp h with h | h
        · exact Or.inl h
        · exact Or.inr (hpostin x h)
    refine
      { cmp_eq := hR.cmp_eq
        header_height := ?_
        header_notin := ?_
        nodup := ?_
        level_pos := ?_
        level_le := ?_
        level_tight := ?_
        height_pos := ?_
        height_le := ?_
        linked := ?_
        sorted := ?_
        size_eq := ?_ }
    · show height m1 sl.header = MaxLevel
      rw [hHold _ hheader_ne]; exact hR.header_height
    · show sl.header ∉ pre ++ sl.mem.length :: post
      intro hmem
      rcases hmemchain _ hmem with h | h
      · exact hheader_ne h
      · exact hR.header_notin h
    · have hnd0 := hR.nodup
      rw [hS.eq] at hnd0
      obtain ⟨n1, n2, n3⟩ := List.nodup_append.mp hnd0
      apply List.nodup_append.mpr
      refine ⟨n1, List.nodup_cons.mpr ⟨fun h => hchain_ne _ (hpostin _ h) rfl, n2⟩, ?_⟩
      intro x hx1 hx2
      rcases List.mem_cons.mp hx2 with h | h
      · exact hchain_ne _ (hprein _ hx1) h
      · exact n3 hx1 h
    · show 1 ≤ (if level > sl.level then level else sl.level)
      have := hR.level_pos
      split <;> omega
    · show (if level > sl.level then level else sl.level) ≤ MaxLevel
      have := hR.level_le
      split <;> omega
    · show (if level > sl.level then level else sl.level) = 1 ∨
        ∃ a ∈ pre ++ sl.mem.length :: post,
          height m1 a = (if level > sl.level then level else sl.level)
      by_cases hgt : level > sl.level
      · right
        exact ⟨sl.mem.length, by simp, by simp [hgt, hHnew]⟩
      · simp only [hgt, if_false]
        rcases hR.level_tight with h | ⟨a, ha, hah⟩
        · exact Or.inl h
        · right
          refine ⟨a, ?_, by rw [hHold a (hchain_ne a ha)]; exact hah⟩
          rw [hS.eq] at ha
          rcases List.mem_append.mp ha with h | h
          · simp [h]
          · simp [h]
    · intro a ha
      show 1 ≤ height m1 a
      rcases hmemchain a ha with h | h
      · rw [h, hHnew]; exact h1
      · rw [hHold a (hchain_ne a h)]; exact hR.height_pos a h
    · intro a ha
      show height m1 a ≤ (if level > sl.level then level else sl.level)
      rcases hmemchain a ha with h | h
      · rw [h, hHnew]; split <;> omega
      · rw [hHold a (hchain_ne a h)]
        have := hR.height_le a h
        split <;> omega
    · intro l hl
      show Path m1 l none sl.header (atLevel m1 l (pre ++ sl.mem.length :: post))
      have hpath := hR.linked l hl
      rw [hS.eq] at hpath
      apply insert_linked hpath hnd hnotin hHold hHnew
      · intro x hx
        rw [hL]
        unfold linkedLoad
        simp only [hx, if_false]
        by_cases hll : l < level
        · rw [hup l hll]
          by_cases hxp : x = lastFrom sl.header (atLevel sl.mem l pre)
          · simp [hll, hxp]
          · have : ¬ (lastFrom sl.header (atLevel sl.mem l pre) = x) := fun h => hxp h.symm
            simp [hll, hxp, this]
        · simp [hll]
      · intro hll
        rw [hL]
        unfold linkedLoad
        simp [hll, hup l hll]
    · show ((pre ++ sl.mem.length :: post).map (valAt m1)).Pairwise (fun a b => compare a b ≤ 0)
      have hs := hR.sorted
      rw [hS.eq] at hs
      rw [List.pairwise_map] at hs ⊢
      obtain ⟨s1, s2, s3⟩ := List.pairwise_append.mp hs
      have hvpre : ∀ x ∈ pre, valAt m1 x = valAt sl.mem x :=
        fun x hx => hVold x (hchain_ne x (hprein x hx))
      have hvpost : ∀ x ∈ post, valAt m1 x = valAt sl.mem x :=
        fun x hx => hVold x (hchain_ne x (hpostin x hx))
      apply List.pairwise_append.mpr
      refine ⟨?_, ?_, ?_⟩
      · exact s1.imp_of_mem (fun {a b} ha hb hab => by rw [hvpre a ha, hvpre b hb]; exact hab)
      · apply List.pairwise_cons.mpr
        refine ⟨?_, ?_⟩
        · intro b hb
          rw [hVnew, hvpost b hb]
          exact hT.le_of_not_lt (hS.ge b hb)
        · exact s2.imp_of_mem (fun {a b} ha hb hab => by
            rw [hvpost a ha, hvpost b hb]; exact hab)
      · intro a ha b hb
        rcases List.mem_cons.mp hb with h | h
        · rw [h, hVnew, hvpre a ha]
          have := hS.lt a ha
          omega
        · rw [hvpre a ha, hvpost b h]
          exact s3 a ha b h
    · show sl.size + 1 = ((pre ++ sl.mem.length :: post).length : Int)
      have := hR.size_eq
      rw [hS.eq] at this
      simp only [List.length_append, List.length_cons, Nat.cast_add, Nat.cast_one] at this ⊢
      omega
  · intro x hx
    exact hVold x (hchain_ne x hx)
  · show (if level > sl.level then level else sl.level) = max sl.level level
    split <;> omega

end InsertSpec

/-! ## DeleteElement on a well-formed list -/

section DeleteLemmas
variable {T : Type}

/-- The unlinking loop succeeds, runs over exactly the levels of the node, and
yields the links described by `unlinkedLoad`. -/
theorem unlink_spec [Inhabited T] (mem : List (skipListNode T)) (update : List (Option Nat))
    (node level hgt : Nat)
    (hn : height mem node = hgt)
    (hu : ∀ j, j < hgt → ∃ p, update[j]? = some (some p) ∧
      loadForward mem p j = some (some node) ∧ p ≠ node)
    (hle : hgt ≤ level)
    (hstop : hgt < level → ∃ p q, update[hgt]? = some (some p) ∧
      loadForward mem p hgt = some q ∧ q ≠ some node) :
    ∀ (n i : Nat) (m : List (skipListNode T)), i ≤ hgt → i + n = level →
      (∀ x l, loadForward m x l = unlinkedLoad mem update node i x l) →
      (∀ x, height m x = height mem x) →
      (∀ x, valAt m x = valAt mem x) →
      ∃ m1, DeleteElement.unlink update node n i m = some m1 ∧
        (∀ x l, loadForward m1 x l = unlinkedLoad mem update node hgt x l) ∧
        (∀ x, height m1 x = height mem x) ∧
        (∀ x, valAt m1 x = valAt mem x) := by
  intro n
  induction n with
  | zero =>
    intro i m hi hin hload hh hv
    have : i = hgt := by omega
    subst this
    exact ⟨m, rfl, hload, hh, hv⟩
  | succ n ih =>
    intro i m hi hin hload hh hv
    by_cases hlt : i < hgt
    · obtain ⟨p, hp, hpl, hpne⟩ := hu i hlt
      have hload_p : loadForward m p i = some (some node) := by
        rw [hload]; simp [unlinkedLoad, hpl]
      obtain ⟨nxt, hnxt⟩ := (loadForward_isSome_iff mem node i).mpr (by omega)
      have hload_n : loadForward m node i = some nxt := by
        rw [hload]; simp [unlinkedLoad, hnxt]
      obtain ⟨m1, hm1⟩ := storeForward_isSome m p i nxt
        (by rw [hh]; exact loadForward_lt_height hpl)
      obtain ⟨s1, s2, s3, -⟩ := storeForward_spec hm1
      obtain ⟨m2, hm2, r1, r2, r3⟩ := ih (i + 1) m1 (by omega) (by omega)
        (by
          intro x l
          rw [s1, hload]
          unfold unlinkedLoad
          by_cases hl : l = i
          · subst hl
            by_cases hxp : x = p
            · subst hxp
              simp [hp, hnxt]
            · have : ¬ (p = x) := fun h => hxp h.symm
              simp [hxp, hp, this]
          · have : (l < i + 1) ↔ (l < i) := by omega
            simp [hl, this])
        (by intro x; rw [s2, hh])
        (by intro x; rw [valAt_eq_of_map_eq (s3 x), hv])
      refine ⟨m2, ?_, r1, r2, r3⟩
      simp [DeleteElement.unlink, hp, hload_p, hload_n, hm1, hm2]
    · have hieq : i = hgt := by omega
      subst hieq
      obtain ⟨p, q, hp, hpl, hq⟩ := hstop (by omega)
      have hload_p : loadForward m p i = some q := by
        rw [hload]; simp [unlinkedLoad, hpl]
      refine ⟨m, ?_, hload, hh, hv⟩
      simp [DeleteElement.unlink, hp, hload_p, hq]

/-- The level loop stops at the highest level at which the header has a successor. -/
theorem lower_spec (mem : List (skipListNode T)) (header : Nat) :
    ∀ level, (∀ l, l < level → ∃ q, loadForward mem header l = some q) →
      ∃ lv, DeleteElement.lower mem header level = some lv ∧ lv ≤ level ∧
        (1 ≤ level → 1 ≤ lv) ∧
        (∀ l, lv ≤ l → l < level → loadForward mem header l = some none) ∧
        (lv ≤ 1 ∨ ∃ q, loadForward mem header (lv - 1) = some (some q)) := by
  intro level
  induction level with
  | zero =>
    intro _
    exact ⟨0, rfl, le_refl _, fun h => by omega, fun l h1 h2 => by omega, Or.inl (by omega)⟩
  | succ l ih =>
    intro hall
    by_cases h1 : 1 < l + 1
    · obtain ⟨q, hq⟩ := hall l (by omega)
      cases q with
      | none =>
        obtain ⟨lv, e1, e2, e3, e4, e5⟩ := ih (fun j hj => hall j (by omega))
        refine ⟨lv, by simp [DeleteElement.lower, h1, hq, e1], by omega,
          fun _ => e3 (by omega), ?_, e5⟩
        intro j hj1 hj2
        by_cases hjl : j = l
        · subst hjl; exact hq
        · exact e4 j hj1 (by omega)
      | some q =>
        refine ⟨l + 1, by simp [DeleteElement.lower, h1, hq], le_refl _, fun _ => by omega,
          fun j hj1 hj2 => by omega, Or.inr ⟨q, by simpa using hq⟩⟩
    · refine ⟨l + 1, by simp [DeleteElement.lower, h1], le_refl _, fun _ => by omega,
        fun j hj1 hj2 => by omega, Or.inl (by omega)⟩

/-- The level-`l` walk after the node has been unlinked from its predecessor. -/
theorem delete_linked {mem m1 : List (skipListNode T)} {h node hgt l : Nat}
    {pre rest : List Nat}
    (hpath : Path mem l none h (atLevel mem l (pre ++ node :: rest)))
    (hnd : (h :: (pre ++ node :: rest)).Nodup)
    (hH : ∀ x, height m1 x = height mem x)
    (hn : height mem node = hgt)
    (hL : ∀ x, loadForward m1 x l =
      if l < hgt ∧ x = lastFrom h (atLevel mem l pre) then loadForward mem node l
      else loadForward mem x l) :
    Path m1 l none h (atLevel m1 l (pre ++ rest)) := by
  rw [atLevel_congr l (fun x _ => hH x), atLevel_append]
  rw [atLevel_append, atLevel_cons, hn] at hpath
  have hsubpre : ∀ x ∈ h :: atLevel mem l pre, x ∈ h :: pre := by
    intro x hx
    rcases List.mem_cons.mp hx with h1 | h1
    · simp [h1]
    · exact List.mem_cons_of_mem _ ((atLevel_sublist _ _ _).subset h1)
  have hsubrest : ∀ x ∈ atLevel mem l rest, x ∈ rest :=
    fun x hx => (atLevel_sublist _ _ _).subset hx
  have hnd2 : ((h :: pre) ++ node :: rest).Nodup := by simpa using hnd
  obtain ⟨n1, n2, hdisj⟩ := List.nodup_append.mp hnd2
  have hplast : lastFrom h (atLevel mem l pre) ∈ h :: pre :=
    hsubpre _ (lastFrom_mem_cons _ _)
  have hrest_ne : ∀ x ∈ atLevel mem l rest, x ≠ lastFrom h (atLevel mem l pre) := by
    intro x hx heq
    exact hdisj (heq ▸ hplast) (List.mem_cons_of_mem _ (hsubrest x hx))
  by_cases hl : l < hgt
  · simp only [hl, if_true] at hpath
    obtain ⟨hp1, hp2, hp3⟩ := Path_append.mp hpath
    have hlast : loadForward m1 (lastFrom h (atLevel mem l pre)) l
        = loadForward mem node l := by
      rw [hL]; simp [hl]
    apply Path_append.mpr
    refine ⟨?_, ?_⟩
    · apply Path_set_last hp1
      · intro x _ hxl
        rw [hL]; simp [hxl]
      · rw [hlast]; exact Path_head hp3
      · have : (h :: atLevel mem l pre).Sublist (h :: pre) :=
          (atLevel_sublist _ _ _).cons₂ _
        exact n1.sublist this
    · apply Path_change_head hp3 hlast
      intro x hx
      rw [hL]; simp [hrest_ne x hx]
  · simp only [hl, if_false] at hpath
    apply (Path_congr ?_).mpr hpath
    intro x _
    rw [hL]; simp [hl]

end DeleteLemmas

section DeleteSpec
variable {T : Type} [Inhabited T] {compare : Comparator T}

/-- DeleteElement leaves the list as it is when the first node not below the target
does not compare equal to it. -/
theorem Delete_spec_absent {sl : SkipList T} {chain pre post : List Nat} {t : T}
    (hR : WellFormed compare sl chain) (hS : Split compare sl.mem t chain pre post)
    (hhead : ∀ y, post.head? = some y → compare (valAt sl.mem y) t ≠ 0) :
    DeleteElement sl t = some (sl, true) := by
  obtain ⟨update, htr, -⟩ := traverse_spec hR hS
  have hsucc := succ_spec hR hS
  unfold DeleteElement
  simp only [htr, hsucc]
  cases post with
  | nil => rfl
  | cons y ys =>
    have hy : y ∈ chain := by rw [hS.eq]; simp
    obtain ⟨n, hn⟩ := height_pos_iff_alloc sl.mem y (hR.height_pos y hy)
    have := hhead y rfl
    rw [valAt_of_get hn] at this
    simp [hn, hR.cmp_eq, this]

/-- DeleteElement unlinks the first node not below the target when that node compares
equal to it. -/
theorem Delete_spec_present {sl : SkipList T} {chain pre rest : List Nat} {node : Nat} {t : T}
    (hR : WellFormed compare sl chain) (hS : Split compare sl.mem t chain pre (node :: rest))
    (h0 : compare (valAt sl.mem node) t = 0) :
    ∃ sl1, DeleteElement sl t = some (sl1, true) ∧
      WellFormed compare sl1 (pre ++ rest) ∧
      (∀ x, valAt sl1.mem x = valAt sl.mem x) ∧
      sl1.size = sl.size - 1 := by
  obtain ⟨update, htr, -, hlow, -⟩ := traverse_spec hR hS
  have hsucc := succ_spec hR hS
  have hnode : node ∈ chain := by rw [hS.eq]; simp
  obtain ⟨n, hn⟩ := height_pos_iff_alloc sl.mem node (hR.height_pos node hnode)
  have hnd : (sl.header :: (pre ++ node :: rest)).Nodup := by
    rw [← hS.eq]
    exact List.nodup_cons.mpr ⟨hR.header_notin, hR.nodup⟩
  have hnd2 : ((sl.header :: pre) ++ node :: rest).Nodup := by simpa using hnd
  obtain ⟨-, nd2, hdisj⟩ := List.nodup_append.mp hnd2
  have hpred_ne : ∀ j, lastFrom sl.header (atLevel sl.mem j pre) ≠ node := by
    intro j heq
    have hin : lastFrom sl.header (atLevel sl.mem j pre) ∈ sl.header :: pre := by
      rcases List.mem_cons.mp (lastFrom_mem_cons sl.header (atLevel sl.mem j pre)) with h | h
      · simp [h]
      · exact List.mem_cons_of_mem _ ((atLevel_sublist _ _ _).subset h)
    exact hdisj hin (by rw [heq]; simp)
  have hhle := hR.height_le node hnode
  have hlvl := hR.level_le
  -- the unlinking loop
  obtain ⟨m1, hunlink, hL, hH, hV⟩ :=
    unlink_spec sl.mem update node sl.level (height sl.mem node) rfl
      (by
        intro j hj
        refine ⟨_, hlow j (by omega), ?_, hpred_ne j⟩
        have hpath := hR.linked j (by omega)
        rw [hS.eq, atLevel_append, atLevel_cons] at hpath
        simp only [hj, if_true] at hpath
        exact (Path_append.mp hpath).2.1)
      hhle
      (by
        intro hj
        have hpath := hR.linked (height sl.mem node) (by omega)
        rw [hS.eq, atLevel_append, atLevel_cons] at hpath
        simp only [lt_irrefl, if_false] at hpath
        have hh := Path_head (Path_append.mp hpath).2
        refine ⟨_, _, hlow _ hj, hh, ?_⟩
        cases hr : (atLevel sl.mem (height sl.mem node) rest).head? with
        | none => simp
        | some y =>
          have hy : y ∈ rest :=
            (atLevel_sublist _ _ _).subset (List.mem_of_mem_head? hr)
          have : y ≠ node := fun h => (List.nodup_cons.mp nd2).1 (h ▸ hy)
          simpa using this)
      sl.level 0 sl.mem (by omega) (by omega)
      (by intro x l; simp [unlinkedLoad])
      (fun _ => rfl) (fun _ => rfl)
  -- the level loop
  obtain ⟨lv, hlower, e2, e3, e4, e5⟩ := lower_spec m1 sl.header sl.level
    (by
      intro l hl
      apply (loadForward_isSome_iff m1 sl.header l).mpr
      rw [hH, hR.header_height]; omega)
  have hlinked : ∀ l, l < MaxLevel → Path m1 l none sl.header (atLevel m1 l (pre ++ rest)) := by
    intro l hl
    have hpath := hR.linked l hl
    rw [hS.eq] at hpath
    apply delete_linked hpath hnd hH rfl
    intro x
    rw [hL]
    unfold unlinkedLoad
    by_cases hll : l < height sl.mem node
    · rw [hlow l (by omega)]
      by_cases hxp : x = lastFrom sl.header (atLevel sl.mem l pre)
      · simp [hll, hxp]
      · have : ¬ (lastFrom sl.header (atLevel sl.mem l pre) = x) := fun h => hxp h.symm
        simp [hll, hxp, this]
    · simp [hll]
  have hsub : (pre ++ rest).Sublist chain := by
    rw [hS.eq]
    exact List.Sublist.append (List.Sublist.refl _) (List.sublist_cons_self _ _)
  have hheight_le : ∀ a ∈ pre ++ rest, height m1 a ≤ lv := by
    intro a ha
    by_contra hcon
    have hale := hR.height_le a (hsub.subset ha)
    rw [← hH a] at hale
    have hnil := e4 (height m1 a - 1) (by omega) (by omega)
    have hp := Path_head (hlinked (height m1 a - 1) (by omega))
    have hain : a ∈ atLevel m1 (height m1 a - 1) (pre ++ rest) :=
      mem_atLevel.mpr ⟨ha, by omega⟩
    cases hr : (atLevel m1 (height m1 a - 1) (pre ++ rest)).head? with
    | none =>
      rw [List.head?_eq_none_iff] at hr
      rw [hr] at hain
      simp at hain
    | some y =>
      rw [hr, hnil] at hp
      simp at hp
  refine ⟨{ sl with mem := m1, level := lv, size := sl.size - 1 }, ?_, ?_, hV, rfl⟩
  · unfold DeleteElement
    have h0n : compare n.Val t = 0 := by rw [← valAt_of_get hn]; exact h0
    simp [htr, hsucc, hn, hR.cmp_eq, h0n, hunlink, hlower]
  · refine
      { cmp_eq := hR.cmp_eq
        header_height := ?_
        header_notin := ?_
        nodup := hR.nodup.sublist hsub
        level_pos := e3 hR.level_pos
        level_le := ?_
        level_tight := ?_
        height_pos := ?_
        height_le := hheight_le
        linked := hlinked
        sorted := ?_
        size_eq := ?_ }
    · show height m1 sl.header = MaxLevel
      rw [hH]; exact hR.header_height
    · exact fun h => hR.header_notin (hsub.subset h)
    · show lv ≤ MaxLevel
      omega
    · show lv = 1 ∨ ∃ a ∈ pre ++ rest, height m1 a = lv
      have hlv1 := e3 hR.level_pos
      rcases e5 with h | ⟨q, hq⟩
      · left; omega
      · right
        have hp := Path_head (hlinked (lv - 1) (by omega))
        rw [hq] at hp
        cases hr : (atLevel m1 (lv - 1) (pre ++ rest)).head? with
        | none => rw [hr] at hp; simp at hp
        | some y =>
          have hy := mem_atLevel.mp (List.mem_of_mem_head? hr)
          have := hheight_le y hy.1
          exact ⟨y, hy.1, by omega⟩
    · intro a ha
      show 1 ≤ height m1 a
      rw [hH]; exact hR.height_pos a (hsub.subset ha)
    · show ((pre ++ rest).map (valAt m1)).Pairwise (fun a b => compare a b ≤ 0)
      have : (pre ++ rest).map (valAt m1) = (pre ++ rest).map (valAt sl.mem) :=
        List.map_congr_left (fun x _ => hV x)
      rw [this]
      exact hR.sorted.sublist (hsub.map _)
    · show sl.size - 1 = ((pre ++ rest).length : Int)
      have := hR.size_eq
      rw [hS.eq] at this
      simp only [List.length_append, List.length_cons, Nat.cast_add, Nat.cast_one] at this ⊢
      omega

end DeleteSpec

/-! ## Well-formed lists and their values -/

section HoldsLemmas
variable {T : Type} [Inhabited T] {compare : Comparator T}

theorem WellFormed_new (compare : Comparator T) : WellFormed compare (NewSkipList compare) [] where
  cmp_eq := rfl
  header_height := by simp [NewSkipList, height]
  header_notin := by simp
  nodup := List.nodup_nil
  level_pos := by simp [NewSkipList]
  level_le := by simp [NewSkipList, MaxLevel]
  level_tight := Or.inl rfl
  height_pos := by simp
  height_le := by simp
  linked := by
    intro l hl
    simp [atLevel, Path, NewSkipList, loadForward, List.getElem?_replicate, hl]
  sorted := by simp
  size_eq := by simp [NewSkipList]

theorem Holds_new (compare : Comparator T) : Holds compare (NewSkipList compare) [] :=
  ⟨[], WellFormed_new compare, rfl⟩

theorem Holds.asSlice {sl : SkipList T} {xs : List T} (h : Holds compare sl xs) :
    AsSlice sl = some xs := by
  obtain ⟨chain, hR, rfl⟩ := h
  exact AsSlice_spec hR

theorem Holds.unique {sl : SkipList T} {xs ys : List T} (h : Holds compare sl xs)
    (hy : AsSlice sl = some ys) : ys = xs := by
  rw [h.asSlice] at hy
  exact (Option.some.inj hy).symm

theorem Holds.size {sl : SkipList T} {xs : List T} (h : Holds compare sl xs) :
    sl.size = xs.length := by
  obtain ⟨chain, hR, rfl⟩ := h
  simpa using hR.size_eq

theorem Holds.sorted {sl : SkipList T} {xs : List T} (h : Holds compare sl xs) :
    xs.Pairwise (fun a b => compare a b ≤ 0) := by
  obtain ⟨chain, hR, rfl⟩ := h
  exact hR.sorted

theorem Holds.insert (hT : TotalOrder compare) {sl : SkipList T} {xs : List T}
    (h : Holds compare sl xs) (v : T) (level : Nat) (h1 : 1 ≤ level) (h2 : level ≤ MaxLevel) :
    ∃ sl1, Insert sl v level = some sl1 ∧
      Holds compare sl1 (xs.takeWhile (fun e => decide (compare e v < 0)) ++ v ::
        xs.dropWhile (fun e => decide (compare e v < 0))) ∧
      sl1.size = sl.size + 1 ∧ sl1.level = max sl.level level := by
  obtain ⟨chain, hR, rfl⟩ := h
  have hS := Split.exists hT sl.mem v chain hR.sorted
  obtain ⟨sl1, hins, hR1, hvold, hvnew, hsz, hlv⟩ := Insert_spec hT hR hS level h1 h2
  refine ⟨sl1, hins, ⟨_, hR1, ?_⟩, hsz, hlv⟩
  rw [List.takeWhile_map, List.dropWhile_map]
  simp only [List.map_append, List.map_cons, hvnew]
  have hsub1 : (chain.takeWhile (fun a => decide (compare (valAt sl.mem a) v < 0))).Sublist
      chain := List.takeWhile_sublist _
  have hsub2 : (chain.dropWhile (fun a => decide (compare (valAt sl.mem a) v < 0))).Sublist
      chain := List.dropWhile_sublist _
  congr 1
  · exact List.map_congr_left (fun x hx => hvold x (hsub1.subset hx))
  · congr 1
    exact List.map_congr_left (fun x hx => hvold x (hsub2.subset hx))

theorem Holds.delete_absent (hT : TotalOrder compare) {sl : SkipList T} {xs : List T}
    (h : Holds compare sl xs) (t : T) (hno : ¬ ∃ e ∈ xs, compare e t = 0) :
    DeleteElement sl t = some (sl, true) := by
  obtain ⟨chain, hR, rfl⟩ := h
  have hS := Split.exists hT sl.mem t chain hR.sorted
  apply Delete_spec_absent hR hS
  intro y hy heq
  apply hno
  refine ⟨valAt sl.mem y, List.mem_map.mpr ⟨y, ?_, rfl⟩, heq⟩
  rw [hS.eq]
  exact List.mem_append_right _ (List.mem_of_mem_head? hy)

theorem Holds.delete_present (hT : TotalOrder compare) {sl : SkipList T} {xs : List T}
    (h : Holds compare sl xs) (t : T) (hex : ∃ e ∈ xs, compare e t = 0) :
    ∃ sl1 l1 e l2, DeleteElement sl t = some (sl1, true) ∧
      xs = l1 ++ e :: l2 ∧ (∀ x ∈ l1, compare x t < 0) ∧ compare e t = 0 ∧
      Holds compare sl1 (l1 ++ l2) ∧ sl1.size = sl.size - 1 := by
  obtain ⟨chain, hR, rfl⟩ := h
  have hS := Split.exists hT sl.mem t chain hR.sorted
  cases hpost : chain.dropWhile (fun a => decide (compare (valAt sl.mem a) t < 0)) with
  | nil =>
    exfalso
    obtain ⟨e, he, he0⟩ := hex
    obtain ⟨x, hx, rfl⟩ := List.mem_map.mp he
    exact hS.no_equal hT hR.sorted (by simp [hpost]) x hx he0
  | cons node rest =>
    rw [hpost] at hS
    by_cases h0 : compare (valAt sl.mem node) t = 0
    · obtain ⟨sl1, hdel, hR1, hV, hsz⟩ := Delete_spec_present hR hS h0
      refine ⟨sl1, (chain.takeWhile (fun a => decide (compare (valAt sl.mem a) t < 0))).map
          (valAt sl.mem), valAt sl.mem node, rest.map (valAt sl.mem), hdel, ?_, ?_, h0,
        ⟨_, hR1, ?_⟩, hsz⟩
      · conv_lhs => rw [hS.eq]
        simp
      · intro x hx
        obtain ⟨a, ha, rfl⟩ := List.mem_map.mp hx
        exact hS.lt a ha
      · rw [List.map_append]
        congr 1
        · exact List.map_congr_left (fun x _ => hV x)
        · exact List.map_congr_left (fun x _ => hV x)
    · exfalso
      obtain ⟨e, he, he0⟩ := hex
      obtain ⟨x, hx, rfl⟩ := List.mem_map.mp he
      refine hS.no_equal hT hR.sorted ?_ x hx he0
      intro y hy
      simp only [List.head?_cons, Option.some.injEq] at hy
      subst hy
      exact h0

theorem Holds.search (hT : TotalOrder compare) {sl : SkipList T} {xs : List T}
    (h : Holds compare sl xs) (target : T) :
    Search sl target = some (decide (∃ e ∈ xs, compare e target = 0)) := by
  obtain ⟨chain, hR, rfl⟩ := h
  rw [Search_spec hT hR]
  congr 2
  simp

theorem Holds.peek {sl : SkipList T} {xs : List T} (h : Holds compare sl xs) :
    sl.Peek = some (match xs.head? with
      | none => (default, some Error.ErrEmptySkipList)
      | some x => (x, none)) := by
  obtain ⟨chain, hR, rfl⟩ := h
  exact Peek_spec hR

theorem Holds.get {sl : SkipList T} {xs : List T} (h : Holds compare sl xs) (index : Int) :
    Get sl index =
      if index < 0 ∨ index ≥ sl.size then
        some (default, some (NewErrIndexOutOfRange sl.size index))
      else (xs[index.toNat]?).map (fun x => (x, none)) := by
  obtain ⟨chain, hR, rfl⟩ := h
  exact Get_spec hR index

/-! ## Reachable lists are well formed -/

theorem Holds.step (hT : TotalOrder compare) {sl : SkipList T} {xs : List T}
    (h : Holds compare sl xs) (op : Op T) (hok : op.levelOk) :
    ∃ sl1 ys, applyOp sl op = some sl1 ∧ Holds compare sl1 ys := by
  cases op with
  | insert v level =>
    obtain ⟨sl1, h1, h2, -⟩ := h.insert hT v level hok.1 hok.2
    exact ⟨sl1, _, h1, h2⟩
  | delete t =>
    by_cases hex : ∃ e ∈ xs, compare e t = 0
    · obtain ⟨sl1, l1, e, l2, h1, -, -, -, h2, -⟩ := h.delete_present hT t hex
      exact ⟨sl1, _, by simp [applyOp, h1], h2⟩
    · exact ⟨sl, xs, by simp [applyOp, h.delete_absent hT t hex], h⟩

theorem Holds.run (hT : TotalOrder compare) (ops : List (Op T)) :
    ∀ (sl : SkipList T) (xs : List T), Holds compare sl xs → (∀ op ∈ ops, op.levelOk) →
      ∃ sl1 ys, runOps sl ops = some sl1 ∧ Holds compare sl1 ys := by
  induction ops with
  | nil => intro sl xs h _; exact ⟨sl, xs, rfl, h⟩
  | cons op ops ih =>
    intro sl xs h hok
    obtain ⟨sl1, ys, h1, h2⟩ := h.step hT op (hok op (by simp))
    obtain ⟨sl2, zs, h3, h4⟩ := ih sl1 ys h2 (fun o ho => hok o (List.mem_cons_of_mem _ ho))
    exact ⟨sl2, zs, by simp [runOps, h1, h3], h4⟩

theorem Reachable.holds (hT : TotalOrder compare) {sl : SkipList T}
    (h : Reachable compare sl) : ∃ xs, Holds compare sl xs := by
  obtain ⟨ops, hok, hrun⟩ := h
  obtain ⟨sl1, ys, h1, h2⟩ := Holds.run hT ops _ _ (Holds_new compare) hok
  rw [hrun] at h1
  cases h1
  exact ⟨ys, h2⟩

theorem Reachable.holds_of_asSlice (hT : TotalOrder compare) {sl : SkipList T} {xs : List T}
    (h : Reachable compare sl) (hxs : AsSlice sl = some xs) : Holds compare sl xs := by
  obtain ⟨ys, hy⟩ := h.holds hT
  rw [hy.unique hxs]
  exact hy

end HoldsLemmas

theorem totalOrder_ComparatorRealNumber : TotalOrder ComparatorRealNumber where
  refl := by intro a; simp [ComparatorRealNumber]
  flip := by
    intro a b
    unfold ComparatorRealNumber
    split_ifs <;> omega
  trans := by
    intro a b c
    unfold ComparatorRealNumber
    split_ifs <;> omega

theorem exampleOps_levelOk : ∀ op ∈ exampleOps, op.levelOk := by
  intro op hop
  simp only [exampleOps, List.mem_cons, List.mem_singleton, List.not_mem_nil, or_false] at hop
  rcases hop with h | h | h | h | h | h <;> subst h <;> simp [Op.levelOk, MaxLevel]

theorem exampleList_reachable : Reachable ComparatorRealNumber exampleList :=
  ⟨exampleOps, exampleOps_levelOk, by rfl⟩

section FromSlice
variable {T : Type} [Inhabited T] {compare : Comparator T}

omit [Inhabited T] in
theorem fromSlice_loop_eq_runOps (values : List T) :
    ∀ (levels : List Nat) (sl : SkipList T), values.length ≤ levels.length →
      NewSkipListFromSlice.loop sl values levels =
        runOps sl (List.zipWith Op.insert values levels) := by
  induction values with
  | nil => intro levels sl _; cases levels <;> rfl
  | cons v values ih =>
    intro levels sl hlen
    cases levels with
    | nil => simp at hlen
    | cons l levels =>
      simp only [NewSkipListFromSlice.loop, List.zipWith_cons_cons, runOps, applyOp]
      cases Insert sl v l with
      | none => rfl
      | some sl1 => exact ih levels sl1 (by simpa using hlen)

omit [Inhabited T] in
theorem zipWith_levelOk (values : List T) (levels : List Nat)
    (hok : ∀ l ∈ levels, 1 ≤ l ∧ l ≤ MaxLevel) :
    ∀ op ∈ List.zipWith Op.insert values levels, op.levelOk := by
  induction values generalizing levels with
  | nil => simp
  | cons v values ih =>
    cases levels with
    | nil => simp
    | cons l levels =>
      intro op hop
      simp only [List.zipWith_cons_cons, List.mem_cons] at hop
      rcases hop with h | h
      · subst h; exact hok l (by simp)
      · exact ih levels (fun x hx => hok x (List.mem_cons_of_mem _ hx)) op h

theorem Holds.fromSlice (hT : TotalOrder compare) (values : List T) :
    ∀ (levels : List Nat) (sl : SkipList T) (xs : List T), Holds compare sl xs →
      values.length ≤ levels.length → (∀ l ∈ levels, 1 ≤ l ∧ l ≤ MaxLevel) →
      ∃ sl1, NewSkipListFromSlice.loop sl values levels = some sl1 ∧
        Holds compare sl1 (values.foldl (insertVal compare) xs) ∧
        sl1.size = sl.size + values.length := by
  induction values with
  | nil =>
    intro levels sl xs h _ _
    refine ⟨sl, ?_, h, by simp⟩
    cases levels <;> rfl
  | cons v values ih =>
    intro levels sl xs h hlen hok
    cases levels with
    | nil => simp at hlen
    | cons l levels =>
      have hl := hok l (by simp)
      obtain ⟨sl1, h1, h2, h3, -⟩ := h.insert hT v l hl.1 hl.2
      obtain ⟨sl2, h4, h5, h6⟩ := ih levels sl1 _ h2 (by simpa using hlen)
        (fun x hx => hok x (List.mem_cons_of_mem _ hx))
      refine ⟨sl2, by simp [NewSkipListFromSlice.loop, h1, h4], h5, ?_⟩
      rw [h6, h3]
      simp only [List.length_cons, Nat.cast_add, Nat.cast_one]
      omega

omit [Inhabited T] in
theorem insertVal_perm (compare : Comparator T) (xs : List T) (v : T) :
    (insertVal compare xs v).Perm (v :: xs) := by
  unfold insertVal
  refine List.perm_middle.trans (List.Perm.cons v ?_)
  rw [List.takeWhile_append_dropWhile]

omit [Inhabited T] in
theorem foldl_insertVal_perm (compare : Comparator T) (values : List T) :
    ∀ xs : List T, (values.foldl (insertVal compare) xs).Perm (xs ++ values) := by
  induction values with
  | nil => intro xs; simp
  | cons v values ih =>
    intro xs
    simp only [List.foldl_cons]
    refine (ih _).trans ?_
    refine ((insertVal_perm compare xs v).append_right values).trans ?_
    have hmid : (xs ++ v :: values).Perm (v :: (xs ++ values)) := List.perm_middle
    simpa using hmid.symm

/-- The list built from `[5, 3, 8, 1, 9, 3]`, whatever levels are drawn. -/
theorem example_holds (levels : List Nat) (hlen : levels.length = 6)
    (hok : ∀ l ∈ levels, 1 ≤ l ∧ l ≤ MaxLevel) :
    ∃ sl, NewSkipListFromSlice [5, 3, 8, 1, 9, 3] ComparatorRealNumber levels = some sl ∧
      Holds ComparatorRealNumber sl [1, 3, 3, 5, 8, 9] ∧
      Reachable ComparatorRealNumber sl := by
  obtain ⟨sl, h1, h2, -⟩ := Holds.fromSlice totalOrder_ComparatorRealNumber [5, 3, 8, 1, 9, 3]
    levels _ _ (Holds_new ComparatorRealNumber) (by simp [hlen]) hok
  have hval : List.foldl (insertVal ComparatorRealNumber) [] [5, 3, 8, 1, 9, 3]
      = [1, 3, 3, 5, 8, 9] := by decide
  rw [hval] at h2
  refine ⟨sl, h1, h2, List.zipWith Op.insert [5, 3, 8, 1, 9, 3] levels,
    zipWith_levelOk _ _ hok, ?_⟩
  rw [← fromSlice_loop_eq_runOps _ _ _ (by simp [hlen])]
  exact h1

end FromSlice

theorem exampleCalls_levelOk : ∀ op ∈ exampleCalls, op.levelOk := by
  intro op hop
  simp only [exampleCalls, List.mem_append, List.mem_cons, List.mem_singleton,
    List.not_mem_nil, or_false] at hop
  rcases hop with h | h | h
  · exact exampleOps_levelOk op h
  · subst h; trivial
  · subst h; trivial

theorem exampleList_asSlice : AsSlice exampleList = some [1, 3, 3, 5, 8, 9] := by rfl

section Counting
variable {T : Type} [Inhabited T] {compare : Comparator T}

theorem Holds.count (hT : TotalOrder compare) (ops : List (Op T)) :
    ∀ (sl : SkipList T) (xs : List T), Holds compare sl xs → (∀ op ∈ ops, op.levelOk) →
      ∃ sl1 ys c, runOps sl ops = some sl1 ∧ Holds compare sl1 ys ∧
        countOps sl ops = some c ∧ sl1.size = sl.size + c.1 - c.2 := by
  induction ops with
  | nil =>
    intro sl xs h _
    exact ⟨sl, xs, (0, 0), rfl, h, rfl, by simp⟩
  | cons op ops ih =>
    intro sl xs h hok
    have hok1 := hok op (by simp)
    have hok2 : ∀ o ∈ ops, o.levelOk := fun o ho => hok o (List.mem_cons_of_mem _ ho)
    cases op with
    | insert v level =>
      obtain ⟨sl1, h1, h2, h3, -⟩ := h.insert hT v level hok1.1 hok1.2
      obtain ⟨sl2, ys, c, r1, r2, r3, r4⟩ := ih sl1 _ h2 hok2
      refine ⟨sl2, ys, (c.1 + 1, c.2), by simp [runOps, applyOp, h1, r1], r2,
        by simp [countOps, h1, r3], ?_⟩
      rw [r4, h3]
      simp only
      omega
    | delete t =>
      by_cases hex : ∃ e ∈ xs, compare e t = 0
      · obtain ⟨sl1, l1, e, l2, h1, h2, -, -, h3, h4⟩ := h.delete_present hT t hex
        obtain ⟨sl2, ys, c, r1, r2, r3, r4⟩ := ih sl1 _ h3 hok2
        refine ⟨sl2, ys, (c.1, c.2 + 1), by simp [runOps, applyOp, h1, r1], r2, ?_, ?_⟩
        · simp [countOps, h1, h.asSlice, h3.asSlice, r3, h2]
        · rw [r4, h4]
          simp only
          omega
      · have h1 := h.delete_absent hT t hex
        obtain ⟨sl2, ys, c, r1, r2, r3, r4⟩ := ih sl xs h hok2
        refine ⟨sl2, ys, (c.1, c.2 + 0), by simp [runOps, applyOp, h1, r1], r2, ?_, ?_⟩
        · simp [countOps, h1, h.asSlice, r3]
        · rw [r4]
          simp only
          omega

end Counting

/-! ## The claims about the skip list -/

/-- C1: for a total-order comparator, after any finite sequence of Insert and
DeleteElement calls on a new list, with any drawn levels in 1..MaxLevel, the calls all
return and AsSlice returns a non-decreasing sequence: every element compares `<= 0`
with every later one, in particular with its right neighbour. -/
theorem C1_asSlice_sorted {T : Type} [Inhabited T] (compare : Comparator T)
    (hT : TotalOrder compare) (ops : List (Op T)) (hok : ∀ op ∈ ops, op.levelOk) :
    ∃ sl xs, runOps (NewSkipList compare) ops = some sl ∧ AsSlice sl = some xs ∧
      xs.Pairwise (fun a b => compare a b ≤ 0) ∧
      xs.Chain' (fun a b => compare a b ≤ 0) := by
  obtain ⟨sl, xs, h1, h2⟩ := Holds.run hT ops _ _ (Holds_new compare) hok
  exact ⟨sl, xs, h1, h2.asSlice, h2.sorted, h2.sorted.chain'⟩

theorem C1_asSlice_sorted_witness :
    TotalOrder ComparatorRealNumber ∧ (∀ op ∈ exampleCalls, op.levelOk) ∧
    (runOps (NewSkipList ComparatorRealNumber) exampleCalls).bind AsSlice
      = some [1, 3, 5, 8, 9] ∧
    ∃ sl xs, runOps (NewSkipList ComparatorRealNumber) exampleCalls = some sl ∧
      AsSlice sl = some xs ∧
      xs.Pairwise (fun a b => ComparatorRealNumber a b ≤ 0) ∧
      xs.Chain' (fun a b => ComparatorRealNumber a b ≤ 0) :=
  ⟨totalOrder_ComparatorRealNumber, exampleCalls_levelOk, by rfl,
    C1_asSlice_sorted ComparatorRealNumber totalOrder_ComparatorRealNumber exampleCalls
      exampleCalls_levelOk⟩

/-- C2: on a reachable list with `AsSlice() = xs`, `Insert(v)` with any drawn level in
1..MaxLevel returns, and afterwards AsSlice is the longest prefix of `xs` of elements
strictly below `v`, then `v`, then the rest of `xs`. No element before `v` compares
equal to it and the result is `xs` with `v` added (nothing is suppressed). -/
theorem C2_insert_position {T : Type} [Inhabited T] (compare : Comparator T)
    (hT : TotalOrder compare) (sl : SkipList T) (hreach : Reachable compare sl)
    (xs : List T) (hxs : AsSlice sl = some xs) (v : T) (level : Nat)
    (h1 : 1 ≤ level) (h2 : level ≤ MaxLevel) :
    ∃ sl1, Insert sl v level = some sl1 ∧
      AsSlice sl1 = some (xs.takeWhile (fun e => decide (compare e v < 0)) ++ [v] ++
        xs.dropWhile (fun e => decide (compare e v < 0))) ∧
      (∀ e ∈ xs.takeWhile (fun e => decide (compare e v < 0)), compare e v ≠ 0) ∧
      (xs.takeWhile (fun e => decide (compare e v < 0)) ++ [v] ++
        xs.dropWhile (fun e => decide (compare e v < 0))).Perm (v :: xs) := by
  have h := hreach.holds_of_asSlice hT hxs
  obtain ⟨sl1, hins, hh, -⟩ := h.insert hT v level h1 h2
  refine ⟨sl1, hins, ?_, ?_, ?_⟩
  · rw [hh.asSlice]; simp
  · intro e he
    have := List.mem_takeWhile_imp he
    simp only [decide_eq_true_eq] at this
    omega
  · have := insertVal_perm compare xs v
    simpa [insertVal] using this

theorem C2_insert_position_witness :
    TotalOrder ComparatorRealNumber ∧ Reachable ComparatorRealNumber exampleList ∧
    AsSlice exampleList = some [1, 3, 3, 5, 8, 9] ∧ 1 ≤ 2 ∧ 2 ≤ MaxLevel ∧
    (Insert exampleList 3 2).bind AsSlice = some [1, 3, 3, 3, 5, 8, 9] ∧
    List.takeWhile (fun e => decide (ComparatorRealNumber e 3 < 0)) [1, 3, 3, 5, 8, 9] = [1] ∧
    ∃ sl1, Insert exampleList 3 2 = some sl1 ∧
      AsSlice sl1 = some
        (List.takeWhile (fun e => decide (ComparatorRealNumber e 3 < 0)) [1, 3, 3, 5, 8, 9] ++
          [3] ++
          List.dropWhile (fun e => decide (ComparatorRealNumber e 3 < 0)) [1, 3, 3, 5, 8, 9]) ∧
      (∀ e ∈ List.takeWhile (fun e => decide (ComparatorRealNumber e 3 < 0))
          [1, 3, 3, 5, 8, 9], ComparatorRealNumber e 3 ≠ 0) ∧
      (List.takeWhile (fun e => decide (ComparatorRealNumber e 3 < 0)) [1, 3, 3, 5, 8, 9] ++
          [3] ++
          List.dropWhile (fun e => decide (ComparatorRealNumber e 3 < 0))
            [1, 3, 3, 5, 8, 9]).Perm (3 :: [1, 3, 3, 5, 8, 9]) :=
  ⟨totalOrder_ComparatorRealNumber, exampleList_reachable, exampleList_asSlice,
    by decide, by decide, by rfl, by decide,
    C2_insert_position ComparatorRealNumber totalOrder_ComparatorRealNumber exampleList
      exampleList_reachable [1, 3, 3, 5, 8, 9] exampleList_asSlice 3 2 (by decide) (by decide)⟩

/-- C3: on a reachable list (total-order comparator) `Search(target)` returns, and
returns true exactly when some element of AsSlice compares equal to `target`. Search
only reads the list, so it has no list to return: AsSlice, Len and the level are what
they were. After inserting `[5,3,8,1,9,3]`, with any drawn levels, `Search(8)` is
true and `Search(7)` is false. -/
theorem C3_search_membership :
    (∀ (T : Type) [Inhabited T] (compare : Comparator T), TotalOrder compare →
      ∀ (sl : SkipList T) (xs : List T) (target : T), Reachable compare sl →
        AsSlice sl = some xs →
        Search sl target = some (decide (∃ e ∈ xs, compare e target = 0))) ∧
    (∀ levels : List Nat, levels.length = 6 → (∀ l ∈ levels, 1 ≤ l ∧ l ≤ MaxLevel) →
      ∃ sl, NewSkipListFromSlice [5, 3, 8, 1, 9, 3] ComparatorRealNumber levels = some sl ∧
        Search sl 8 = some true ∧ Search sl 7 = some false) := by
  refine ⟨?_, ?_⟩
  · intro T _ compare hT sl xs target hreach hxs
    exact (hreach.holds_of_asSlice hT hxs).search hT target
  · intro levels hlen hok
    obtain ⟨sl, h1, h2, -⟩ := example_holds levels hlen hok
    refine ⟨sl, h1, ?_, ?_⟩
    · rw [h2.search totalOrder_ComparatorRealNumber]; decide
    · rw [h2.search totalOrder_ComparatorRealNumber]; decide

theorem C3_search_membership_witness :
    TotalOrder ComparatorRealNumber ∧ Reachable ComparatorRealNumber exampleList ∧
    AsSlice exampleList = some [1, 3, 3, 5, 8, 9] ∧
    Search exampleList 8 = some true ∧ Search exampleList 7 = some false ∧
    Search exampleList 8
      = some (decide (∃ e ∈ [(1 : Int), 3, 3, 5, 8, 9], ComparatorRealNumber e 8 = 0)) :=
  ⟨totalOrder_ComparatorRealNumber, exampleList_reachable, exampleList_asSlice,
    by rfl, by rfl,
    C3_search_membership.1 Int ComparatorRealNumber totalOrder_ComparatorRealNumber
      exampleList [1, 3, 3, 5, 8, 9] 8 exampleList_reachable exampleList_asSlice⟩

/-- C4: after any sequence of Insert and DeleteElement calls on a new list, `Len()` is
the length of AsSlice and is the number of Insert calls minus the number of
DeleteElement calls that removed a node; a further Insert raises `Len()` by exactly 1
and a further DeleteElement of an absent value leaves it as it is. -/
theorem C4_len_invariant {T : Type} [Inhabited T] (compare : Comparator T)
    (hT : TotalOrder compare) (ops : List (Op T)) (hok : ∀ op ∈ ops, op.levelOk) :
    ∃ sl xs c, runOps (NewSkipList compare) ops = some sl ∧ AsSlice sl = some xs ∧
      countOps (NewSkipList compare) ops = some c ∧
      sl.Len = xs.length ∧ sl.Len = c.1 - c.2 ∧
      (∀ (v : T) (level : Nat), 1 ≤ level → level ≤ MaxLevel →
        ∃ sl1, Insert sl v level = some sl1 ∧ sl1.Len = sl.Len + 1) ∧
      (∀ target : T, (¬ ∃ e ∈ xs, compare e target = 0) →
        ∃ sl1 b, DeleteElement sl target = some (sl1, b) ∧ sl1.Len = sl.Len) := by
  obtain ⟨sl, xs, c, h1, h2, h3, h4⟩ := Holds.count hT ops _ _ (Holds_new compare) hok
  refine ⟨sl, xs, c, h1, h2.asSlice, h3, h2.size, ?_, ?_, ?_⟩
  · simpa [SkipList.Len, NewSkipList] using h4
  · intro v level hl1 hl2
    obtain ⟨sl1, r1, -, r3, -⟩ := h2.insert hT v level hl1 hl2
    exact ⟨sl1, r1, r3⟩
  · intro target hno
    exact ⟨sl, true, h2.delete_absent hT target hno, rfl⟩

theorem C4_len_invariant_witness :
    TotalOrder ComparatorRealNumber ∧ (∀ op ∈ exampleCalls, op.levelOk) ∧
    countOps (NewSkipList ComparatorRealNumber) exampleCalls = some (6, 1) ∧
    ∃ sl xs c, runOps (NewSkipList ComparatorRealNumber) exampleCalls = some sl ∧
      AsSlice sl = some xs ∧
      countOps (NewSkipList ComparatorRealNumber) exampleCalls = some c ∧
      sl.Len = xs.length ∧ sl.Len = c.1 - c.2 ∧
      (∀ (v : Int) (level : Nat), 1 ≤ level → level ≤ MaxLevel →
        ∃ sl1, Insert sl v level = some sl1 ∧ sl1.Len = sl.Len + 1) ∧
      (∀ target : Int, (¬ ∃ e ∈ xs, ComparatorRealNumber e target = 0) →
        ∃ sl1 b, DeleteElement sl target = some (sl1, b) ∧ sl1.Len = sl.Len) :=
  ⟨totalOrder_ComparatorRealNumber, exampleCalls_levelOk, by rfl,
    C4_len_invariant ComparatorRealNumber totalOrder_ComparatorRealNumber exampleCalls
      exampleCalls_levelOk⟩

/-- C5: on a reachable list `DeleteElement(target)` returns, and returns true,
whether or not the target is present; when no element of AsSlice compares equal to
the target the list is untouched: same AsSlice, same Len, same level. Deleting 42
from `[1,3,3,5,8,9]` returns true and leaves `[1,3,3,5,8,9]`. -/
theorem C5_delete_always_true :
    (∀ (T : Type) [Inhabited T] (compare : Comparator T), TotalOrder compare →
      ∀ (sl : SkipList T) (xs : List T) (target : T), Reachable compare sl →
        AsSlice sl = some xs →
        ∃ sl1, DeleteElement sl target = some (sl1, true) ∧
          ((¬ ∃ e ∈ xs, compare e target = 0) →
            sl1 = sl ∧ AsSlice sl1 = some xs ∧ sl1.Len = sl.Len ∧ sl1.level = sl.level)) ∧
    (∀ levels : List Nat, levels.length = 6 → (∀ l ∈ levels, 1 ≤ l ∧ l ≤ MaxLevel) →
      ∃ sl, NewSkipListFromSlice [5, 3, 8, 1, 9, 3] ComparatorRealNumber levels = some sl ∧
        AsSlice sl = some [1, 3, 3, 5, 8, 9] ∧
        DeleteElement sl 42 = some (sl, true)) := by
  refine ⟨?_, ?_⟩
  · intro T _ compare hT sl xs target hreach hxs
    have h := hreach.holds_of_asSlice hT hxs
    by_cases hex : ∃ e ∈ xs, compare e target = 0
    · obtain ⟨sl1, l1, e, l2, h1, -⟩ := h.delete_present hT target hex
      exact ⟨sl1, h1, fun hno => absurd hex hno⟩
    · exact ⟨sl, h.delete_absent hT target hex, fun _ => ⟨rfl, hxs, rfl, rfl⟩⟩
  · intro levels hlen hok
    obtain ⟨sl, h1, h2, -⟩ := example_holds levels hlen hok
    refine ⟨sl, h1, h2.asSlice, ?_⟩
    exact h2.delete_absent totalOrder_ComparatorRealNumber 42 (by decide)

theorem C5_delete_always_true_witness :
    TotalOrder ComparatorRealNumber ∧ Reachable ComparatorRealNumber exampleList ∧
    AsSlice exampleList = some [1, 3, 3, 5, 8, 9] ∧
    DeleteElement exampleList 42 = some (exampleList, true) ∧
    ∃ sl1, DeleteElement exampleList 42 = some (sl1, true) ∧
      ((¬ ∃ e ∈ [(1 : Int), 3, 3, 5, 8, 9], ComparatorRealNumber e 42 = 0) →
        sl1 = exampleList ∧ AsSlice sl1 = some [1, 3, 3, 5, 8, 9] ∧
          sl1.Len = exampleList.Len ∧ sl1.level = exampleList.level) :=
  ⟨totalOrder_ComparatorRealNumber, exampleList_reachable, exampleList_asSlice, by rfl,
    C5_delete_always_true.1 Int ComparatorRealNumber totalOrder_ComparatorRealNumber
      exampleList [1, 3, 3, 5, 8, 9] 42 exampleList_reachable exampleList_asSlice⟩

/-- C6: on a reachable list (total-order comparator) with `AsSlice() = xs` in which
some element compares equal to `target`, `DeleteElement(target)` returns true and
removes exactly one element, the leftmost one comparing equal to `target`: `xs` is
`l1 ++ e :: l2` with no element of `l1` comparing equal, `e` comparing equal, and
afterwards AsSlice is `l1 ++ l2` and `Len()` is one less. Deleting 3 once from
`[1,3,3,5,8,9]` gives `[1,3,5,8,9]`. -/
theorem C6_delete_removes_leftmost :
    (∀ (T : Type) [Inhabited T] (compare : Comparator T), TotalOrder compare →
      ∀ (sl : SkipList T) (xs : List T) (target : T), Reachable compare sl →
        AsSlice sl = some xs → (∃ e ∈ xs, compare e target = 0) →
        ∃ sl1 l1 e l2, DeleteElement sl target = some (sl1, true) ∧
          xs = l1 ++ e :: l2 ∧ (∀ x ∈ l1, compare x target ≠ 0) ∧ compare e target = 0 ∧
          AsSlice sl1 = some (l1 ++ l2) ∧ sl1.Len = sl.Len - 1) ∧
    (∀ levels : List Nat, levels.length = 6 → (∀ l ∈ levels, 1 ≤ l ∧ l ≤ MaxLevel) →
      ∃ sl sl1, NewSkipListFromSlice [5, 3, 8, 1, 9, 3] ComparatorRealNumber levels = some sl ∧
        AsSlice sl = some [1, 3, 3, 5, 8, 9] ∧
        DeleteElement sl 3 = some (sl1, true) ∧
        AsSlice sl1 = some [1, 3, 5, 8, 9] ∧ sl1.Len = 5) := by
  have general : ∀ (T : Type) [Inhabited T] (compare : Comparator T), TotalOrder compare →
      ∀ (sl : SkipList T) (xs : List T) (target : T), Reachable compare sl →
        AsSlice sl = some xs → (∃ e ∈ xs, compare e target = 0) →
        ∃ sl1 l1 e l2, DeleteElement sl target = some (sl1, true) ∧
          xs = l1 ++ e :: l2 ∧ (∀ x ∈ l1, compare x target ≠ 0) ∧ compare e target = 0 ∧
          AsSlice sl1 = some (l1 ++ l2) ∧ sl1.Len = sl.Len - 1 := by
    intro T _ compare hT sl xs target hreach hxs hex
    have h := hreach.holds_of_asSlice hT hxs
    obtain ⟨sl1, l1, e, l2, h1, h2, h3, h4, h5, h6⟩ := h.delete_present hT target hex
    refine ⟨sl1, l1, e, l2, h1, h2, ?_, h4, h5.asSlice, h6⟩
    intro x hx
    have := h3 x hx
    omega
  refine ⟨general, ?_⟩
  intro levels hlen hok
  obtain ⟨sl, h1, h2, h3⟩ := example_holds levels hlen hok
  obtain ⟨sl1, l1, e, l2, r1, r2, r3, r4, r5, r6⟩ :=
    general Int ComparatorRealNumber totalOrder_ComparatorRealNumber sl _ 3 h3 h2.asSlice
      (by decide)
  -- the split of `[1,3,3,5,8,9]` at the leftmost 3 is forced
  have hl1 : l1 = [1] ∧ l2 = [3, 5, 8, 9] := by
    match l1, r2, r3 with
    | [], r2, _ =>
      simp only [List.nil_append, List.cons.injEq] at r2
      rw [← r2.1] at r4
      exact absurd r4 (by decide)
    | [a], r2, _ =>
      simp only [List.cons_append, List.nil_append, List.cons.injEq] at r2
      exact ⟨by rw [r2.1], r2.2.2.symm⟩
    | a :: b :: l, r2, r3 =>
      simp only [List.cons_append, List.cons.injEq] at r2
      have := r3 b (by simp)
      rw [← r2.2.1] at this
      exact absurd this (by decide)
  rw [hl1.1, hl1.2] at r5
  refine ⟨sl, sl1, h1, h2.asSlice, r1, r5, ?_⟩
  rw [r6]
  simp [SkipList.Len, h2.size]

theorem C6_delete_removes_leftmost_witness :
    TotalOrder ComparatorRealNumber ∧ Reachable ComparatorRealNumber exampleList ∧
    AsSlice exampleList = some [1, 3, 3, 5, 8, 9] ∧
    (∃ e ∈ [(1 : Int), 3, 3, 5, 8, 9], ComparatorRealNumber e 3 = 0) ∧
    ((DeleteElement exampleList 3).bind (fun r => AsSlice r.1)) = some [1, 3, 5, 8, 9] ∧
    ∃ sl1 l1 e l2, DeleteElement exampleList 3 = some (sl1, true) ∧
      [(1 : Int), 3, 3, 5, 8, 9] = l1 ++ e :: l2 ∧
      (∀ x ∈ l1, ComparatorRealNumber x 3 ≠ 0) ∧ ComparatorRealNumber e 3 = 0 ∧
      AsSlice sl1 = some (l1 ++ l2) ∧ sl1.Len = exampleList.Len - 1 :=
  ⟨totalOrder_ComparatorRealNumber, exampleList_reachable, exampleList_asSlice,
    by decide, by rfl,
    C6_delete_removes_leftmost.1 Int ComparatorRealNumber totalOrder_ComparatorRealNumber
      exampleList [1, 3, 3, 5, 8, 9] 3 exampleList_reachable exampleList_asSlice (by decide)⟩

/-- C7: on a reachable list with `AsSlice() = xs`, `Get(index)` returns; it fails
exactly when `index < 0` or `index >= Len()`, with the error
`NewErrIndexOutOfRange(Len(), index)` and the zero value; otherwise it returns
`xs[index]` and no error, so the walk never leaves the list. Get only reads the list.
On `[1,3,3,5,8,9]`, `Get(0)` is 1 and `Get(6)` fails with the error built from (6, 6). -/
theorem C7_get_positional :
    (∀ (T : Type) [Inhabited T] (compare : Comparator T), TotalOrder compare →
      ∀ (sl : SkipList T) (xs : List T) (index : Int), Reachable compare sl →
        AsSlice sl = some xs →
        ((index < 0 ∨ index ≥ sl.Len) →
          Get sl index = some (default, some (NewErrIndexOutOfRange sl.Len index))) ∧
        (¬ (index < 0 ∨ index ≥ sl.Len) →
          ∃ x, xs[index.toNat]? = some x ∧ Get sl index = some (x, none))) ∧
    (∀ levels : List Nat, levels.length = 6 → (∀ l ∈ levels, 1 ≤ l ∧ l ≤ MaxLevel) →
      ∃ sl, NewSkipListFromSlice [5, 3, 8, 1, 9, 3] ComparatorRealNumber levels = some sl ∧
        AsSlice sl = some [1, 3, 3, 5, 8, 9] ∧
        Get sl 0 = some (1, none) ∧
        Get sl 6 = some (default, some (NewErrIndexOutOfRange 6 6))) := by
  refine ⟨?_, ?_⟩
  · intro T _ compare hT sl xs index hreach hxs
    have h := hreach.holds_of_asSlice hT hxs
    have hg := h.get index
    have hsz := h.size
    refine ⟨?_, ?_⟩
    · intro hidx
      rw [hg]
      simp only [SkipList.Len] at hidx ⊢
      simp [hidx]
    · intro hidx
      rw [hg]
      simp only [SkipList.Len] at hidx ⊢
      have hlt : index.toNat < xs.length := by omega
      refine ⟨xs[index.toNat], List.getElem?_eq_getElem hlt, ?_⟩
      simp [hidx, List.getElem?_eq_getElem hlt]
  · intro levels hlen hok
    obtain ⟨sl, h1, h2, -⟩ := example_holds levels hlen hok
    have hsz := h2.size
    refine ⟨sl, h1, h2.asSlice, ?_, ?_⟩
    · rw [h2.get, hsz]; rfl
    · rw [h2.get, hsz]; rfl

theorem C7_get_positional_witness :
    TotalOrder ComparatorRealNumber ∧ Reachable ComparatorRealNumber exampleList ∧
    AsSlice exampleList = some [1, 3, 3, 5, 8, 9] ∧
    Get exampleList 0 = some (1, none) ∧
    Get exampleList 6 = some (0, some (Error.IndexOutOfRange 6 6)) ∧
    Get exampleList (-1) = some (0, some (Error.IndexOutOfRange 6 (-1))) ∧
    (((2 : Int) < 0 ∨ (2 : Int) ≥ exampleList.Len →
        Get exampleList 2
          = some (default, some (NewErrIndexOutOfRange exampleList.Len 2))) ∧
      (¬ ((2 : Int) < 0 ∨ (2 : Int) ≥ exampleList.Len) →
        ∃ x, [(1 : Int), 3, 3, 5, 8, 9][(2 : Int).toNat]? = some x ∧
          Get exampleList 2 = some (x, none))) :=
  ⟨totalOrder_ComparatorRealNumber, exampleList_reachable, exampleList_asSlice,
    by rfl, by rfl, by rfl,
    C7_get_positional.1 Int ComparatorRealNumber totalOrder_ComparatorRealNumber
      exampleList [1, 3, 3, 5, 8, 9] 2 exampleList_reachable exampleList_asSlice⟩

/-- C8: on a reachable list with `AsSlice() = xs`, `Peek()` returns; it fails, with
the empty-list error and the zero value, exactly when `Len() == 0`; otherwise it
returns the first element of `xs` and no error, and that element compares `<= 0` with
every element of the list. Peek only reads the list. -/
theorem C8_peek {T : Type} [Inhabited T] (compare : Comparator T)
    (hT : TotalOrder compare) (sl : SkipList T) (hreach : Reachable compare sl)
    (xs : List T) (hxs : AsSlice sl = some xs) :
    (sl.Len = 0 → sl.Peek = some (default, some Error.ErrEmptySkipList)) ∧
    (sl.Len ≠ 0 → ∃ x rest, xs = x :: rest ∧ sl.Peek = some (x, none) ∧
      ∀ e ∈ xs, compare x e ≤ 0) := by
  have h := hreach.holds_of_asSlice hT hxs
  have hp := h.peek
  have hsz := h.size
  have hs := h.sorted
  cases xs with
  | nil =>
    refine ⟨fun _ => hp, fun hne => ?_⟩
    simp [SkipList.Len, hsz] at hne
  | cons x rest =>
    refine ⟨fun h0 => ?_, fun _ => ⟨x, rest, rfl, hp, ?_⟩⟩
    · simp only [SkipList.Len, hsz, List.length_cons] at h0
      omega
    · intro e he
      rcases List.mem_cons.mp he with h1 | h1
      · rw [h1, hT.refl]
      · exact (List.pairwise_cons.mp hs).1 e h1

theorem C8_peek_witness :
    TotalOrder ComparatorRealNumber ∧ Reachable ComparatorRealNumber exampleList ∧
    AsSlice exampleList = some [1, 3, 3, 5, 8, 9] ∧
    exampleList.Peek = some (1, none) ∧
    (NewSkipList ComparatorRealNumber).Peek = some (0, some Error.ErrEmptySkipList) ∧
    ((exampleList.Len = 0 → exampleList.Peek = some (default, some Error.ErrEmptySkipList)) ∧
      (exampleList.Len ≠ 0 → ∃ x rest, [(1 : Int), 3, 3, 5, 8, 9] = x :: rest ∧
        exampleList.Peek = some (x, none) ∧
        ∀ e ∈ [(1 : Int), 3, 3, 5, 8, 9], ComparatorRealNumber x e ≤ 0)) :=
  ⟨totalOrder_ComparatorRealNumber, exampleList_reachable, exampleList_asSlice,
    by rfl, by rfl,
    C8_peek ComparatorRealNumber totalOrder_ComparatorRealNumber exampleList
      exampleList_reachable [1, 3, 3, 5, 8, 9] exampleList_asSlice⟩

/-- C9: for every input slice and total-order comparator, with any drawn levels in
1..MaxLevel, `NewSkipListFromSlice` returns the list that Insert calls on a new list
give for the values in input order with the same levels; its `Len()` is the number
of values and its AsSlice is a non-decreasing permutation of the values. The values
`[5,3,8,1,9,3]` with the ascending comparator give `[1,3,3,5,8,9]`. -/
theorem C9_from_slice :
    (∀ (T : Type) [Inhabited T] (compare : Comparator T), TotalOrder compare →
      ∀ (values : List T) (levels : List Nat), values.length ≤ levels.length →
        (∀ l ∈ levels, 1 ≤ l ∧ l ≤ MaxLevel) →
        ∃ sl xs, NewSkipListFromSlice values compare levels = some sl ∧
          runOps (NewSkipList compare) (List.zipWith Op.insert values levels) = some sl ∧
          sl.Len = values.length ∧ AsSlice sl = some xs ∧
          xs.Pairwise (fun a b => compare a b ≤ 0) ∧ xs.Perm values) ∧
    (∀ levels : List Nat, levels.length = 6 → (∀ l ∈ levels, 1 ≤ l ∧ l ≤ MaxLevel) →
      ∃ sl, NewSkipListFromSlice [5, 3, 8, 1, 9, 3] ComparatorRealNumber levels = some sl ∧
        AsSlice sl = some [1, 3, 3, 5, 8, 9]) := by
  refine ⟨?_, ?_⟩
  · intro T _ compare hT values levels hlen hok
    obtain ⟨sl, h1, h2, h3⟩ :=
      Holds.fromSlice hT values levels _ _ (Holds_new compare) hlen hok
    refine ⟨sl, _, h1, ?_, ?_, h2.asSlice, h2.sorted, ?_⟩
    · rw [← fromSlice_loop_eq_runOps values levels _ hlen]
      exact h1
    · simpa [SkipList.Len, NewSkipList] using h3
    · simpa using foldl_insertVal_perm compare values []
  · intro levels hlen hok
    obtain ⟨sl, h1, h2, -⟩ := example_holds levels hlen hok
    exact ⟨sl, h1, h2.asSlice⟩

theorem C9_from_slice_witness :
    TotalOrder ComparatorRealNumber ∧
    (NewSkipListFromSlice [5, 3, 8, 1, 9, 3] ComparatorRealNumber [1, 2, 1, 3, 1, 2]).bind AsSlice
      = some [1, 3, 3, 5, 8, 9] ∧
    ∃ sl xs, NewSkipListFromSlice [(5 : Int), 3, 8, 1, 9, 3] ComparatorRealNumber
        [1, 2, 1, 3, 1, 2] = some sl ∧
      runOps (NewSkipList ComparatorRealNumber)
        (List.zipWith Op.insert [(5 : Int), 3, 8, 1, 9, 3] [1, 2, 1, 3, 1, 2]) = some sl ∧
      sl.Len = ([(5 : Int), 3, 8, 1, 9, 3].length : Int) ∧ AsSlice sl = some xs ∧
      xs.Pairwise (fun a b => ComparatorRealNumber a b ≤ 0) ∧
      xs.Perm [(5 : Int), 3, 8, 1, 9, 3] :=
  ⟨totalOrder_ComparatorRealNumber, by rfl,
    C9_from_slice.1 Int ComparatorRealNumber totalOrder_ComparatorRealNumber
      [5, 3, 8, 1, 9, 3] [1, 2, 1, 3, 1, 2] (by decide)
      (by decide)⟩

/-! ## Priority queue: the heap property -/

section HeapBasics
variable {T : Type}

theorem index_natCast (data : List T) (k : Nat) : index data (k : Int) = data[k]? := by
  simp [index]

theorem index_neg (data : List T) (i : Int) (h : i < 0) : index data i = none := by
  simp [index]; omega

theorem swapAt_natCast (data : List T) (i j : Nat) (x y : T)
    (hi : data[i]? = some x) (hj : data[j]? = some y) :
    swapAt data (i : Int) (j : Int) = some ((data.set i y).set j x) := by
  simp [swapAt, index_natCast, hi, hj]

theorem getElem?_swap (data : List T) (i j : Nat) (x y : T)
    (hi : i < data.length) (hj : j < data.length) (k : Nat) :
    ((data.set i y).set j x)[k]? =
      if k = j then some x else if k = i then some y else data[k]? := by
  rw [List.getElem?_set, List.getElem?_set]
  by_cases h1 : j = k
  · subst h1; simp [hj]
  · have : ¬ (k = j) := fun h => h1 h.symm
    simp only [h1, this, if_false]
    by_cases h2 : i = k
    · subst h2; simp [hi]
    · have : ¬ (k = i) := fun h => h2 h.symm
      simp [h2, this]

theorem count_set_add [DecidableEq T] (a y : T) :
    ∀ (data : List T) (i : Nat) (x : T), data[i]? = some x →
      List.count a (data.set i y) + (if x = a then 1 else 0)
        = List.count a data + (if y = a then 1 else 0) := by
  intro data
  induction data with
  | nil => intro i x h; simp at h
  | cons d ds ih =>
    intro i x h
    cases i with
    | zero =>
      simp only [List.getElem?_cons_zero, Option.some.injEq] at h
      subst h
      simp only [List.set_cons_zero, List.count_cons, beq_iff_eq]
      omega
    | succ i =>
      simp only [List.getElem?_cons_succ] at h
      have := ih i x h
      simp only [List.set_cons_succ, List.count_cons, beq_iff_eq]
      omega

theorem swap_perm (data : List T) (i j : Nat) (x y : T)
    (hi : data[i]? = some x) (hj : data[j]? = some y) :
    ((data.set i y).set j x).Perm data := by
  classical
  have hil : i < data.length := (List.getElem?_eq_some_iff.mp hi).1
  have hj2 : (data.set i y)[j]? = some y := by
    rw [List.getElem?_set]
    by_cases hij : i = j
    · subst hij; simp [hil]
    · simp [hij, hj]
  rw [List.perm_iff_count]
  intro a
  have h1 := count_set_add a y data i x hi
  have h2 := count_set_add a x (data.set i y) j y hj2
  omega

end HeapBasics

section SiftUp
variable {T : Type} {compare : Comparator T}

theorem shiftRight_parent (p : Nat) :
    ((p : Int) - 1) >>> (1 : Nat) = if p = 0 then -1 else (((p - 1) / 2 : Nat) : Int) := by
  rw [Int.shiftRight_eq_div_pow]
  split
  · subst_vars; decide
  · simp; omega

theorem tdiv_parent (n : Nat) (h : 1 ≤ n) :
    Int.tdiv ((n : Int) - 1) 2 = (((n - 1) / 2 : Nat) : Int) := by
  rw [Int.tdiv_eq_ediv (by omega) (by omega)]
  omega

theorem SiftUpInv.isMinHeap_zero {data : List T} (h : SiftUpInv compare data 0) :
    IsMinHeap compare data :=
  fun i hi x y hx hy => h.1 i hi (by omega) x y hx hy

/-- One swap of the sift-up loop keeps the invariant, one level up. -/
theorem siftUp_swap_inv (hT : TotalOrder compare) {data : List T} {node : Nat} {x y : T}
    (hinv : SiftUpInv compare data node) (hnode : 1 ≤ node)
    (hx : data[node]? = some x) (hy : data[(node - 1) / 2]? = some y)
    (hlt : compare x y < 0) :
    SiftUpInv compare ((data.set ((node - 1) / 2) x).set node y) ((node - 1) / 2) := by
  have hnl : node < data.length := (List.getElem?_eq_some_iff.mp hx).1
  have hpl : (node - 1) / 2 < data.length := (List.getElem?_eq_some_iff.mp hy).1
  have hget := getElem?_swap data ((node - 1) / 2) node y x hpl hnl
  refine ⟨?_, ?_⟩
  · intro i hi hip a b ha hb
    rw [hget] at ha hb
    by_cases hin : i = node
    · subst hin
      have h1 : ¬ ((i - 1) / 2 = i) := by omega
      simp only [h1, if_false, if_true] at ha hb
      rw [← Option.some.inj ha, ← Option.some.inj hb]
      omega
    · simp only [hin, hip, if_false] at hb
      by_cases hq1 : (i - 1) / 2 = node
      · simp only [hq1, if_true] at ha
        rw [← Option.some.inj ha]
        exact hinv.2 i hi hq1 hnode y b hy hb
      · simp only [hq1, if_false] at ha
        by_cases hq2 : (i - 1) / 2 = (node - 1) / 2
        · simp only [hq2, if_true] at ha
          rw [← Option.some.inj ha]
          have := hinv.1 i hi hin y b (by rw [hq2]; exact hy) hb
          exact hT.trans _ _ _ (by omega) this
        · simp only [hq2, if_false] at ha
          exact hinv.1 i hi hin a b ha hb
  · intro c hc hcp hp a b ha hb
    rw [hget] at ha hb
    have h1 : ¬ (((node - 1) / 2 - 1) / 2 = node) := by omega
    have h2 : ¬ (((node - 1) / 2 - 1) / 2 = (node - 1) / 2) := by omega
    simp only [h1, h2, if_false] at ha
    have hpy := hinv.1 ((node - 1) / 2) hp (by omega) a y ha hy
    by_cases hcn : c = node
    · simp only [hcn, if_true] at hb
      rw [← Option.some.inj hb]
      exact hpy
    · have h3 : ¬ (c = (node - 1) / 2) := by omega
      simp only [hcn, h3, if_false] at hb
      have := hinv.1 c hc hcn y b (by rw [hcp]; exact hy) hb
      exact hT.trans _ _ _ hpy this

/-- The sift-up loop returns a heap with the same elements. -/
theorem siftUp_spec (hT : TotalOrder compare) :
    ∀ (fuel node : Nat) (data : List T), node < data.length → node < fuel →
      SiftUpInv compare data node →
      ∃ data1, Enqueue.loop compare fuel (node : Int)
          (if node = 0 then -1 else (((node - 1) / 2 : Nat) : Int)) data = some data1 ∧
        IsMinHeap compare data1 ∧ data1.length = data.length ∧ data1.Perm data := by
  intro fuel
  induction fuel with
  | zero => intro node data _ h; omega
  | succ fuel ih =>
    intro node data hnl hnf hinv
    by_cases hn0 : node = 0
    · subst hn0
      exact ⟨data, by simp [Enqueue.loop], hinv.isMinHeap_zero, rfl, List.Perm.refl _⟩
    · obtain ⟨p, hp⟩ : ∃ p, p = (node - 1) / 2 := ⟨_, rfl⟩
      have hpl : p < data.length := by omega
      have hx : data[node]? = some data[node] := List.getElem?_eq_getElem hnl
      have hy : data[p]? = some data[p] := List.getElem?_eq_getElem hpl
      have hy2 : data[(node - 1) / 2]? = some data[p] := by rw [← hp]; exact hy
      simp only [hn0, if_false]
      rw [← hp]
      have hp0 : (0 : Int) ≤ (p : Int) := Int.natCast_nonneg p
      by_cases hlt : compare data[node] data[p] < 0
      · obtain ⟨data1, h1, h2, h3, h4⟩ :=
          ih p ((data.set p data[node]).set node data[p]) (by simpa using hpl) (by omega)
            (by
              have hsw := siftUp_swap_inv hT hinv (by omega) hx hy2 hlt
              subst hp
              exact hsw)
        refine ⟨data1, ?_, h2, by simpa using h3, h4.trans (swap_perm data _ _ _ _ hy hx)⟩
        rw [← shiftRight_parent] at h1
        rw [Enqueue.loop]
        simp only [ge_iff_le, hp0, if_true, index_natCast, hx, hy, hlt,
          swapAt_natCast data _ _ _ _ hy hx]
        exact h1
      · refine ⟨data, ?_, ?_, rfl, List.Perm.refl _⟩
        · rw [Enqueue.loop]
          simp only [ge_iff_le, hp0, if_true, index_natCast, hx, hy, hlt, if_false]
        · intro i hi a b ha hb
          by_cases hin : i = node
          · subst hin
            rw [hx] at hb
            rw [hy2] at ha
            rw [← Option.some.inj ha, ← Option.some.inj hb]
            exact hT.le_of_not_lt hlt
          · exact hinv.1 i hi hin a b ha hb

end SiftUp

section SiftDown
variable {T : Type} {compare : Comparator T}

/-- One test of `heapify`: either the child is out of range or not below the
current minimum and `minPos` stays, or it is below and becomes the new `minPos`. -/
theorem pick_spec (compare : Comparator T) (data : List T) (c m : Nat)
    (hm : c < data.length → m < data.length) :
    ∃ r : Nat, heapify.pick compare data (data.length : Int) (c : Int) (m : Int)
        = some (r : Int) ∧
      ((r = m ∧ ∀ x y, data[c]? = some x → data[m]? = some y → ¬ compare x y < 0) ∨
       (r = c ∧ ∃ x y, data[c]? = some x ∧ data[m]? = some y ∧ compare x y < 0)) := by
  unfold heapify.pick
  by_cases hc : c < data.length
  · have hml := hm hc
    have hx : data[c]? = some data[c] := List.getElem?_eq_getElem hc
    have hy : data[m]? = some data[m] := List.getElem?_eq_getElem hml
    have hci : (c : Int) < (data.length : Int) := by omega
    simp only [hci, if_true, index_natCast, hx, hy]
    by_cases hlt : compare data[c] data[m] < 0
    · refine ⟨c, by simp [hlt], Or.inr ⟨rfl, _, _, rfl, rfl, hlt⟩⟩
    · refine ⟨m, by simp [hlt], Or.inl ⟨rfl, ?_⟩⟩
      intro x y h1 h2
      rw [← Option.some.inj h1, ← Option.some.inj h2]
      exact hlt
  · have hci : ¬ ((c : Int) < (data.length : Int)) := by omega
    refine ⟨m, by simp only [hci, if_false], Or.inl ⟨rfl, ?_⟩⟩
    intro x y h1 _
    have := (List.getElem?_eq_some_iff.mp h1).1
    omega

/-- One swap of the heapify loop keeps the invariant, one level down. -/
theorem siftDown_swap_inv {data : List T} {i m : Nat} {x y : T}
    (hinv : SiftDownInv compare data i) (hm : m = 2 * i + 1 ∨ m = 2 * i + 2)
    (hx : data[i]? = some x) (hy : data[m]? = some y) (hlt : compare y x < 0)
    (hsib : ∀ s, (s = 2 * i + 1 ∨ s = 2 * i + 2) → ∀ z, data[s]? = some z → compare y z ≤ 0) :
    SiftDownInv compare ((data.set i y).set m x) m := by
  have hil : i < data.length := (List.getElem?_eq_some_iff.mp hx).1
  have hml : m < data.length := (List.getElem?_eq_some_iff.mp hy).1
  have hget := getElem?_swap data i m x y hil hml
  have hmi : (m - 1) / 2 = i := by omega
  refine ⟨?_, ?_⟩
  · intro j hj hjp a b ha hb
    rw [hget] at ha hb
    simp only [hjp, if_false] at ha
    by_cases hjm : j = m
    · subst hjm
      simp only [hmi, if_true] at ha hb
      rw [← Option.some.inj ha, ← Option.some.inj hb]
      omega
    · simp only [hjm, if_false] at hb
      by_cases hji : j = i
      · subst hji
        have h1 : ¬ ((j - 1) / 2 = j) := by omega
        simp only [h1, if_false, if_true] at ha hb
        rw [← Option.some.inj hb]
        exact hinv.2 m (by omega) hmi hj a y ha hy
      · simp only [hji, if_false] at hb
        by_cases hq : (j - 1) / 2 = i
        · simp only [hq, if_true] at ha
          rw [← Option.some.inj ha]
          exact hsib j (by omega) b hb
        · simp only [hq, if_false] at ha
          exact hinv.1 j hj hq a b ha hb
  · intro c hc hcp hm1 a b ha hb
    rw [hget] at ha hb
    have h1 : ¬ ((m - 1) / 2 = m) := by omega
    have h2 : ¬ (c = m) := by omega
    have h3 : ¬ (c = i) := by omega
    have h4 : ¬ (i = m) := by omega
    simp only [h1, hmi, h2, h3, h4, if_false, if_true] at ha hb
    rw [← Option.some.inj ha]
    exact hinv.1 c hc (by omega) y b (by rw [hcp]; exact hy) hb

/-- The heapify loop returns a heap with the same elements. -/
theorem siftDown_spec (hT : TotalOrder compare) :
    ∀ (fuel i : Nat) (data : List T), 0 < fuel → data.length < fuel + i →
      SiftDownInv compare data i →
      ∃ data1, heapify.loop compare (data.length : Int) fuel (i : Int) (i : Int) data
          = some data1 ∧
        IsMinHeap compare data1 ∧ data1.length = data.length ∧ data1.Perm data := by
  intro fuel
  induction fuel with
  | zero => intro i data hpos; omega
  | succ fuel ih =>
    intro i data _ hf hinv
    obtain ⟨r1, hp1, hr1⟩ := pick_spec compare data (2 * i + 1) i (by omega)
    obtain ⟨r2, hp2, hr2⟩ := pick_spec compare data (2 * i + 2) r1 (by
      intro h
      rcases hr1 with ⟨h1, -⟩ | ⟨h1, -⟩ <;> omega)
    have e1 : (i : Int) * 2 + 1 = ((2 * i + 1 : Nat) : Int) := by push_cast; ring
    have e2 : (i : Int) * 2 + 2 = ((2 * i + 2 : Nat) : Int) := by push_cast; ring
    rw [heapify.loop, e1, e2, hp1]
    simp only [hp2]
    by_cases hri : r2 = i
    · -- no child is below the node: the loop stops
      have hr1i : r1 = i := by
        rcases hr1 with ⟨h1, -⟩ | ⟨h1, -⟩
        · exact h1
        · rcases hr2 with ⟨h2, -⟩ | ⟨h2, -⟩ <;> omega
      refine ⟨data, by simp [hri], ?_, rfl, List.Perm.refl _⟩
      intro j hj a b ha hb
      by_cases hq : (j - 1) / 2 = i
      · rw [hq] at ha
        apply hT.le_of_not_lt
        have hj2 : j = 2 * i + 1 ∨ j = 2 * i + 2 := by omega
        rcases hj2 with hj2 | hj2
        · subst hj2
          rcases hr1 with ⟨-, h1⟩ | ⟨h1, -⟩
          · exact h1 b a hb ha
          · omega
        · subst hj2
          rcases hr2 with ⟨-, h2⟩ | ⟨h2, -⟩
          · rw [hr1i] at h2
            exact h2 b a hb ha
          · omega
      · exact hinv.1 j hj hq a b ha hb
    · -- the smaller child is swapped with the node
      have hcast : ¬ ((r2 : Int) = (i : Int)) := by
        intro h; exact hri (by exact_mod_cast h)
      simp only [hcast, if_false]
      have hstep : ∃ x y, data[i]? = some x ∧ data[r2]? = some y ∧
          (r2 = 2 * i + 1 ∨ r2 = 2 * i + 2) ∧ compare y x < 0 ∧
          (∀ s, (s = 2 * i + 1 ∨ s = 2 * i + 2) → ∀ z, data[s]? = some z →
            compare y z ≤ 0) := by
        rcases hr1 with ⟨h1, hno1⟩ | ⟨h1, x1, y1, hx1, hy1, hlt1⟩
        · -- the left child is not below the node, so the right child is
          subst h1
          rcases hr2 with ⟨h2, -⟩ | ⟨h2, x2, y2, hx2, hy2, hlt2⟩
          · exact absurd h2 hri
          · subst h2
            refine ⟨y2, x2, hy2, hx2, Or.inr rfl, hlt2, ?_⟩
            intro s hs z hz
            rcases hs with hs | hs
            · subst hs
              have := hT.le_of_not_lt (hno1 z y2 hz hy2)
              exact hT.trans _ _ _ (by omega) this
            · subst hs
              rw [hx2] at hz
              rw [← Option.some.inj hz, hT.refl]
        · subst h1
          rcases hr2 with ⟨h2, hno2⟩ | ⟨h2, x2, y2, hx2, hy2, hlt2⟩
          · subst h2
            refine ⟨y1, x1, hy1, hx1, Or.inl rfl, hlt1, ?_⟩
            intro s hs z hz
            rcases hs with hs | hs
            · subst hs
              rw [hx1] at hz
              rw [← Option.some.inj hz, hT.refl]
            · subst hs
              exact hT.le_of_not_lt (hno2 z x1 hz hx1)
          · subst h2
            rw [hx1] at hy2
            have hyx : y2 = x1 := (Option.some.inj hy2).symm
            subst hyx
            refine ⟨y1, x2, hy1, hx2, Or.inr rfl,
              hT.lt_of_le_of_lt (by omega) hlt1, ?_⟩
            intro s hs z hz
            rcases hs with hs | hs
            · subst hs
              rw [hx1] at hz
              rw [← Option.some.inj hz]
              omega
            · subst hs
              rw [hx2] at hz
              rw [← Option.some.inj hz, hT.refl]
      obtain ⟨x, y, hx, hy, hm, hlt, hsib⟩ := hstep
      have hlen : ((data.set i y).set r2 x).length = data.length := by simp
      obtain ⟨data1, h1, h2, h3, h4⟩ :=
        ih r2 ((data.set i y).set r2 x)
          (by have := (List.getElem?_eq_some_iff.mp hy).1; omega)
          (by rw [hlen]; omega)
          (siftDown_swap_inv hinv hm hx hy hlt hsib)
      rw [hlen] at h1
      refine ⟨data1, ?_, h2, by rw [h3, hlen], h4.trans (swap_perm data _ _ _ _ hx hy)⟩
      rw [swapAt_natCast data i r2 x y hx hy]
      exact h1

end SiftDown

section QueueSpec
variable {T : Type}

theorem isMinHeap_nil (compare : Comparator T) : IsMinHeap compare [] := by
  intro i _ x y hx _
  simp at hx

theorem shrinkIfNecessary_data (p : PriorityQueue T) :
    (shrinkIfNecessary p).data = p.data ∧ (shrinkIfNecessary p).compare = p.compare ∧
      (shrinkIfNecessary p).capacity = p.capacity := by
  unfold shrinkIfNecessary
  split <;> simp [Shrink]

/-- Enqueue returns; it keeps the heap property, the comparator and the capacity; it
is refused exactly when the queue is full, and otherwise adds the value. -/
theorem Enqueue_spec (p : PriorityQueue T) (hT : TotalOrder p.compare)
    (hh : IsMinHeap p.compare p.data) (t : T) :
    ∃ p1 err, Enqueue p t = some (p1, err) ∧ IsMinHeap p1.compare p1.data ∧
      p1.compare = p.compare ∧ p1.capacity = p.capacity ∧
      (p.isFull = true → p1 = p ∧ err = some Error.ErrOutOfCapacity) ∧
      (p.isFull = false → err = none ∧ p1.data.Perm (p.data ++ [t])) := by
  by_cases hfull : p.isFull = true
  · refine ⟨p, some Error.ErrOutOfCapacity, ?_, hh, rfl, rfl, fun _ => ⟨rfl, rfl⟩, ?_⟩
    · simp [Enqueue, hfull]
    · intro h; rw [hfull] at h; cases h
  · have hlen : (p.data ++ [t]).length = p.data.length + 1 := by simp
    have hnode : (((p.data ++ [t]).length : Nat) : Int) - 1 = (p.data.length : Int) := by
      rw [hlen]; push_cast; ring
    have hloop : ∃ data1, Enqueue.loop p.compare ((p.data ++ [t]).length + 1)
        (p.data.length : Int) (Int.tdiv ((p.data.length : Int) - 1) 2) (p.data ++ [t])
          = some data1 ∧ IsMinHeap p.compare data1 ∧ data1.Perm (p.data ++ [t]) := by
      by_cases hn : p.data.length = 0
      · have hnil : p.data = [] := List.length_eq_zero.mp hn
        refine ⟨[t], ?_, ?_, by simp [hnil]⟩
        · rw [hnil]
          show Enqueue.loop p.compare 2 0 0 [t] = some [t]
          simp [Enqueue.loop, index, hT.refl]
        · intro i hi x y hx hy
          have := (List.getElem?_eq_some_iff.mp hy).1
          simp at this
          omega
      · rw [tdiv_parent _ (by omega)]
        have hinv : SiftUpInv p.compare (p.data ++ [t]) p.data.length := by
          refine ⟨?_, ?_⟩
          · intro i hi hin x y hx hy
            have hil := (List.getElem?_eq_some_iff.mp hy).1
            rw [hlen] at hil
            have hi2 : i < p.data.length := by omega
            rw [List.getElem?_append_left (by omega)] at hx
            rw [List.getElem?_append_left hi2] at hy
            exact hh i hi x y hx hy
          · intro c hc hcp _ x y _ hy
            have hil := (List.getElem?_eq_some_iff.mp hy).1
            rw [hlen] at hil
            omega
        obtain ⟨data1, h1, h2, -, h4⟩ :=
          siftUp_spec hT ((p.data ++ [t]).length + 1) p.data.length (p.data ++ [t])
            (by omega) (by omega) hinv
        simp only [hn, if_false] at h1
        exact ⟨data1, h1, h2, h4⟩
    obtain ⟨data1, h1, h2, h3⟩ := hloop
    refine ⟨{ p with data := data1 }, none, ?_, h2, rfl, rfl,
      fun h => absurd h hfull, fun _ => ⟨rfl, h3⟩⟩
    unfold Enqueue
    simp only [hfull, Bool.false_eq_true, if_false]
    rw [hnode, h1]

/-- Dequeue returns; it keeps the heap property, the comparator and the capacity; on
an empty queue it changes nothing, otherwise it returns the root and removes it. -/
theorem Dequeue_spec [Inhabited T] (p : PriorityQueue T) (hT : TotalOrder p.compare)
    (hh : IsMinHeap p.compare p.data) :
    ∃ p1 v err, Dequeue p = some (p1, v, err) ∧ IsMinHeap p1.compare p1.data ∧
      p1.compare = p.compare ∧ p1.capacity = p.capacity ∧
      (p.data = [] → p1 = p ∧ v = default ∧ err = some Error.ErrEmptyQueue) ∧
      (p.data ≠ [] → err = none ∧ p.data.head? = some v ∧ (v :: p1.data).Perm p.data) := by
  cases hd : p.data with
  | nil =>
    have hempty : p.isEmpty = true := by simp [PriorityQueue.isEmpty, hd]
    refine ⟨p, default, some Error.ErrEmptyQueue, by simp [Dequeue, hempty], ?_, rfl, rfl,
      fun _ => ⟨rfl, rfl, rfl⟩, fun h => absurd rfl h⟩
    rw [hd]; exact isMinHeap_nil _
  | cons x rest =>
    have hempty : p.isEmpty = false := by
      simp [PriorityQueue.isEmpty, hd]
    obtain ⟨last, hlast⟩ : ∃ last, (x :: rest)[rest.length]? = some last :=
      ⟨_, List.getElem?_eq_getElem (by simp)⟩
    have hidx0 : index p.data 0 = some x := by simp [index, hd]
    have hidxl : index p.data ((p.data.length : Int) - 1) = some last := by
      have : ((p.data.length : Nat) : Int) - 1 = (rest.length : Int) := by
        simp [hd]
      rw [this, index_natCast, hd]; exact hlast
    have htoNat : (((p.data.length : Nat) : Int) - 1).toNat = rest.length := by simp [hd]
    obtain ⟨hs1, hs2, hs3⟩ := shrinkIfNecessary_data
      ({ p with data := (p.data.set 0 last).take rest.length } : PriorityQueue T)
    simp only at hs1 hs2 hs3
    -- the slice handed to heapify
    have hd1 : ∀ k a, 1 ≤ k → ((p.data.set 0 last).take rest.length)[k]? = some a →
        p.data[k]? = some a := by
      intro k a hk hka
      rw [List.getElem?_take] at hka
      split at hka
      · rw [List.getElem?_set_ne (by omega)] at hka
        exact hka
      · cases hka
    have hinv : SiftDownInv p.compare ((p.data.set 0 last).take rest.length) 0 := by
      refine ⟨?_, ?_⟩
      · intro j hj hjp a b ha hb
        exact hh j hj a b (hd1 _ a (by omega) ha) (hd1 _ b hj hb)
      · intro c _ _ h0
        omega
    obtain ⟨data1, h1, h2, -, h4⟩ :=
      siftDown_spec hT (((p.data.set 0 last).take rest.length).length + 1) 0
        ((p.data.set 0 last).take rest.length) (by omega) (by omega) hinv
    have hfuel : ((((p.data.set 0 last).take rest.length).length : Nat) : Int).toNat + 1
        = ((p.data.set 0 last).take rest.length).length + 1 := by rw [Int.toNat_natCast]
    refine ⟨{ shrinkIfNecessary
        ({ p with data := (p.data.set 0 last).take rest.length } : PriorityQueue T)
        with data := data1 }, x, none, ?_, ?_, hs2, hs3, (fun h => by cases h),
      (fun _ => ⟨rfl, rfl, ?_⟩)⟩
    · unfold Dequeue
      simp only [hempty, Bool.false_eq_true, if_false, hidx0, hidxl, htoNat]
      unfold heapify
      rw [hs1, hs2, hfuel]
      simp only [Nat.cast_zero] at h1
      simp only [h1]
    · show IsMinHeap (shrinkIfNecessary _).compare data1
      rw [hs2]; exact h2
    · show (x :: data1).Perm (x :: rest)
      refine List.Perm.cons x (h4.trans ?_)
      -- the last element moved to the root, the rest kept
      rw [hd]
      cases hr : rest with
      | nil => simp
      | cons y ys =>
        have hlast2 : (y :: ys)[ys.length]? = some last := by
          rw [hr] at hlast
          simpa using hlast
        have hset : (x :: y :: ys).set 0 last = last :: y :: ys := rfl
        rw [hset]
        have hlen2 : (y :: ys).length = ys.length + 1 := rfl
        rw [hlen2, List.take_succ_cons]
        have hsplit : y :: ys = (y :: ys).take ys.length ++ [last] := by
          have hnl : ys.length < (y :: ys).length := by simp
          have h5 := List.take_append_drop ys.length (y :: ys)
          have h6 : (y :: ys).drop ys.length = [last] := by
            rw [List.drop_eq_getElem_cons hnl]
            have : (y :: ys)[ys.length] = last := by
              have := List.getElem?_eq_getElem hnl
              rw [hlast2] at this
              exact (Option.some.inj this).symm
            rw [this]
            simp
          rw [h6] at h5
          exact h5.symm
        conv_rhs => rw [hsplit]
        exact (List.perm_append_singleton last _).symm

end QueueSpec

section QueueRun
variable {T : Type} [Inhabited T] {compare : Comparator T}

/-- Every sequence of Enqueue and Dequeue calls returns and keeps the heap property,
the comparator and the capacity. -/
theorem heap_run (hT : TotalOrder compare) (ops : List (QOp T)) :
    ∀ p : PriorityQueue T, p.compare = compare → IsMinHeap compare p.data →
      ∃ p1, runQOps p ops = some p1 ∧ p1.compare = compare ∧
        IsMinHeap compare p1.data ∧ p1.capacity = p.capacity := by
  induction ops with
  | nil => intro p hc hh; exact ⟨p, rfl, hc, hh, rfl⟩
  | cons op ops ih =>
    intro p hc hh
    have hstep : ∃ p1, applyQOp p op = some p1 ∧ p1.compare = compare ∧
        IsMinHeap compare p1.data ∧ p1.capacity = p.capacity := by
      cases op with
      | enqueue t =>
        obtain ⟨p1, err, h1, h2, h3, h4, -⟩ :=
          Enqueue_spec p (by rw [hc]; exact hT) (by rw [hc]; exact hh) t
        exact ⟨p1, by simp [applyQOp, h1], by rw [h3, hc], by rw [h3, hc] at h2; exact h2, h4⟩
      | dequeue =>
        obtain ⟨p1, v, err, h1, h2, h3, h4, -⟩ :=
          Dequeue_spec p (by rw [hc]; exact hT) (by rw [hc]; exact hh)
        exact ⟨p1, by simp [applyQOp, h1], by rw [h3, hc], by rw [h3, hc] at h2; exact h2, h4⟩
    obtain ⟨p1, h1, h2, h3, h4⟩ := hstep
    obtain ⟨p2, r1, r2, r3, r4⟩ := ih p1 h2 h3
    exact ⟨p2, by simp [runQOps, h1, r1], r2, r3, by rw [r4, h4]⟩

end QueueRun

section QueueNew
variable {T : Type}

/-- The constructor returns exactly when the preallocation is within `maxAlloc`: the
slice capacity is 64 for a capacity below 1 and the capacity itself otherwise. -/
theorem NewPriorityQueue_returns (elemSize : Nat) (capacity : Int) (compare : Comparator T) :
    (∃ p0, NewPriorityQueue elemSize capacity compare = some p0) ↔
      (elemSize : Int) * (if capacity < 1 then 64 else capacity) ≤ (maxAlloc : Int) := by
  by_cases hc : capacity < 1
  · simp only [NewPriorityQueue, makeSlice, hc, if_true]
    by_cases hm : (maxAlloc : Int) < (elemSize : Int) * 64
    · simp [hm]
    · simp [hm]
      exact not_lt.mp hm
  · simp only [NewPriorityQueue, makeSlice, hc, if_false]
    by_cases hm : (maxAlloc : Int) < (elemSize : Int) * capacity
    · simp [hm]
    · have h0 : ¬ capacity < 0 := by omega
      simp [hm, h0]
      exact not_lt.mp hm

/-- A queue the constructor returns is empty, holds the comparator and records the
capacity, 0 for a capacity below 1. -/
theorem NewPriorityQueue_some {elemSize : Nat} {capacity : Int} {compare : Comparator T}
    {p0 : PriorityQueue T} (h : NewPriorityQueue elemSize capacity compare = some p0) :
    p0 = { capacity := if capacity < 1 then 0 else capacity
           data := []
           compare := compare } := by
  by_cases hm : (if capacity < 1 then (64 : Int) else capacity) < 0 ∨
      (maxAlloc : Int) < (elemSize : Int) * (if capacity < 1 then 64 else capacity)
  · simp only [NewPriorityQueue, makeSlice] at h
    rw [if_pos hm] at h
    cases h
  · simp only [NewPriorityQueue, makeSlice] at h
    rw [if_neg hm] at h
    cases h
    rfl

/-- A capacity below 1 with elements of at most `2 ^ 42` bytes, or a positive capacity
with `elemSize * capacity` within `maxAlloc`, makes the constructor return. -/
theorem NewPriorityQueue_eq (elemSize : Nat) (capacity : Int) (compare : Comparator T)
    (h : (elemSize : Int) * (if capacity < 1 then 64 else capacity) ≤ (maxAlloc : Int)) :
    NewPriorityQueue elemSize capacity compare
      = some { capacity := if capacity < 1 then 0 else capacity
               data := []
               compare := compare } := by
  obtain ⟨p0, h0⟩ := (NewPriorityQueue_returns elemSize capacity compare).mpr h
  rw [h0, NewPriorityQueue_some h0]

end QueueNew

/-- C10: for a total-order comparator and any capacity argument, every sequence of
Enqueue and Dequeue calls on a queue that `NewPriorityQueue` returned, failing calls
included, returns, and in the state reached every index `i` with `1 <= i < Len()` has
`compare(data[(i-1)/2], data[i]) <= 0`; that is, every node compares `<= 0` with its
children at `2i+1` and `2i+2`. `slice.Shrink` is taken to keep the elements. -/
theorem C10_heap_invariant {T : Type} [Inhabited T] (compare : Comparator T)
    (hT : TotalOrder compare) (elemSize : Nat) (capacity : Int) (p0 : PriorityQueue T)
    (hnew : NewPriorityQueue elemSize capacity compare = some p0) (ops : List (QOp T)) :
    ∃ p, runQOps p0 ops = some p ∧
      (∀ i : Nat, 1 ≤ i → (i : Int) < p.Len →
        ∃ x y, p.data[(i - 1) / 2]? = some x ∧ p.data[i]? = some y ∧ compare x y ≤ 0) ∧
      (∀ (i : Nat) (x : T), p.data[i]? = some x →
        (∀ y, p.data[2 * i + 1]? = some y → compare x y ≤ 0) ∧
        (∀ y, p.data[2 * i + 2]? = some y → compare x y ≤ 0)) := by
  have hp0 := NewPriorityQueue_some hnew
  obtain ⟨p, h1, -, h3, -⟩ :=
    heap_run hT ops p0 (by rw [hp0]) (by rw [hp0]; exact isMinHeap_nil compare)
  refine ⟨p, h1, ?_, ?_⟩
  · intro i hi hlen
    have hil : i < p.data.length := by
      simp only [PriorityQueue.Len] at hlen
      omega
    have hpl : (i - 1) / 2 < p.data.length := by omega
    exact ⟨_, _, List.getElem?_eq_getElem hpl, List.getElem?_eq_getElem hil,
      h3 i hi _ _ (List.getElem?_eq_getElem hpl) (List.getElem?_eq_getElem hil)⟩
  · intro i x hx
    refine ⟨fun y hy => ?_, fun y hy => ?_⟩
    · exact h3 (2 * i + 1) (by omega) x y
        (by rw [show (2 * i + 1 - 1) / 2 = i by omega]; exact hx) hy
    · exact h3 (2 * i + 2) (by omega) x y
        (by rw [show (2 * i + 2 - 1) / 2 = i by omega]; exact hx) hy

theorem C10_heap_invariant_witness :
    TotalOrder ComparatorRealNumber ∧
    NewPriorityQueue 8 0 ComparatorRealNumber = some exampleNewQueue ∧
    (runQOps exampleNewQueue exampleQOps).map PriorityQueue.data
      = some [2, 4, 3, 7, 5, 6] ∧
    ∃ p, runQOps exampleNewQueue exampleQOps = some p ∧
      (∀ i : Nat, 1 ≤ i → (i : Int) < p.Len →
        ∃ x y, p.data[(i - 1) / 2]? = some x ∧ p.data[i]? = some y ∧
          ComparatorRealNumber x y ≤ 0) ∧
      (∀ (i : Nat) (x : Int), p.data[i]? = some x →
        (∀ y, p.data[2 * i + 1]? = some y → ComparatorRealNumber x y ≤ 0) ∧
        (∀ y, p.data[2 * i + 2]? = some y → ComparatorRealNumber x y ≤ 0)) :=
  ⟨totalOrder_ComparatorRealNumber, by rfl, by rfl,
    C10_heap_invariant ComparatorRealNumber totalOrder_ComparatorRealNumber 8 0
      exampleNewQueue (by rfl) exampleQOps⟩

/-! ## Priority queue: the loops return on every state -/

section HeapTotal
variable {T : Type}

/-- The sift-up loop returns for every comparator: every index it uses is in range and
the parent index decreases until it is negative. -/
theorem siftUp_total (compare : Comparator T) :
    ∀ (fuel node : Nat) (parent : Int) (data : List T), node < data.length →
      parent ≤ (node : Int) → 0 < fuel → parent + 1 < (fuel : Int) →
      ∃ data1, Enqueue.loop compare fuel (node : Int) parent data = some data1 ∧
        data1.length = data.length ∧ data1.Perm data := by
  intro fuel
  induction fuel with
  | zero => intro node parent data _ _ hpos; omega
  | succ fuel ih =>
    intro node parent data hnl hpn _ hf
    by_cases hp0 : parent ≥ 0
    · obtain ⟨p, rfl⟩ : ∃ p : Nat, parent = (p : Int) := ⟨parent.toNat, by omega⟩
      have hpl : p < data.length := by omega
      have hx : data[node]? = some data[node] := List.getElem?_eq_getElem hnl
      have hy : data[p]? = some data[p] := List.getElem?_eq_getElem hpl
      by_cases hlt : compare data[node] data[p] < 0
      · have hpar : ((p : Int) - 1) >>> (1 : Nat) ≤ (p : Int) := by
          rw [shiftRight_parent]; split <;> omega
        have hpar2 : ((p : Int) - 1) >>> (1 : Nat) + 1 < (fuel : Int) := by
          rw [shiftRight_parent]; split <;> omega
        obtain ⟨data1, h1, h2, h3⟩ :=
          ih p (((p : Int) - 1) >>> (1 : Nat)) ((data.set p data[node]).set node data[p])
            (by simpa using hpl) hpar (by omega) hpar2
        refine ⟨data1, ?_, by simpa using h2, h3.trans (swap_perm data _ _ _ _ hy hx)⟩
        rw [Enqueue.loop]
        simp only [hp0, if_true, index_natCast, hx, hy, hlt,
          swapAt_natCast data _ _ _ _ hy hx]
        exact h1
      · refine ⟨data, ?_, rfl, List.Perm.refl _⟩
        rw [Enqueue.loop]
        simp only [hp0, if_true, index_natCast, hx, hy, hlt, if_false]
    · refine ⟨data, ?_, rfl, List.Perm.refl _⟩
      rw [Enqueue.loop]
      simp only [hp0, if_false]

/-- The heapify loop returns for every comparator: every index it uses is in range and
the position moves down one level per round. -/
theorem siftDown_total (compare : Comparator T) :
    ∀ (fuel i : Nat) (data : List T), 0 < fuel → data.length < fuel + i →
      ∃ data1, heapify.loop compare (data.length : Int) fuel (i : Int) (i : Int) data
          = some data1 ∧
        data1.length = data.length ∧ data1.Perm data := by
  intro fuel
  induction fuel with
  | zero => intro i data hpos; omega
  | succ fuel ih =>
    intro i data _ hf
    obtain ⟨r1, hp1, hr1⟩ := pick_spec compare data (2 * i + 1) i (by omega)
    obtain ⟨r2, hp2, hr2⟩ := pick_spec compare data (2 * i + 2) r1 (by
      intro h
      rcases hr1 with ⟨h1, -⟩ | ⟨h1, -⟩ <;> omega)
    have e1 : (i : Int) * 2 + 1 = ((2 * i + 1 : Nat) : Int) := by push_cast; ring
    have e2 : (i : Int) * 2 + 2 = ((2 * i + 2 : Nat) : Int) := by push_cast; ring
    rw [heapify.loop, e1, e2, hp1]
    simp only [hp2]
    by_cases hri : r2 = i
    · exact ⟨data, by simp [hri], rfl, List.Perm.refl _⟩
    · have hcast : ¬ ((r2 : Int) = (i : Int)) := by
        intro h; exact hri (by exact_mod_cast h)
      simp only [hcast, if_false]
      -- the chosen child is in range, hence so is the node itself
      have hr2l : r2 < data.length ∧ i < r2 := by
        rcases hr2 with ⟨h2, -⟩ | ⟨h2, x, y, hx, -, -⟩
        · rcases hr1 with ⟨h1, -⟩ | ⟨h1, x, y, hx, -, -⟩
          · omega
          · have := (List.getElem?_eq_some_iff.mp hx).1
            omega
        · have := (List.getElem?_eq_some_iff.mp hx).1
          omega
      obtain ⟨x, hx⟩ : ∃ x, data[i]? = some x := ⟨_, List.getElem?_eq_getElem (by omega)⟩
      obtain ⟨y, hy⟩ : ∃ y, data[r2]? = some y := ⟨_, List.getElem?_eq_getElem hr2l.1⟩
      have hlen : ((data.set i y).set r2 x).length = data.length := by simp
      obtain ⟨data1, h1, h2, h3⟩ :=
        ih r2 ((data.set i y).set r2 x) (by omega) (by rw [hlen]; omega)
      rw [hlen] at h1
      refine ⟨data1, ?_, by rw [h2, hlen], h3.trans (swap_perm data _ _ _ _ hx hy)⟩
      rw [swapAt_natCast data i r2 _ _ hx hy]
      exact h1

/-- Enqueue returns on every queue, for every comparator. -/
theorem Enqueue_total (p : PriorityQueue T) (t : T) :
    ∃ p1 err, Enqueue p t = some (p1, err) ∧
      p1.compare = p.compare ∧ p1.capacity = p.capacity ∧
      (p.isFull = true → p1 = p ∧ err = some Error.ErrOutOfCapacity) ∧
      (p.isFull = false → err = none ∧ p1.data.Perm (p.data ++ [t]) ∧
        p1.data.length = p.data.length + 1) := by
  by_cases hfull : p.isFull = true
  · refine ⟨p, some Error.ErrOutOfCapacity, ?_, rfl, rfl, fun _ => ⟨rfl, rfl⟩, ?_⟩
    · simp [Enqueue, hfull]
    · intro h; rw [hfull] at h; cases h
  · have hlen : (p.data ++ [t]).length = p.data.length + 1 := by simp
    have hnode : (((p.data ++ [t]).length : Nat) : Int) - 1 = (p.data.length : Int) := by
      rw [hlen]; push_cast; ring
    have hpar : Int.tdiv ((p.data.length : Int) - 1) 2 ≤ (p.data.length : Int) := by
      by_cases hn : p.data.length = 0
      · rw [hn]; decide
      · rw [tdiv_parent _ (by omega)]; omega
    obtain ⟨data1, h1, h2, h3⟩ :=
      siftUp_total p.compare ((p.data ++ [t]).length + 1) p.data.length
        (Int.tdiv ((p.data.length : Int) - 1) 2) (p.data ++ [t]) (by omega) hpar (by omega)
        (by rw [hlen]; push_cast; omega)
    refine ⟨{ p with data := data1 }, none, ?_, rfl, rfl,
      fun h => absurd h hfull, fun _ => ⟨rfl, h3, by rw [h2, hlen]⟩⟩
    unfold Enqueue
    simp only [hfull, Bool.false_eq_true, if_false]
    rw [hnode, h1]

/-- Dequeue returns on every queue, for every comparator. -/
theorem Dequeue_total [Inhabited T] (p : PriorityQueue T) :
    ∃ p1 v err, Dequeue p = some (p1, v, err) ∧
      p1.compare = p.compare ∧ p1.capacity = p.capacity ∧
      (p.data = [] → p1 = p ∧ v = default ∧ err = some Error.ErrEmptyQueue) ∧
      (p.data ≠ [] → err = none ∧ p.data.head? = some v ∧ (v :: p1.data).Perm p.data) := by
  cases hd : p.data with
  | nil =>
    have hempty : p.isEmpty = true := by simp [PriorityQueue.isEmpty, hd]
    exact ⟨p, default, some Error.ErrEmptyQueue, by simp [Dequeue, hempty], rfl, rfl,
      fun _ => ⟨rfl, rfl, rfl⟩, fun h => absurd rfl h⟩
  | cons x rest =>
    have hempty : p.isEmpty = false := by
      simp [PriorityQueue.isEmpty, hd]
    obtain ⟨last, hlast⟩ : ∃ last, (x :: rest)[rest.length]? = some last :=
      ⟨_, List.getElem?_eq_getElem (by simp)⟩
    have hidx0 : index p.data 0 = some x := by simp [index, hd]
    have hidxl : index p.data ((p.data.length : Int) - 1) = some last := by
      have : ((p.data.length : Nat) : Int) - 1 = (rest.length : Int) := by
        simp [hd]
      rw [this, index_natCast, hd]; exact hlast
    have htoNat : (((p.data.length : Nat) : Int) - 1).toNat = rest.length := by simp [hd]
    obtain ⟨hs1, hs2, hs3⟩ := shrinkIfNecessary_data
      ({ p with data := (p.data.set 0 last).take rest.length } : PriorityQueue T)
    simp only at hs1 hs2 hs3
    obtain ⟨data1, h1, -, h4⟩ :=
      siftDown_total p.compare (((p.data.set 0 last).take rest.length).length + 1) 0
        ((p.data.set 0 last).take rest.length) (by omega) (by omega)
    have hfuel : ((((p.data.set 0 last).take rest.length).length : Nat) : Int).toNat + 1
        = ((p.data.set 0 last).take rest.length).length + 1 := by rw [Int.toNat_natCast]
    refine ⟨{ shrinkIfNecessary
        ({ p with data := (p.data.set 0 last).take rest.length } : PriorityQueue T)
        with data := data1 }, x, none, ?_, hs2, hs3, (fun h => by cases h),
      (fun _ => ⟨rfl, rfl, ?_⟩)⟩
    · unfold Dequeue
      simp only [hempty, Bool.false_eq_true, if_false, hidx0, hidxl, htoNat]
      unfold heapify
      rw [hs1, hs2, hfuel]
      simp only [Nat.cast_zero] at h1
      simp only [h1]
    · show (x :: data1).Perm (x :: rest)
      refine List.Perm.cons x (h4.trans ?_)
      rw [hd]
      cases hr : rest with
      | nil => simp
      | cons y ys =>
        have hlast2 : (y :: ys)[ys.length]? = some last := by
          rw [hr] at hlast
          simpa using hlast
        have hset : (x :: y :: ys).set 0 last = last :: y :: ys := rfl
        rw [hset]
        have hlen2 : (y :: ys).length = ys.length + 1 := rfl
        rw [hlen2, List.take_succ_cons]
        have hsplit : y :: ys = (y :: ys).take ys.length ++ [last] := by
          have hnl : ys.length < (y :: ys).length := by simp
          have h5 := List.take_append_drop ys.length (y :: ys)
          have h6 : (y :: ys).drop ys.length = [last] := by
            rw [List.drop_eq_getElem_cons hnl]
            have : (y :: ys)[ys.length] = last := by
              have := List.getElem?_eq_getElem hnl
              rw [hlast2] at this
              exact (Option.some.inj this).symm
            rw [this]
            simp
          rw [h6] at h5
          exact h5.symm
        conv_rhs => rw [hsplit]
        exact (List.perm_append_singleton last _).symm

end HeapTotal

section QueueFacts
variable {T : Type} [Inhabited T]

omit [Inhabited T] in
theorem isFull_iff (p : PriorityQueue T) :
    p.isFull = true ↔ 0 < p.capacity ∧ (p.data.length : Int) = p.capacity := by
  simp [PriorityQueue.isFull]

theorem Peek_total (p : PriorityQueue T) :
    (p.data = [] → p.Peek = some (default, some Error.ErrEmptyQueue)) ∧
    (∀ x rest, p.data = x :: rest → p.Peek = some (x, none)) := by
  refine ⟨?_, ?_⟩
  · intro h
    simp [PriorityQueue.Peek, PriorityQueue.isEmpty, h]
  · intro x rest h
    simp [PriorityQueue.Peek, PriorityQueue.isEmpty, h, index]

omit [Inhabited T] in
theorem CapInv_new {elemSize : Nat} {capacity : Int} {compare : Comparator T}
    {p0 : PriorityQueue T} (h : NewPriorityQueue elemSize capacity compare = some p0) :
    CapInv capacity compare p0 := by
  rw [NewPriorityQueue_some h]
  refine ⟨rfl, rfl, ?_⟩
  intro _
  simp only [List.length_nil, Nat.cast_zero]
  split <;> omega

theorem capInv_step {capacity : Int} {compare : Comparator T} {p : PriorityQueue T}
    (h : CapInv capacity compare p) (op : QOp T) :
    ∃ p1, applyQOp p op = some p1 ∧ CapInv capacity compare p1 := by
  obtain ⟨hc, hcmp, hlen⟩ := h
  cases op with
  | enqueue t =>
    obtain ⟨p1, err, h1, h2, h3, h4, h5⟩ := Enqueue_total p t
    refine ⟨p1, by simp [applyQOp, h1], by rw [h3]; exact hc, by rw [h2]; exact hcmp, ?_⟩
    intro hpos
    rw [h3] at hpos ⊢
    by_cases hfull : p.isFull = true
    · rw [(h4 hfull).1]; exact hlen hpos
    · have hf : p.isFull = false := by simpa using hfull
      have hl := (h5 hf).2.2
      have hnf := (isFull_iff p).not.mp hfull
      have := hlen hpos
      rw [hl]
      push_cast
      by_contra hcon
      exact hnf ⟨hpos, by omega⟩
  | dequeue =>
    obtain ⟨p1, v, err, h1, h2, h3, h4, h5⟩ := Dequeue_total p
    refine ⟨p1, by simp [applyQOp, h1], by rw [h3]; exact hc, by rw [h2]; exact hcmp, ?_⟩
    intro hpos
    rw [h3] at hpos ⊢
    have := hlen hpos
    by_cases hd : p.data = []
    · rw [(h4 hd).1]; exact this
    · have hl := (h5 hd).2.2.length_eq
      simp only [List.length_cons] at hl
      omega

theorem capInv_run {capacity : Int} {compare : Comparator T} (ops : List (QOp T)) :
    ∀ p : PriorityQueue T, CapInv capacity compare p →
      ∃ p1, runQOps p ops = some p1 ∧ CapInv capacity compare p1 := by
  induction ops with
  | nil => intro p h; exact ⟨p, rfl, h⟩
  | cons op ops ih =>
    intro p h
    obtain ⟨p1, h1, h2⟩ := capInv_step h op
    obtain ⟨p2, h3, h4⟩ := ih p1 h2
    exact ⟨p2, by simp [runQOps, h1, h3], h4⟩

theorem QReachable.capInv {capacity : Int} {compare : Comparator T} {p : PriorityQueue T}
    (h : QReachable capacity compare p) : CapInv capacity compare p := by
  obtain ⟨elemSize, p0, ops, hnew, hrun⟩ := h
  obtain ⟨p1, h1, h2⟩ := capInv_run ops _ (CapInv_new hnew)
  rw [hrun] at h1
  cases h1
  exact h2

theorem QReachable.isMinHeap {capacity : Int} {compare : Comparator T} {p : PriorityQueue T}
    (hT : TotalOrder compare) (h : QReachable capacity compare p) :
    p.compare = compare ∧ IsMinHeap compare p.data := by
  obtain ⟨elemSize, p0, ops, hnew, hrun⟩ := h
  have hp0 := NewPriorityQueue_some hnew
  obtain ⟨p1, h1, h2, h3, -⟩ :=
    heap_run hT ops p0 (by rw [hp0]) (by rw [hp0]; exact isMinHeap_nil compare)
  rw [hrun] at h1
  cases h1
  exact ⟨h2, h3⟩

omit [Inhabited T] in
/-- In a heap the root is not above any element. -/
theorem root_min {compare : Comparator T} (hT : TotalOrder compare) {data : List T}
    (hh : IsMinHeap compare data) :
    ∀ (i : Nat) (x y : T), data[0]? = some x → data[i]? = some y → compare x y ≤ 0 := by
  intro i
  induction i using Nat.strong_induction_on with
  | _ i ih =>
    intro x y hx hy
    by_cases hi : i = 0
    · subst hi
      rw [hx] at hy
      rw [← Option.some.inj hy, hT.refl]
    · have hil := (List.getElem?_eq_some_iff.mp hy).1
      obtain ⟨z, hz⟩ : ∃ z, data[(i - 1) / 2]? = some z :=
        ⟨_, List.getElem?_eq_getElem (by omega)⟩
      exact hT.trans _ _ _ (ih ((i - 1) / 2) (by omega) x z hx hz)
        (hh i (by omega) z y hz hy)

omit [Inhabited T] in
theorem root_min_mem {compare : Comparator T} (hT : TotalOrder compare) {x : T}
    {rest : List T} (hh : IsMinHeap compare (x :: rest)) :
    ∀ y ∈ x :: rest, compare x y ≤ 0 := by
  intro y hy
  obtain ⟨i, hi, hget⟩ := List.getElem_of_mem hy
  exact root_min hT hh i x y (by simp) (by rw [List.getElem?_eq_getElem hi, hget])

end QueueFacts

theorem exampleQueue_reachable : QReachable 0 ComparatorRealNumber exampleQueue :=
  ⟨8, exampleNewQueue, exampleQOps, by rfl, by rfl⟩

theorem exampleQueue_data : exampleQueue.data = [2, 4, 3, 7, 5, 6] := by rfl

/-! ## The claims about the priority queue -/

/-- C12: on every queue reachable from one that `NewPriorityQueue(c, compare)` returned,
`Enqueue(v)` returns; it fails exactly when `c > 0` and `Len() == c`, the failure is
`ErrOutOfCapacity` and the queue returned is the queue itself; a bounded queue always has
`Len() <= Cap()` with `Cap() == c`, and an unbounded one (`c <= 0`) never rejects. On a
queue returned for capacity 2, two enqueues succeed, the third fails with
`ErrOutOfCapacity` and `Len()` is 2. -/
theorem C12_bounded_capacity :
    (∀ (T : Type) [Inhabited T] (compare : Comparator T) (c : Int) (p : PriorityQueue T)
      (v : T), QReachable c compare p →
      ∃ p1 err, Enqueue p v = some (p1, err) ∧
        (err ≠ none ↔ (0 < c ∧ p.Len = c)) ∧
        (err ≠ none → err = some Error.ErrOutOfCapacity ∧ p1 = p) ∧
        (err = none → p1.Len = p.Len + 1) ∧
        (0 < c → p.Len ≤ p.Cap ∧ p.Cap = c) ∧
        (c ≤ 0 → err = none)) ∧
    (∀ (T : Type) [Inhabited T] (compare : Comparator T) (elemSize : Nat)
      (p0 : PriorityQueue T) (a b d : T), NewPriorityQueue elemSize 2 compare = some p0 →
      ∃ p1 p2, Enqueue p0 a = some (p1, none) ∧
        Enqueue p1 b = some (p2, none) ∧
        Enqueue p2 d = some (p2, some Error.ErrOutOfCapacity) ∧ p2.Len = 2) := by
  have general : ∀ (T : Type) [Inhabited T] (compare : Comparator T) (c : Int)
      (p : PriorityQueue T) (v : T), QReachable c compare p →
      ∃ p1 err, Enqueue p v = some (p1, err) ∧
        (err ≠ none ↔ (0 < c ∧ p.Len = c)) ∧
        (err ≠ none → err = some Error.ErrOutOfCapacity ∧ p1 = p) ∧
        (err = none → p1.Len = p.Len + 1) ∧
        (0 < c → p.Len ≤ p.Cap ∧ p.Cap = c) ∧
        (c ≤ 0 → err = none) := by
    intro T _ compare c p v hreach
    obtain ⟨hcap, -, hlen⟩ := hreach.capInv
    obtain ⟨p1, err, h1, -, -, h4, h5⟩ := Enqueue_total p v
    have hfull := isFull_iff p
    have hcapc : 0 < c → p.capacity = c := by
      intro hc; rw [hcap]; split <;> omega
    have hcap0 : c ≤ 0 → p.capacity = 0 := by
      intro hc; rw [hcap]; split <;> omega
    refine ⟨p1, err, h1, ?_, ?_, ?_, ?_, ?_⟩
    · by_cases hf : p.isFull = true
      · have hc := hfull.mp hf
        have hcpos : 0 < c := by
          by_contra hcon
          rw [hcap0 (by omega)] at hc
          omega
        rw [(h4 hf).2]
        simp only [ne_eq, reduceCtorEq, not_false_eq_true, true_iff, PriorityQueue.Len]
        exact ⟨hcpos, by rw [hc.2, hcapc hcpos]⟩
      · have hf2 : p.isFull = false := by simpa using hf
        rw [(h5 hf2).1]
        simp only [ne_eq, not_true_eq_false, false_iff, PriorityQueue.Len]
        intro hcon
        exact hf (hfull.mpr ⟨by rw [hcapc hcon.1]; exact hcon.1,
          by rw [hcapc hcon.1]; exact hcon.2⟩)
    · intro herr
      by_cases hf : p.isFull = true
      · exact ⟨(h4 hf).2, (h4 hf).1⟩
      · have hf2 : p.isFull = false := by simpa using hf
        exact absurd (h5 hf2).1 herr
    · intro herr
      by_cases hf : p.isFull = true
      · rw [(h4 hf).2] at herr; cases herr
      · have hf2 : p.isFull = false := by simpa using hf
        simp only [PriorityQueue.Len, (h5 hf2).2.2]
        push_cast
        rfl
    · intro hc
      have hcc := hcapc hc
      exact ⟨by simpa [PriorityQueue.Len, PriorityQueue.Cap] using hlen (by omega),
        by simpa [PriorityQueue.Cap] using hcc⟩
    · intro hc
      by_cases hf : p.isFull = true
      · have := hfull.mp hf
        rw [hcap0 hc] at this
        omega
      · have hf2 : p.isFull = false := by simpa using hf
        exact (h5 hf2).1
  refine ⟨general, ?_⟩
  intro T _ compare elemSize p0 a b d hnew
  have hl0 : p0.Len = 0 := by
    rw [NewPriorityQueue_some hnew]; rfl
  have hr0 : QReachable 2 compare p0 := ⟨elemSize, p0, [], hnew, rfl⟩
  obtain ⟨p1, e1, h1, i1, -, l1, -, -⟩ := general T compare 2 _ a hr0
  have he1 : e1 = none := by
    by_contra hcon
    have := (i1.mp hcon).2
    omega
  subst he1
  have hr1 : QReachable 2 compare p1 :=
    ⟨elemSize, p0, [QOp.enqueue a], hnew, by simp [runQOps, applyQOp, h1]⟩
  have hl1 : p1.Len = 1 := by
    rw [l1 rfl, hl0]; rfl
  obtain ⟨p2, e2, h2, i2, -, l2, -, -⟩ := general T compare 2 _ b hr1
  have he2 : e2 = none := by
    by_contra hcon
    have := (i2.mp hcon).2
    omega
  subst he2
  have hr2 : QReachable 2 compare p2 :=
    ⟨elemSize, p0, [QOp.enqueue a, QOp.enqueue b], hnew,
      by simp [runQOps, applyQOp, h1, h2]⟩
  have hl2 : p2.Len = 2 := by rw [l2 rfl, hl1]; rfl
  obtain ⟨p3, e3, h3, i3, f3, -, -, -⟩ := general T compare 2 _ d hr2
  have he3 : e3 ≠ none := i3.mpr ⟨by omega, hl2⟩
  obtain ⟨f1, f2⟩ := f3 he3
  rw [f1, f2] at h3
  exact ⟨p1, p2, h1, h2, h3, hl2⟩

theorem C12_bounded_capacity_witness :
    QReachable 0 ComparatorRealNumber exampleQueue ∧
    (∃ p1 err, Enqueue exampleQueue 1 = some (p1, err) ∧
      (err ≠ none ↔ ((0 : Int) < 0 ∧ exampleQueue.Len = 0)) ∧
      (err ≠ none → err = some Error.ErrOutOfCapacity ∧ p1 = exampleQueue) ∧
      (err = none → p1.Len = exampleQueue.Len + 1) ∧
      ((0 : Int) < 0 → exampleQueue.Len ≤ exampleQueue.Cap ∧ exampleQueue.Cap = 0) ∧
      ((0 : Int) ≤ 0 → err = none)) ∧
    (((NewPriorityQueue 8 2 ComparatorRealNumber).bind
        (fun p0 => runQOps p0 [QOp.enqueue 5, QOp.enqueue 3])).bind
          (fun q => Enqueue q 8)).map
      (fun r => (r.1.data, r.2)) = some ([3, 5], some Error.ErrOutOfCapacity) :=
  ⟨exampleQueue_reachable,
    C12_bounded_capacity.1 Int ComparatorRealNumber 0 exampleQueue 1 exampleQueue_reachable,
    by rfl⟩

/-- C13: on every queue, `Peek()` and `Dequeue()` return; each fails exactly when
`Len() == 0`, with `ErrEmptyQueue` and the zero value, and `Dequeue` then returns the
queue itself (Peek only reads). Both fail on a queue that `NewPriorityQueue` has just
returned, for every capacity argument. -/
theorem C13_empty_queue_errors {T : Type} [Inhabited T] (p : PriorityQueue T) :
    (p.Len = 0 → p.Peek = some (default, some Error.ErrEmptyQueue) ∧
      Dequeue p = some (p, default, some Error.ErrEmptyQueue)) ∧
    (p.Len ≠ 0 → (∃ x, p.Peek = some (x, none)) ∧ ∃ p1 v, Dequeue p = some (p1, v, none)) ∧
    (∀ (elemSize : Nat) (capacity : Int) (compare : Comparator T) (p0 : PriorityQueue T),
      NewPriorityQueue elemSize capacity compare = some p0 →
      p0.Peek = some (default, some Error.ErrEmptyQueue) ∧
      Dequeue p0 = some (p0, default, some Error.ErrEmptyQueue)) := by
  have hempty : ∀ q : PriorityQueue T, q.data = [] →
      q.Peek = some (default, some Error.ErrEmptyQueue) ∧
      Dequeue q = some (q, default, some Error.ErrEmptyQueue) := by
    intro q hq
    refine ⟨(Peek_total q).1 hq, ?_⟩
    obtain ⟨p1, v, err, h1, -, -, h4, -⟩ := Dequeue_total q
    obtain ⟨e1, e2, e3⟩ := h4 hq
    rw [h1, e1, e2, e3]
  refine ⟨?_, ?_, ?_⟩
  · intro hlen
    apply hempty
    apply List.length_eq_zero.mp
    simpa [PriorityQueue.Len] using hlen
  · intro hlen
    cases hd : p.data with
    | nil => simp [PriorityQueue.Len, hd] at hlen
    | cons x rest =>
      refine ⟨⟨x, (Peek_total p).2 x rest hd⟩, ?_⟩
      obtain ⟨p1, v, err, h1, -, -, -, h5⟩ := Dequeue_total p
      have := (h5 (by rw [hd]; simp)).1
      subst this
      exact ⟨p1, v, h1⟩
  · intro elemSize capacity compare p0 hnew
    exact hempty p0 (by rw [NewPriorityQueue_some hnew])

/-- C14: on a non-empty queue reachable under a total-order comparator, `Peek()` returns
a value `m` and no error, `m` compares `<= 0` with every element of the queue, and the
next `Dequeue()` returns that same `m`. Peek only reads the queue, so calling it again
gives the same result. -/
theorem C14_peek_min {T : Type} [Inhabited T] (compare : Comparator T)
    (hT : TotalOrder compare) (capacity : Int) (p : PriorityQueue T)
    (hreach : QReachable capacity compare p) (hne : p.Len ≠ 0) :
    ∃ m, p.Peek = some (m, none) ∧ (∀ x ∈ p.data, compare m x ≤ 0) ∧
      ∃ p1, Dequeue p = some (p1, m, none) := by
  obtain ⟨-, hh⟩ := hreach.isMinHeap hT
  cases hd : p.data with
  | nil => simp [PriorityQueue.Len, hd] at hne
  | cons x rest =>
    rw [hd] at hh
    refine ⟨x, (Peek_total p).2 x rest hd, root_min_mem hT hh, ?_⟩
    obtain ⟨p1, v, err, h1, -, -, -, h5⟩ := Dequeue_total p
    obtain ⟨e1, e2, -⟩ := h5 (by rw [hd]; simp)
    rw [hd] at e2
    simp only [List.head?_cons, Option.some.injEq] at e2
    subst e1; subst e2
    exact ⟨p1, h1⟩

theorem C14_peek_min_witness :
    TotalOrder ComparatorRealNumber ∧ QReachable 0 ComparatorRealNumber exampleQueue ∧
    exampleQueue.Len ≠ 0 ∧ exampleQueue.Peek = some (2, none) ∧
    (Dequeue exampleQueue).map (fun r => (r.1.data, r.2)) = some ([3, 4, 6, 7, 5], 2, none) ∧
    ∃ m, exampleQueue.Peek = some (m, none) ∧
      (∀ x ∈ exampleQueue.data, ComparatorRealNumber m x ≤ 0) ∧
      ∃ p1, Dequeue exampleQueue = some (p1, m, none) :=
  ⟨totalOrder_ComparatorRealNumber, exampleQueue_reachable, by decide, by rfl, by rfl,
    C14_peek_min ComparatorRealNumber totalOrder_ComparatorRealNumber 0 exampleQueue
      exampleQueue_reachable (by decide)⟩

/-- C15, amended: `NewPriorityQueue(c, compare)` allocates its slice with
`make([]T, 0, sliceCap)`, where `sliceCap` is `c` when `c > 0` and 64 when `c <= 0`. For
every `c` whose allocation is within the limit of the runtime, that is
`elemSize * sliceCap <= maxAlloc`, it returns an empty queue whose `Cap()` is `c` when
`c > 0` and 0 when `c <= 0`, and whose `IsBoundless()` is true exactly when `c <= 0`;
every sequence of Enqueue and Dequeue calls on it, failing ones included, returns and
leaves `Cap()` and `IsBoundless()` as they were. -/
theorem C15_capacity_fixed {T : Type} [Inhabited T] (compare : Comparator T)
    (elemSize : Nat) (c : Int)
    (hfit : (elemSize : Int) * (if c < 1 then 64 else c) ≤ (maxAlloc : Int)) :
    ∃ p0, NewPriorityQueue elemSize c compare = some p0 ∧
      p0.Len = 0 ∧
      (0 < c → p0.Cap = c) ∧
      (c ≤ 0 → p0.Cap = 0) ∧
      (p0.IsBoundless = true ↔ c ≤ 0) ∧
      (∀ ops : List (QOp T), ∃ p, runQOps p0 ops = some p ∧
        p.Cap = p0.Cap ∧ p.IsBoundless = p0.IsBoundless) := by
  have hnew := NewPriorityQueue_eq elemSize c compare hfit
  refine ⟨_, hnew, rfl, ?_, ?_, ?_, ?_⟩
  · intro hc
    simp only [PriorityQueue.Cap]
    split <;> omega
  · intro hc
    simp only [PriorityQueue.Cap]
    split <;> omega
  · simp only [PriorityQueue.IsBoundless, decide_eq_true_eq]
    split <;> omega
  · intro ops
    obtain ⟨p, h1, h2, -⟩ := capInv_run ops _ (CapInv_new hnew)
    refine ⟨p, h1, ?_, ?_⟩
    · simp only [PriorityQueue.Cap, h2]
    · simp only [PriorityQueue.IsBoundless, h2]

theorem C15_capacity_fixed_witness :
    ((8 : Nat) : Int) * (if (3 : Int) < 1 then 64 else 3) ≤ (maxAlloc : Int) ∧
    (NewPriorityQueue 8 3 ComparatorRealNumber).map
      (fun p0 => (p0.Len, p0.Cap, p0.IsBoundless)) = some (0, 3, false) ∧
    ∃ p0, NewPriorityQueue 8 3 ComparatorRealNumber = some p0 ∧
      p0.Len = 0 ∧
      ((0 : Int) < 3 → p0.Cap = 3) ∧
      ((3 : Int) ≤ 0 → p0.Cap = 0) ∧
      (p0.IsBoundless = true ↔ (3 : Int) ≤ 0) ∧
      (∀ ops : List (QOp Int), ∃ p, runQOps p0 ops = some p ∧
        p.Cap = p0.Cap ∧ p.IsBoundless = p0.IsBoundless) :=
  ⟨by decide, by rfl, C15_capacity_fixed ComparatorRealNumber 8 3 (by decide)⟩

/-- C15 as stated fails: for 8-byte elements the capacities `2 ^ 63 - 1`
(the largest Go `int`) and `2 ^ 45 + 1` are beyond `maxAlloc`, `make` panics and the
constructor returns no queue, so not every integer capacity gives an empty queue;
the same holds whenever `elemSize * sliceCap` exceeds `maxAlloc`. -/
theorem C15_capacity_fixed_counterexample :
    NewPriorityQueue 8 (2 ^ 63 - 1) ComparatorRealNumber = none ∧
    NewPriorityQueue 8 (2 ^ 45 + 1) ComparatorRealNumber = none ∧
    ¬ (∀ c : Int, ∃ p0, NewPriorityQueue 8 c ComparatorRealNumber = some p0 ∧
        p0.Len = 0 ∧ (0 < c → p0.Cap = c)) ∧
    (∀ (elemSize : Nat) (c : Int),
      (maxAlloc : Int) < (elemSize : Int) * (if c < 1 then 64 else c) →
        NewPriorityQueue elemSize c ComparatorRealNumber = none) := by
  have hnone : ∀ (elemSize : Nat) (c : Int),
      (maxAlloc : Int) < (elemSize : Int) * (if c < 1 then 64 else c) →
        NewPriorityQueue elemSize c ComparatorRealNumber = none := by
    intro elemSize c h
    cases hq : NewPriorityQueue elemSize c ComparatorRealNumber with
    | none => rfl
    | some p0 =>
      have := (NewPriorityQueue_returns elemSize c ComparatorRealNumber).mp ⟨p0, hq⟩
      omega
  have h63 : NewPriorityQueue 8 (2 ^ 63 - 1) ComparatorRealNumber = none :=
    hnone 8 (2 ^ 63 - 1) (by decide)
  refine ⟨h63, hnone 8 (2 ^ 45 + 1) (by decide), ?_, hnone⟩
  intro hall
  obtain ⟨p0, hp0, -⟩ := hall (2 ^ 63 - 1)
  rw [h63] at hp0
  cases hp0

/-- C16: on every queue, for every comparator, Enqueue and Dequeue return. A successful
`Enqueue(v)` (the queue is not full) leaves the elements of the queue plus `v`, as a
multiset, and `Len()` one more. A successful `Dequeue()` (the queue is not empty)
returns the element `r` that was at index 0, leaves the elements without one `r`, and
`Len()` one less. -/
theorem C16_contents_change_by_one {T : Type} [Inhabited T] (p : PriorityQueue T) :
    (∀ v : T, ∃ p1 err, Enqueue p v = some (p1, err) ∧ (err = none ↔ p.isFull = false) ∧
      (err = none → p1.data.Perm (p.data ++ [v]) ∧
        (p1.data : Multiset T) = (p.data : Multiset T) + {v} ∧ p1.Len = p.Len + 1)) ∧
    (∃ p1 r err, Dequeue p = some (p1, r, err) ∧ (err = none ↔ p.Len ≠ 0) ∧
      (err = none → p.data[0]? = some r ∧ (r :: p1.data).Perm p.data ∧
        (p.data : Multiset T) = r ::ₘ (p1.data : Multiset T) ∧ p1.Len = p.Len - 1)) := by
  refine ⟨?_, ?_⟩
  · intro v
    obtain ⟨p1, err, h1, -, -, h4, h5⟩ := Enqueue_total p v
    refine ⟨p1, err, h1, ?_, ?_⟩
    · by_cases hf : p.isFull = true
      · rw [(h4 hf).2, hf]; simp
      · have hf2 : p.isFull = false := by simpa using hf
        rw [(h5 hf2).1, hf2]; simp
    · intro herr
      have hf2 : p.isFull = false := by
        by_contra hf
        have hf3 : p.isFull = true := by simpa using hf
        rw [(h4 hf3).2] at herr
        cases herr
      obtain ⟨-, hperm, hlen⟩ := h5 hf2
      refine ⟨hperm, ?_, ?_⟩
      · rw [Multiset.coe_eq_coe.mpr hperm, ← Multiset.coe_singleton, Multiset.coe_add]
      · simp only [PriorityQueue.Len, hlen]
        push_cast
        rfl
  · obtain ⟨p1, r, err, h1, -, -, h4, h5⟩ := Dequeue_total p
    refine ⟨p1, r, err, h1, ?_, ?_⟩
    · by_cases hd : p.data = []
      · rw [(h4 hd).2.2]
        simp [PriorityQueue.Len, hd]
      · rw [(h5 hd).1]
        simp only [true_iff, PriorityQueue.Len, ne_eq, Nat.cast_eq_zero]
        exact fun h => hd (List.length_eq_zero.mp h)
    · intro herr
      have hd : p.data ≠ [] := by
        intro hd
        rw [(h4 hd).2.2] at herr
        cases herr
      obtain ⟨-, hhead, hperm⟩ := h5 hd
      refine ⟨?_, hperm, ?_, ?_⟩
      · cases hdata : p.data with
        | nil => exact absurd hdata hd
        | cons x rest =>
          rw [hdata] at hhead
          simpa using hhead
      · rw [← Multiset.coe_eq_coe.mpr hperm]
        rfl
      · have := hperm.length_eq
        simp only [List.length_cons] at this
        simp only [PriorityQueue.Len]
        omega

section HeapSort
variable {T : Type} [Inhabited T] {compare : Comparator T}

omit [Inhabited T] in
/-- Enqueueing a list into a heap with room for it: every call succeeds. -/
theorem enqueueAll_spec (hT : TotalOrder compare) (vs : List T) :
    ∀ p : PriorityQueue T, p.compare = compare → IsMinHeap compare p.data →
      (p.capacity ≤ 0 ∨ (p.data.length : Int) + vs.length ≤ p.capacity) →
      ∃ p1 errs, enqueueAll p vs = some (p1, errs) ∧ (∀ e ∈ errs, e = none) ∧
        errs.length = vs.length ∧
        p1.compare = compare ∧ IsMinHeap compare p1.data ∧ p1.data.Perm (p.data ++ vs) := by
  induction vs with
  | nil =>
    intro p hc hh _
    exact ⟨p, [], rfl, by simp, rfl, hc, hh, by simp⟩
  | cons v vs ih =>
    intro p hc hh hroom
    obtain ⟨p1, err, h1, h2, h3, h4, -, h6⟩ :=
      Enqueue_spec p (by rw [hc]; exact hT) (by rw [hc]; exact hh) v
    have hnf : p.isFull = false := by
      by_contra hf
      have hf2 : p.isFull = true := by simpa using hf
      have := (isFull_iff p).mp hf2
      simp only [List.length_cons, Nat.cast_add, Nat.cast_one] at hroom
      omega
    obtain ⟨he, hperm⟩ := h6 hnf
    subst he
    have hlen := hperm.length_eq
    simp only [List.length_append, List.length_singleton] at hlen
    obtain ⟨p2, errs, r1, r2, r3, r4, r5, r6⟩ := ih p1 (by rw [h3, hc])
      (by rw [h3, hc] at h2; exact h2)
      (by
        rw [h4, hlen]
        simp only [List.length_cons, Nat.cast_add, Nat.cast_one] at hroom ⊢
        omega)
    refine ⟨p2, none :: errs, by simp [enqueueAll, h1, r1], ?_, by simp [r3], r4, r5, ?_⟩
    · intro e he
      rcases List.mem_cons.mp he with h | h
      · exact h
      · exact r2 e h
    · refine r6.trans ?_
      have := hperm.append_right vs
      simpa using this

/-- Dequeueing a heap until it is empty: every call succeeds and the values come out in
non-decreasing order. -/
theorem dequeueMany_spec (hT : TotalOrder compare) :
    ∀ (n : Nat) (p : PriorityQueue T), p.compare = compare → IsMinHeap compare p.data →
      p.data.length = n →
      ∃ q out, dequeueMany n p = some (q, out) ∧ (∀ r ∈ out, r.2 = none) ∧
        out.length = n ∧
        (out.map Prod.fst).Pairwise (fun a b => compare a b ≤ 0) ∧
        (out.map Prod.fst).Perm p.data ∧ q.data = [] := by
  intro n
  induction n with
  | zero =>
    intro p _ _ hlen
    exact ⟨p, [], rfl, by simp, rfl, by simp,
      by rw [List.length_eq_zero.mp hlen]; simp, List.length_eq_zero.mp hlen⟩
  | succ n ih =>
    intro p hc hh hlen
    obtain ⟨p1, v, err, h1, h2, h3, -, -, h6⟩ :=
      Dequeue_spec p (by rw [hc]; exact hT) (by rw [hc]; exact hh)
    have hne : p.data ≠ [] := by
      intro h; rw [h] at hlen; simp at hlen
    obtain ⟨he, hhead, hperm⟩ := h6 hne
    subst he
    have hl := hperm.length_eq
    simp only [List.length_cons] at hl
    obtain ⟨q, out, r1, r2, r3, r4, r5, r6⟩ := ih p1 (by rw [h3, hc])
      (by rw [h3, hc] at h2; exact h2) (by omega)
    refine ⟨q, (v, none) :: out, by simp [dequeueMany, h1, r1], ?_, by simp [r3], ?_, ?_, r6⟩
    · intro r hr
      rcases List.mem_cons.mp hr with h | h
      · rw [h]
      · exact r2 r h
    · simp only [List.map_cons, List.pairwise_cons]
      refine ⟨?_, r4⟩
      intro b hb
      have hb1 : b ∈ p1.data := r5.subset hb
      have hb2 : b ∈ p.data := hperm.subset (List.mem_cons_of_mem _ hb1)
      cases hd : p.data with
      | nil => exact absurd hd hne
      | cons x rest =>
        rw [hd] at hhead hb2 hh
        simp only [List.head?_cons, Option.some.injEq] at hhead
        subst hhead
        exact root_min_mem hT hh b hb2
    · simp only [List.map_cons]
      exact (List.Perm.cons v r5).trans hperm

end HeapSort

/-- C11: for a total-order comparator and every list `vs`, enqueue the values one by one
into a queue that `NewPriorityQueue` has just returned, unbounded or of capacity at
least `len(vs)`: every Enqueue succeeds; then `len(vs)` calls of Dequeue all succeed, the values they return are
non-decreasing and a permutation of `vs`, and the queue is empty afterwards. -/
theorem C11_heap_sort {T : Type} [Inhabited T] (compare : Comparator T)
    (hT : TotalOrder compare) (elemSize : Nat) (capacity : Int) (p0 : PriorityQueue T)
    (hnew : NewPriorityQueue elemSize capacity compare = some p0) (vs : List T)
    (hcap : capacity ≤ 0 ∨ (vs.length : Int) ≤ capacity) :
    ∃ p errs q out, enqueueAll p0 vs = some (p, errs) ∧
      (∀ e ∈ errs, e = none) ∧ errs.length = vs.length ∧
      dequeueMany vs.length p = some (q, out) ∧
      out.length = vs.length ∧ (∀ r ∈ out, r.2 = none) ∧
      (out.map Prod.fst).Pairwise (fun a b => compare a b ≤ 0) ∧
      (out.map Prod.fst).Chain' (fun a b => compare a b ≤ 0) ∧
      (out.map Prod.fst).Perm vs ∧ q.Len = 0 := by
  have hp0 := NewPriorityQueue_some hnew
  subst hp0
  obtain ⟨p, errs, h1, h2, h3, h4, h5, h6⟩ :=
    enqueueAll_spec hT vs
      { capacity := if capacity < 1 then 0 else capacity
        data := []
        compare := compare } rfl (isMinHeap_nil compare)
      (by
        simp only [List.length_nil, Nat.cast_zero, zero_add]
        rcases hcap with h | h
        · left; split <;> omega
        · by_cases hc : capacity < 1
          · left; simp [hc]
          · right; simp [hc, h])
  have hlen : p.data.length = vs.length := by
    have := h6.length_eq
    simpa using this
  obtain ⟨q, out, r1, r2, r3, r4, r5, r6⟩ := dequeueMany_spec hT vs.length p h4 h5 hlen
  refine ⟨p, errs, q, out, h1, h2, h3, r1, r3, r2, r4, r4.chain', ?_, ?_⟩
  · refine r5.trans (h6.trans ?_)
    simp
  · simp [PriorityQueue.Len, r6]

theorem C11_heap_sort_witness :
    TotalOrder ComparatorRealNumber ∧ ((0 : Int) ≤ 0 ∨ (([5, 3, 8, 1, 9, 3] : List Int).length : Int) ≤ 0) ∧
    NewPriorityQueue 8 0 ComparatorRealNumber = some exampleNewQueue ∧
    ((enqueueAll exampleNewQueue [5, 3, 8, 1, 9, 3]).bind
        (fun r => dequeueMany 6 r.1)).map (fun r => (r.1.data, r.2.map Prod.fst))
      = some ([], [1, 3, 3, 5, 8, 9]) ∧
    ∃ p errs q out, enqueueAll exampleNewQueue
        ([5, 3, 8, 1, 9, 3] : List Int) = some (p, errs) ∧
      (∀ e ∈ errs, e = none) ∧ errs.length = ([5, 3, 8, 1, 9, 3] : List Int).length ∧
      dequeueMany ([5, 3, 8, 1, 9, 3] : List Int).length p = some (q, out) ∧
      out.length = ([5, 3, 8, 1, 9, 3] : List Int).length ∧ (∀ r ∈ out, r.2 = none) ∧
      (out.map Prod.fst).Pairwise (fun a b => ComparatorRealNumber a b ≤ 0) ∧
      (out.map Prod.fst).Chain' (fun a b => ComparatorRealNumber a b ≤ 0) ∧
      (out.map Prod.fst).Perm [5, 3, 8, 1, 9, 3] ∧ q.Len = 0 :=
  ⟨totalOrder_ComparatorRealNumber, Or.inl (le_refl _), by rfl, by rfl,
    C11_heap_sort ComparatorRealNumber totalOrder_ComparatorRealNumber 8 0 exampleNewQueue
      (by rfl) [5, 3, 8, 1, 9, 3] (Or.inl (le_refl _))⟩

/-- C20: for every queue state and every comparator with `compare(x, x) == 0`, the
sift-up loop of Enqueue and the heapify loop of Dequeue return, so they terminate and
every index they use is in `0..Len()-1` (an index out of range gives no result in the
embedding); hence Enqueue and Dequeue return. On an empty queue the first parent index
`(0 - 1) / 2` is 0, the element is compared with itself and the loop stops there, while
`(0 - 1) >> 1` is -1; on a one-element queue heapify runs on the empty slice with
`n == 0` and returns it. -/
theorem C20_heap_loops_safe {T : Type} [Inhabited T] (compare : Comparator T)
    (hrefl : ∀ x, compare x x = 0) :
    (∀ (data : List T) (t : T), ∃ data1,
      Enqueue.loop compare ((data ++ [t]).length + 1) (((data ++ [t]).length : Int) - 1)
        (Int.tdiv (((data ++ [t]).length : Int) - 1 - 1) 2) (data ++ [t]) = some data1 ∧
      data1.length = (data ++ [t]).length) ∧
    (∀ data : List T, ∃ data1,
      heapify compare data (data.length : Int) 0 = some data1 ∧ data1.length = data.length) ∧
    (∀ (p : PriorityQueue T) (t : T), p.compare = compare →
      (∃ p1 err, Enqueue p t = some (p1, err)) ∧ ∃ p1 v err, Dequeue p = some (p1, v, err)) ∧
    (∀ t : T, Int.tdiv ((0 : Int) - 1) 2 = 0 ∧ ((0 : Int) - 1) >>> (1 : Nat) = -1 ∧
      Enqueue.loop compare 1 0 0 [t] = some [t] ∧
      ∀ p : PriorityQueue T, p.compare = compare → p.data = [] → p.isFull = false →
        Enqueue p t = some ({ p with data := [t] }, none)) ∧
    (heapify compare [] 0 0 = some [] ∧
      ∀ (p : PriorityQueue T) (x : T), p.data = [x] →
        ∃ p1, Dequeue p = some (p1, x, none) ∧ p1.data = []) := by
  have hloop : ∀ t : T, Enqueue.loop compare 1 0 0 [t] = some [t] := by
    intro t
    simp [Enqueue.loop, index, hrefl]
  refine ⟨?_, ?_, ?_, ?_, ?_⟩
  · intro data t
    have hlen : (data ++ [t]).length = data.length + 1 := by simp
    have hnode : (((data ++ [t]).length : Nat) : Int) - 1 = (data.length : Int) := by
      rw [hlen]; push_cast; ring
    rw [hnode]
    have hpar : Int.tdiv ((data.length : Int) - 1) 2 ≤ (data.length : Int) := by
      by_cases hn : data.length = 0
      · rw [hn]; decide
      · rw [tdiv_parent _ (by omega)]; omega
    obtain ⟨data1, h1, h2, -⟩ :=
      siftUp_total compare ((data ++ [t]).length + 1) data.length
        (Int.tdiv ((data.length : Int) - 1) 2) (data ++ [t]) (by omega) hpar (by omega)
        (by rw [hlen]; push_cast; omega)
    exact ⟨data1, h1, h2⟩
  · intro data
    obtain ⟨data1, h1, h2, -⟩ :=
      siftDown_total compare (data.length + 1) 0 data (by omega) (by omega)
    refine ⟨data1, ?_, h2⟩
    unfold heapify
    rw [Int.toNat_natCast]
    simpa using h1
  · intro p t _
    obtain ⟨p1, err, h1, -⟩ := Enqueue_total p t
    obtain ⟨p2, v, err2, h2, -⟩ := Dequeue_total p
    exact ⟨⟨p1, err, h1⟩, ⟨p2, v, err2, h2⟩⟩
  · intro t
    refine ⟨by decide, by decide, hloop t, ?_⟩
    intro p hc hd hf
    unfold Enqueue
    simp only [hf, Bool.false_eq_true, if_false, hd, List.nil_append]
    show (match Enqueue.loop p.compare 2 0 0 [t] with
      | none => none
      | some data1 => some ({ p with data := data1 }, none)) = _
    have : Enqueue.loop p.compare 2 0 0 [t] = some [t] := by
      rw [hc]; simp [Enqueue.loop, index, hrefl]
    rw [this]
  · refine ⟨by simp [heapify, heapify.loop, heapify.pick], ?_⟩
    intro p x hd
    obtain ⟨p1, v, err, h1, -, -, -, h5⟩ := Dequeue_total p
    obtain ⟨e1, e2, e3⟩ := h5 (by rw [hd]; simp)
    rw [hd] at e2 e3
    simp only [List.head?_cons, Option.some.injEq] at e2
    subst e1; subst e2
    refine ⟨p1, h1, ?_⟩
    have := e3.length_eq
    simp only [List.length_cons, List.length_nil] at this
    exact List.length_eq_zero.mp (by omega)

theorem C20_heap_loops_safe_witness :
    (∀ x, ComparatorRealNumber x x = 0) ∧
    Enqueue.loop ComparatorRealNumber 8 6 (Int.tdiv (6 - 1) 2) [2, 4, 3, 7, 5, 6, 1]
      = some [1, 4, 2, 7, 5, 6, 3] ∧
    heapify ComparatorRealNumber [6, 4, 3, 7, 5] 5 0 = some [3, 4, 6, 7, 5] ∧
    ((∀ (data : List Int) (t : Int), ∃ data1,
      Enqueue.loop ComparatorRealNumber ((data ++ [t]).length + 1)
        (((data ++ [t]).length : Int) - 1)
        (Int.tdiv (((data ++ [t]).length : Int) - 1 - 1) 2) (data ++ [t]) = some data1 ∧
      data1.length = (data ++ [t]).length) ∧
    (∀ data : List Int, ∃ data1,
      heapify ComparatorRealNumber data (data.length : Int) 0 = some data1 ∧
        data1.length = data.length) ∧
    (∀ (p : PriorityQueue Int) (t : Int), p.compare = ComparatorRealNumber →
      (∃ p1 err, Enqueue p t = some (p1, err)) ∧ ∃ p1 v err, Dequeue p = some (p1, v, err)) ∧
    (∀ t : Int, Int.tdiv ((0 : Int) - 1) 2 = 0 ∧ ((0 : Int) - 1) >>> (1 : Nat) = -1 ∧
      Enqueue.loop ComparatorRealNumber 1 0 0 [t] = some [t] ∧
      ∀ p : PriorityQueue Int, p.compare = ComparatorRealNumber → p.data = [] →
        p.isFull = false → Enqueue p t = some ({ p with data := [t] }, none)) ∧
    (heapify ComparatorRealNumber [] 0 0 = some [] ∧
      ∀ (p : PriorityQueue Int) (x : Int), p.data = [x] →
        ∃ p1, Dequeue p = some (p1, x, none) ∧ p1.data = [])) :=
  ⟨totalOrder_ComparatorRealNumber.refl, by rfl, by rfl,
    C20_heap_loops_safe ComparatorRealNumber totalOrder_ComparatorRealNumber.refl⟩

section LevelChain
variable {T : Type}

theorem levelChain_loop_spec (mem : List (skipListNode T)) (l : Nat) (xs : List Nat) :
    ∀ (a fuel : Nat), Path mem l none a xs → xs.length < fuel →
      levelChain.loop mem l fuel a = some xs := by
  induction xs with
  | nil =>
    intro a fuel hp hf
    obtain ⟨f, rfl⟩ : ∃ f, fuel = f + 1 := ⟨fuel - 1, by simp at hf; omega⟩
    simp only [Path] at hp
    simp [levelChain.loop, hp]
  | cons b xs ih =>
    intro a fuel hp hf
    obtain ⟨f, rfl⟩ : ∃ f, fuel = f + 1 := ⟨fuel - 1, by simp at hf; omega⟩
    simp only [Path] at hp
    simp only [levelChain.loop, hp.1]
    rw [ih b f hp.2 (by simp at hf; omega)]

/-- Every link of a walk leads to a later node of the walk or is the closing link. -/
theorem Path_link_mem {mem : List (skipListNode T)} {l : Nat} {e : Option Nat} :
    ∀ (xs : List Nat) (a : Nat), Path mem l e a xs → ∀ x ∈ a :: xs,
      ∃ q, loadForward mem x l = some q ∧ (q = e ∨ ∃ y ∈ xs, q = some y) := by
  intro xs
  induction xs with
  | nil =>
    intro a hp x hx
    simp only [List.mem_singleton] at hx
    subst hx
    exact ⟨e, hp, Or.inl rfl⟩
  | cons b xs ih =>
    intro a hp x hx
    rcases List.mem_cons.mp hx with h | h
    · subst h
      exact ⟨some b, hp.1, Or.inr ⟨b, by simp, rfl⟩⟩
    · obtain ⟨q, hq, hq2⟩ := ih b hp.2 x h
      refine ⟨q, hq, ?_⟩
      rcases hq2 with h1 | ⟨y, hy, h1⟩
      · exact Or.inl h1
      · exact Or.inr ⟨y, List.mem_cons_of_mem _ hy, h1⟩

variable [Inhabited T] {compare : Comparator T}

theorem WellFormed.levelChain {sl : SkipList T} {chain : List Nat}
    (hR : WellFormed compare sl chain) (l : Nat) (hl : l < MaxLevel) :
    Tile.levelChain sl l = some (atLevel sl.mem l chain) := by
  unfold Tile.levelChain
  apply levelChain_loop_spec _ _ _ _ _ (hR.linked l hl)
  have h1 := (atLevel_sublist sl.mem l chain).length_le
  have h2 := hR.length_lt
  omega

theorem WellFormed.levelChain_zero {sl : SkipList T} {chain : List Nat}
    (hR : WellFormed compare sl chain) : Tile.levelChain sl 0 = some chain := by
  rw [hR.levelChain 0 (by decide), atLevel_zero hR.height_pos]

/-- No link of the header or of a node of the list leads to a node outside the list. -/
theorem WellFormed.no_dangling {sl : SkipList T} {chain : List Nat}
    (hR : WellFormed compare sl chain) (node : Nat) (hnode : node ∉ chain) :
    ∀ x ∈ sl.header :: chain, ∀ l, loadForward sl.mem x l ≠ some (some node) := by
  intro x hx l hload
  have hlt := loadForward_lt_height hload
  have hl : l < MaxLevel := by
    rcases List.mem_cons.mp hx with h | h
    · rw [h, hR.header_height] at hlt; exact hlt
    · have h1 := hR.height_le x h
      have h2 := hR.level_le
      omega
  have hxin : x ∈ sl.header :: atLevel sl.mem l chain := by
    rcases List.mem_cons.mp hx with h | h
    · simp [h]
    · exact List.mem_cons_of_mem _ (mem_atLevel.mpr ⟨h, hlt⟩)
  obtain ⟨q, hq, hq2⟩ := Path_link_mem _ _ (hR.linked l hl) x hxin
  rw [hload] at hq
  rcases hq2 with h | ⟨y, hy, h⟩
  · rw [← Option.some.inj hq] at h
    cases h
  · rw [← Option.some.inj hq] at h
    have : node = y := Option.some.inj h
    exact hnode (this ▸ (mem_atLevel.mp hy).1)

theorem Reachable.wellFormed (hT : TotalOrder compare) {sl : SkipList T}
    (h : Reachable compare sl) : ∃ chain, WellFormed compare sl chain := by
  obtain ⟨xs, chain, hR, -⟩ := h.holds hT
  exact ⟨chain, hR⟩

end LevelChain

section DeleteChain
variable {T : Type} [Inhabited T] {compare : Comparator T}

/-- DeleteElement on a well-formed list, in terms of the chain of addresses. -/
theorem WellFormed.delete (hT : TotalOrder compare) {sl : SkipList T} {chain : List Nat}
    (hR : WellFormed compare sl chain) (t : T) :
    ∃ sl1 chain1, DeleteElement sl t = some (sl1, true) ∧ WellFormed compare sl1 chain1 ∧
      ((∃ x ∈ chain, compare (valAt sl.mem x) t = 0) →
        ∃ l1 node l2, chain = l1 ++ node :: l2 ∧ chain1 = l1 ++ l2 ∧ node ∉ chain1 ∧
          compare (valAt sl.mem node) t = 0 ∧ sl1.size = sl.size - 1) ∧
      ((¬ ∃ x ∈ chain, compare (valAt sl.mem x) t = 0) → sl1 = sl ∧ chain1 = chain) := by
  have hS := Split.exists hT sl.mem t chain hR.sorted
  by_cases hex : ∃ x ∈ chain, compare (valAt sl.mem x) t = 0
  · cases hpost : chain.dropWhile (fun a => decide (compare (valAt sl.mem a) t < 0)) with
    | nil =>
      exfalso
      obtain ⟨x, hx, hx0⟩ := hex
      exact hS.no_equal hT hR.sorted (by simp [hpost]) x hx hx0
    | cons node rest =>
      rw [hpost] at hS
      by_cases h0 : compare (valAt sl.mem node) t = 0
      · obtain ⟨sl1, hdel, hR1, -, hsz⟩ := Delete_spec_present hR hS h0
        refine ⟨sl1, _, hdel, hR1, fun _ => ⟨_, node, rest, hS.eq, rfl, ?_, h0, hsz⟩,
          fun hno => absurd hex hno⟩
        have hnd := hR.nodup
        rw [hS.eq] at hnd
        obtain ⟨-, n2, n3⟩ := List.nodup_append.mp hnd
        intro hmem
        rcases List.mem_append.mp hmem with h | h
        · exact n3 h (by simp)
        · exact (List.nodup_cons.mp n2).1 h
      · exfalso
        obtain ⟨x, hx, hx0⟩ := hex
        refine hS.no_equal hT hR.sorted ?_ x hx hx0
        intro y hy
        simp only [List.head?_cons, Option.some.injEq] at hy
        subst hy
        exact h0
  · refine ⟨sl, chain, ?_, hR, fun h => absurd h hex, fun _ => ⟨rfl, rfl⟩⟩
    apply Delete_spec_absent hR hS
    intro y hy heq
    apply hex
    refine ⟨y, ?_, heq⟩
    rw [hS.eq]
    exact List.mem_append_right _ (List.mem_of_mem_head? hy)

end DeleteChain

/-- C17: `NewSkipList` returns a list of level 1. In every state reachable by Insert and
DeleteElement the level lies in `1..MaxLevel`, the header has a nil link at every level
index from the level up, and when the list is not empty the header has a successor at
index `level - 1`, so the level is the highest one holding a node; an empty list has
level 1, in particular after DeleteElement removed the last element. -/
theorem C17_level_invariant :
    (∀ (T : Type) [Inhabited T] (compare : Comparator T), (NewSkipList compare).level = 1) ∧
    (∀ (T : Type) [Inhabited T] (compare : Comparator T), TotalOrder compare →
      ∀ sl : SkipList T, Reachable compare sl →
        1 ≤ sl.level ∧ sl.level ≤ MaxLevel ∧ MaxLevel = 32 ∧
        (∀ l, sl.level ≤ l → l < MaxLevel → loadForward sl.mem sl.header l = some none) ∧
        (sl.Len ≠ 0 → ∃ q, loadForward sl.mem sl.header (sl.level - 1) = some (some q)) ∧
        (sl.Len = 0 → sl.level = 1) ∧
        (∀ (target : T) (xs : List T), sl.Len = 1 → AsSlice sl = some xs →
          (∃ e ∈ xs, compare e target = 0) →
          ∃ sl1, DeleteElement sl target = some (sl1, true) ∧ sl1.Len = 0 ∧
            sl1.level = 1)) := by
  refine ⟨fun T _ compare => rfl, ?_⟩
  intro T _ compare hT sl hreach
  obtain ⟨chain, hR⟩ := hreach.wellFormed hT
  have hempty : ∀ (s : SkipList T) (c : List Nat), WellFormed compare s c → s.Len = 0 →
      s.level = 1 := by
    intro s c hs hlen
    have hc : c = [] := by
      have := hs.size_eq
      simp only [SkipList.Len] at hlen
      rw [hlen] at this
      exact List.length_eq_zero.mp (by exact_mod_cast this.symm)
    rcases hs.level_tight with h | ⟨a, ha, -⟩
    · exact h
    · rw [hc] at ha; simp at ha
  refine ⟨hR.level_pos, hR.level_le, rfl, ?_, ?_, hempty sl chain hR, ?_⟩
  · intro l hl hlm
    have hp := Path_head (hR.linked l hlm)
    rw [atLevel_eq_nil (fun x hx => le_trans (hR.height_le x hx) hl)] at hp
    exact hp
  · intro hlen
    have hlp := hR.level_pos
    have hll := hR.level_le
    have hp := Path_head (hR.linked (sl.level - 1) (by omega))
    have hne : atLevel sl.mem (sl.level - 1) chain ≠ [] := by
      rcases hR.level_tight with h | ⟨a, ha, hah⟩
      · by_cases hc : chain = []
        · exfalso
          apply hlen
          have := hR.size_eq
          rw [hc] at this
          simpa [SkipList.Len] using this
        · obtain ⟨a, ha⟩ := List.exists_mem_of_ne_nil chain hc
          intro hnil
          have hmem : a ∈ atLevel sl.mem (sl.level - 1) chain :=
            mem_atLevel.mpr ⟨ha, by
              have := hR.height_pos a ha
              omega⟩
          rw [hnil] at hmem
          simp at hmem
      · intro hnil
        have hmem : a ∈ atLevel sl.mem (sl.level - 1) chain :=
          mem_atLevel.mpr ⟨ha, by omega⟩
        rw [hnil] at hmem
        simp at hmem
    cases hat : atLevel sl.mem (sl.level - 1) chain with
    | nil => exact absurd hat hne
    | cons y ys =>
      rw [hat] at hp
      exact ⟨y, hp⟩
  · intro target xs hlen hxs hex
    have hH := hreach.holds_of_asSlice hT hxs
    obtain ⟨sl1, l1, e, l2, h1, -, -, -, h5, h6⟩ := hH.delete_present hT target hex
    have hl0 : sl1.Len = 0 := by
      simp only [SkipList.Len] at hlen ⊢
      omega
    obtain ⟨c1, hR1, -⟩ := h5
    exact ⟨sl1, h1, hl0, hempty sl1 c1 hR1 hl0⟩

theorem C17_level_invariant_witness :
    TotalOrder ComparatorRealNumber ∧ Reachable ComparatorRealNumber exampleList ∧
    exampleList.level = 3 ∧
    loadForward exampleList.mem exampleList.header 2 = some (some 4) ∧
    loadForward exampleList.mem exampleList.header 3 = some none ∧
    (1 ≤ exampleList.level ∧ exampleList.level ≤ MaxLevel ∧ MaxLevel = 32 ∧
      (∀ l, exampleList.level ≤ l → l < MaxLevel →
        loadForward exampleList.mem exampleList.header l = some none) ∧
      (exampleList.Len ≠ 0 →
        ∃ q, loadForward exampleList.mem exampleList.header (exampleList.level - 1)
          = some (some q)) ∧
      (exampleList.Len = 0 → exampleList.level = 1) ∧
      (∀ (target : Int) (xs : List Int), exampleList.Len = 1 → AsSlice exampleList = some xs →
        (∃ e ∈ xs, ComparatorRealNumber e target = 0) →
        ∃ sl1, DeleteElement exampleList target = some (sl1, true) ∧ sl1.Len = 0 ∧
          sl1.level = 1)) :=
  ⟨totalOrder_ComparatorRealNumber, exampleList_reachable, by rfl, by rfl, by rfl,
    C17_level_invariant.2 Int ComparatorRealNumber totalOrder_ComparatorRealNumber
      exampleList exampleList_reachable⟩

/-- C18: in every reachable state (total-order comparator, any drawn levels) and for
every level index `l` below MaxLevel, the walk of level-`l` links from the header ends,
visits exactly the nodes of the level-0 walk that have more than `l` forward slots, in
the same order, and their values are non-decreasing; so a node on level `l` is on every
lower level. DeleteElement returns, and afterwards no forward link of the header or of a
remaining node leads to a node that left the level-0 walk. -/
theorem C18_level_structure :
    (∀ (T : Type) [Inhabited T] (compare : Comparator T), TotalOrder compare →
      ∀ sl : SkipList T, Reachable compare sl →
        ∃ chain, levelChain sl 0 = some chain ∧
          ∀ l, l < MaxLevel →
            levelChain sl l = some (chain.filter (fun a => decide (l < height sl.mem a))) ∧
            ((chain.filter (fun a => decide (l < height sl.mem a))).map
              (valAt sl.mem)).Pairwise (fun a b => compare a b ≤ 0) ∧
            (∀ k, k ≤ l → ∀ a ∈ chain.filter (fun a => decide (l < height sl.mem a)),
              a ∈ chain.filter (fun a => decide (k < height sl.mem a)))) ∧
    (∀ (T : Type) [Inhabited T] (compare : Comparator T), TotalOrder compare →
      ∀ (sl : SkipList T) (target : T), Reachable compare sl →
        ∃ sl1 chain chain1, DeleteElement sl target = some (sl1, true) ∧
          levelChain sl 0 = some chain ∧ levelChain sl1 0 = some chain1 ∧
          ((∃ x ∈ chain, compare (valAt sl.mem x) target = 0) →
            ∃ l1 node l2, chain = l1 ++ node :: l2 ∧ chain1 = l1 ++ l2 ∧ node ∉ chain1) ∧
          (∀ node, node ∈ chain → node ∉ chain1 →
            ∀ x ∈ sl1.header :: chain1, ∀ l,
              loadForward sl1.mem x l ≠ some (some node))) := by
  refine ⟨?_, ?_⟩
  · intro T _ compare hT sl hreach
    obtain ⟨chain, hR⟩ := hreach.wellFormed hT
    refine ⟨chain, hR.levelChain_zero, ?_⟩
    intro l hl
    refine ⟨hR.levelChain l hl, ?_, ?_⟩
    · exact hR.sorted.sublist ((List.filter_sublist _).map _)
    · intro k hk a ha
      simp only [List.mem_filter, decide_eq_true_eq] at ha ⊢
      exact ⟨ha.1, by omega⟩
  · intro T _ compare hT sl target hreach
    obtain ⟨chain, hR⟩ := hreach.wellFormed hT
    obtain ⟨sl1, chain1, h1, hR1, h3, -⟩ := hR.delete hT target
    refine ⟨sl1, chain, chain1, h1, hR.levelChain_zero, hR1.levelChain_zero, ?_, ?_⟩
    · intro hex
      obtain ⟨l1, node, l2, e1, e2, e3, -⟩ := h3 hex
      exact ⟨l1, node, l2, e1, e2, e3⟩
    · intro node _ hnot
      exact hR1.no_dangling node hnot

theorem C18_level_structure_witness :
    TotalOrder ComparatorRealNumber ∧ Reachable ComparatorRealNumber exampleList ∧
    levelChain exampleList 0 = some [4, 6, 2, 1, 3, 5] ∧
    levelChain exampleList 1 = some [4, 6, 2] ∧
    levelChain exampleList 2 = some [4] ∧
    (DeleteElement exampleList 3).bind (fun r => levelChain r.1 1) = some [4, 2] ∧
    ∃ chain, levelChain exampleList 0 = some chain ∧
      ∀ l, l < MaxLevel →
        levelChain exampleList l
          = some (chain.filter (fun a => decide (l < height exampleList.mem a))) ∧
        ((chain.filter (fun a => decide (l < height exampleList.mem a))).map
          (valAt exampleList.mem)).Pairwise (fun a b => ComparatorRealNumber a b ≤ 0) ∧
        (∀ k, k ≤ l →
          ∀ a ∈ chain.filter (fun a => decide (l < height exampleList.mem a)),
            a ∈ chain.filter (fun a => decide (k < height exampleList.mem a))) :=
  ⟨totalOrder_ComparatorRealNumber, exampleList_reachable, by rfl, by rfl, by rfl, by rfl,
    C18_level_structure.1 Int ComparatorRealNumber totalOrder_ComparatorRealNumber
      exampleList exampleList_reachable⟩

theorem randomLevel_bound_eq : randomLevel.bound = 16383 := by decide

/-- The loop of `randomLevel` stops at the first failing trial. -/
theorem randomLevel_loop_spec (rand : Nat → Nat) :
    ∀ (k fuel used level : Nat),
      (∀ j, j < k → rand (used + j) &&& 0xFFFF < randomLevel.bound) →
      ¬ (rand (used + k) &&& 0xFFFF < randomLevel.bound) → k < fuel →
      randomLevel.loop rand fuel used level = some (level + k, used + k + 1) := by
  intro k
  induction k with
  | zero =>
    intro fuel used level _ hfail hf
    obtain ⟨f, rfl⟩ : ∃ f, fuel = f + 1 := ⟨fuel - 1, by omega⟩
    simp only [Nat.add_zero] at hfail
    simp [randomLevel.loop, hfail]
  | succ k ih =>
    intro fuel used level hsucc hfail hf
    obtain ⟨f, rfl⟩ : ∃ f, fuel = f + 1 := ⟨fuel - 1, by omega⟩
    have h0 := hsucc 0 (by omega)
    simp only [Nat.add_zero] at h0
    simp only [randomLevel.loop, h0, if_true]
    rw [ih f (used + 1) (level + 1)
      (fun j hj => by
        have := hsucc (j + 1) (by omega)
        rwa [show used + (j + 1) = used + 1 + j by omega] at this)
      (by rwa [show used + (k + 1) = used + 1 + k by omega] at hfail)
      (by omega)]
    congr 2 <;> omega

/-- The loop of `randomLevel` never returns when every trial succeeds. -/
theorem randomLevel_loop_diverges (rand : Nat → Nat)
    (hall : ∀ j, rand j &&& 0xFFFF < randomLevel.bound) :
    ∀ (fuel used level : Nat), randomLevel.loop rand fuel used level = none := by
  intro fuel
  induction fuel with
  | zero => intro used level; rfl
  | succ fuel ih =>
    intro used level
    simp only [randomLevel.loop, hall used, if_true]
    exact ih (used + 1) (level + 1)

/-- C19, amended: with the random source a sequence of draws, a trial succeeds exactly
when `(r & 0xFFFF) < 16383`. When `k` successful trials precede the first failing one,
`randomLevel` returns `min(1 + k, MaxLevel)`, which lies in `1..MaxLevel` (32), after
exactly `k + 1` draws: the draw stops at the first failing trial only, not when the
maximum level is reached. With a source whose trials all succeed it does not return.
The number `k` is kept below the range in which the counter, a Go `int`, could wrap. -/
theorem C19_random_level (rand : Nat → Nat) (k : Nat) (_hk : k < 2 ^ 31 - 1)
    (hsucc : ∀ j, j < k → rand j &&& 0xFFFF < 16383)
    (hfail : ¬ (rand k &&& 0xFFFF < 16383)) (fuel : Nat) (hfuel : k < fuel) :
    randomLevel rand fuel = some (min (1 + k) MaxLevel, k + 1) ∧
    1 ≤ min (1 + k) MaxLevel ∧ min (1 + k) MaxLevel ≤ MaxLevel ∧ MaxLevel = 32 ∧
    randomLevel.bound = 16383 ∧
    (∀ other : Nat → Nat, (∀ j, other j &&& 0xFFFF < 16383) →
      ∀ budget, randomLevel other budget = none) := by
  have hloop := randomLevel_loop_spec rand k fuel 0 1
    (fun j hj => by rw [randomLevel_bound_eq]; simpa using hsucc j hj)
    (by rw [randomLevel_bound_eq]; simpa using hfail) hfuel
  refine ⟨?_, ?_, ?_, rfl, randomLevel_bound_eq, ?_⟩
  · unfold randomLevel
    rw [hloop]
    simp only [Nat.zero_add]
    congr 2
    simp only [MaxLevel]
    split <;> omega
  · simp only [MaxLevel]; omega
  · exact Nat.min_le_right _ _
  · intro other hall budget
    unfold randomLevel
    rw [randomLevel_loop_diverges other (fun j => by rw [randomLevel_bound_eq]; exact hall j)]

theorem C19_random_level_witness :
    (3 : Nat) < 2 ^ 31 - 1 ∧
    (∀ j, j < 3 → (fun i => if i < 3 then 0 else 0xFFFF : Nat → Nat) j &&& 0xFFFF < 16383) ∧
    ¬ ((fun i => if i < 3 then 0 else 0xFFFF : Nat → Nat) 3 &&& 0xFFFF < 16383) ∧
    (3 : Nat) < 10 ∧
    randomLevel (fun i => if i < 3 then 0 else 0xFFFF) 10 = some (4, 4) ∧
    (randomLevel (fun i => if i < 3 then 0 else 0xFFFF) 10 = some (min (1 + 3) MaxLevel, 3 + 1) ∧
      1 ≤ min (1 + 3) MaxLevel ∧ min (1 + 3) MaxLevel ≤ MaxLevel ∧ MaxLevel = 32 ∧
      randomLevel.bound = 16383 ∧
      (∀ other : Nat → Nat, (∀ j, other j &&& 0xFFFF < 16383) →
        ∀ budget, randomLevel other budget = none)) :=
  ⟨by decide, by decide, by decide, by decide, by decide,
    C19_random_level (fun i => if i < 3 then 0 else 0xFFFF) 3 (by decide) (by decide)
      (by decide) 10 (by decide)⟩

/-- C19 as stated fails: a source with 40 successful trials before the first failing
one makes `randomLevel` take 41 draws, more than MaxLevel, and a source whose trials all
succeed gives no result, so not every source is served within MaxLevel trials. -/
theorem C19_random_level_counterexample :
    randomLevel exampleRand 100 = some (32, 41) ∧ ¬ (41 ≤ MaxLevel) ∧
    ¬ (∀ rand : Nat → Nat, ∃ fuel level used,
        randomLevel rand fuel = some (level, used) ∧ used ≤ MaxLevel) := by
  refine ⟨by decide, by decide, ?_⟩
  intro h
  obtain ⟨fuel, level, used, h1, -⟩ := h exampleRandZero
  unfold randomLevel at h1
  rw [randomLevel_loop_diverges exampleRandZero
    (fun _ => by show (0 : Nat) &&& 0xFFFF < randomLevel.bound; decide)] at h1
  cases h1

end Tile
